import Mathlib

/-!
# protoc-gen-go-gin: the HTTP mapping-rule compiler of `http.go`

A shallow embedding of `http.go` and a verification of its specification.

Modelling conventions.

* A Go `string` is a `List Char` (type `Str`): the sequence of its runes.  All strings
  reaching this code are protobuf `string` fields or identifiers, which are valid
  UTF-8.  Where the source measures a string in bytes (`len(name) > 1`) the model uses
  the UTF-8 byte length `utf8Len`.
* `os.Exit(2)` is the result `none` of an `Option`.
* The package variable `methodSets` is passed explicitly (`MethodSets`), a total map
  with default `0`, as a Go map read of an absent key.
* A Go `map` is an association list with distinct keys; the unspecified order of
  `for k, v := range m` is a parameter `ord` that rearranges the entries.
* `regexp` is modelled by a backtracking matcher with the leftmost-first semantics of
  the Go library, for the constructs the two patterns of the source use.
-/

namespace GinHttp

/-- A Go string, as the list of its runes. -/
abbrev Str := List Char

/-! ## Helpers from the Go standard library -/

/-- Length in bytes of the UTF-8 encoding: Go's `len(s)`. -/
def utf8Len (s : Str) : Nat := (s.map fun c => c.utf8Size).sum

/-- Go's `unicode.IsSpace`. -/
def isSpace (c : Char) : Bool :=
  let n := c.toNat
  (9 ≤ n && n ≤ 13) || n == 32 || n == 0x85 || n == 0xA0 || n == 0x1680 ||
  (0x2000 ≤ n && n ≤ 0x200A) || n == 0x2028 || n == 0x2029 || n == 0x202F ||
  n == 0x205F || n == 0x3000

/-- Go's `strings.TrimSpace`. -/
def trimSpace (s : Str) : Str :=
  ((s.dropWhile isSpace).reverse.dropWhile isSpace).reverse

/-- Auxiliary loop of `splitOn`: `cur` is the segment being read, reversed. -/
def splitAux (sep : Char) : Str → Str → List Str
  | cur, [] => [cur.reverse]
  | cur, c :: s => if c = sep then cur.reverse :: splitAux sep [] s else splitAux sep (c :: cur) s

/-- Go's `strings.Split(s, sep)` for a one-character separator. -/
def splitOn (s : Str) (sep : Char) : List Str := splitAux sep [] s

/-- Go's `strings.Join(xs, sep)` for a one-character separator. -/
def joinWith (sep : Char) : List Str → Str
  | [] => []
  | [x] => x
  | x :: y :: xs => x ++ sep :: joinWith sep (y :: xs)

/-- Go's `strings.ReplaceAll(value, "*", ".*")`. -/
def replaceStar : Str → Str
  | [] => []
  | c :: s => if c = '*' then '.' :: '*' :: replaceStar s else c :: replaceStar s

/-- Go's `strings.TrimSuffix(s, "\n")`. -/
def trimSuffixNL (s : Str) : Str :=
  match s.reverse with
  | '\n' :: r => r.reverse
  | _ => s

/-- Go's `strings.TrimPrefix(s, "//")`. -/
def trimPrefixSlashes : Str → Str
  | '/' :: '/' :: s => s
  | s => s

/-! ## The naming transform -/

/-- Source `isASCIILower`. -/
def isASCIILower (c : Char) : Bool := 'a'.toNat ≤ c.toNat && c.toNat ≤ 'z'.toNat

/-- Source `isASCIIDigit`. -/
def isASCIIDigit (c : Char) : Bool := '0'.toNat ≤ c.toNat && c.toNat ≤ '9'.toNat

/-- The assignment `c ^= ' '` of `camelCase`, applied to an ASCII lower-case letter. -/
def xorSpace (c : Char) : Char := Char.ofNat (c.toNat ^^^ 32)

/-- The `for ; i < len(s); i++` loop of `camelCase`.  The flag is `true` while the inner
loop `for i+1 < len(s) && isASCIILower(s[i+1])` is copying the lower-case letters that
follow the first letter of a word, and `false` at the head of an outer iteration. -/
def camelLoop : Bool → Str → Str
  | _, [] => []
  | true, c :: s =>
    if isASCIILower c then c :: camelLoop true s
    else if c = '_' && (match s with | [] => false | d :: _ => isASCIILower d) then
      camelLoop false s
    else if isASCIIDigit c then c :: camelLoop false s
    else c :: camelLoop true s
  | false, c :: s =>
    if c = '_' && (match s with | [] => false | d :: _ => isASCIILower d) then
      camelLoop false s
    else if isASCIIDigit c then c :: camelLoop false s
    else (if isASCIILower c then xorSpace c else c) :: camelLoop true s

/-- Source `camelCase`.  The source indexes bytes; the bytes of a multi-byte rune are
neither `_`, digits nor ASCII lower-case letters and are copied one by one, so the
loop over runes produces the same string. -/
def camelCase : Str → Str
  | [] => []
  | c :: s => if c = '_' then 'X' :: camelLoop false s else camelLoop false (c :: s)

/-- Source `camelCaseVars`. -/
def camelCaseVars (s : Str) : Str :=
  joinWith '.' ((splitOn s '.').map camelCase)

/-! ## The fragment of Go's `regexp` used by the source

Both patterns of the source are a concatenation of literals, greedy stars of a
character class, one greedy optional literal and (in `replacePath`) `\b` and the `.`
that come from the interpolated variable name.  Capture groups only delimit text.  The
matcher is a backtracking matcher, which tries the alternatives in the priority order
of the Go library (leftmost-first: a greedy operator takes as much as it can and gives
back one rune at a time). -/

/-- One item of a pattern. -/
inductive Atom where
  /-- A literal rune, matched under the flag `(?i)`. -/
  | lit (c : Char)
  /-- The pattern `.`: any rune but a newline. -/
  | anyNotNL
  /-- A greedy `[...]*` over a character class. -/
  | star (cls : Char → Bool)
  /-- A greedy `c?`. -/
  | opt (c : Char)
  /-- The ASCII word boundary `\b`. -/
  | wordB

/-- Representative of the simple case-folding orbit of a rune, for the runes whose orbit
meets the ASCII letters: `A`-`Z` fold with `a`-`z`, U+017F with `s`, U+212A with `k`. -/
def foldKey (c : Char) : Char :=
  if 'A'.toNat ≤ c.toNat && c.toNat ≤ 'Z'.toNat then Char.ofNat (c.toNat + 32)
  else if c.toNat = 0x17F then 's'
  else if c.toNat = 0x212A then 'k'
  else c

/-- Does the literal `c` of a `(?i)` pattern match the rune `x`? -/
def foldEq (c x : Char) : Bool := foldKey c = foldKey x

/-- The class `\w` that `\b` refers to: `[0-9A-Za-z_]`. -/
def isWordChar (c : Char) : Bool :=
  isASCIIDigit c || isASCIILower c || ('A'.toNat ≤ c.toNat && c.toNat ≤ 'Z'.toNat) || c = '_'

/-- Is an optional rune (`none` at either end of the text) a word character? -/
def isWordAt : Option Char → Bool
  | none => false
  | some c => isWordChar c

/-- The class `\s` of Go's `regexp`: `[\t\n\f\r ]`. -/
def isReSpace (c : Char) : Bool :=
  c = '\t' || c = '\n' || c.toNat = 12 || c = '\r' || c = ' '

/-- The class `[a-z.0-9_\s]` under `(?i)`. -/
def isNameChar (c : Char) : Bool :=
  isASCIILower (foldKey c) || c = '.' || isASCIIDigit c || c = '_' || isReSpace c

/-- The class `[^{}]`. -/
def notBrace (c : Char) : Bool := !(c = '{' || c = '}')

/-- A greedy star over the class `p`, followed by the rest of the pattern `k`: take
runes of the class as long as possible, and give them back one at a time until the
rest matches.  The result is the text the star took and the result of the rest. -/
def starRun (p : Char → Bool) (k : Option Char → Str → Option (List Str × Str)) :
    Option Char → Str → Option (Str × List Str × Str)
  | prev, [] => (k prev []).map fun r => ([], r)
  | prev, x :: s =>
    if p x then
      match starRun p k (some x) s with
      | some (g, r) => some (x :: g, r)
      | none => (k prev (x :: s)).map fun r => ([], r)
    else (k prev (x :: s)).map fun r => ([], r)

/-- Match a pattern at the start of a text; `prev` is the rune before the text (for
`\b`).  The result is the text taken by each atom, in order, and the text left. -/
def matchSeq : List Atom → Option Char → Str → Option (List Str × Str)
  | [], _, s => some ([], s)
  | Atom.lit _ :: _, _, [] => none
  | Atom.lit c :: as, _, x :: s =>
    if foldEq c x then (matchSeq as (some x) s).map fun r => ([x] :: r.1, r.2) else none
  | Atom.anyNotNL :: _, _, [] => none
  | Atom.anyNotNL :: as, _, x :: s =>
    if x = '\n' then none else (matchSeq as (some x) s).map fun r => ([x] :: r.1, r.2)
  | Atom.star p :: as, prev, s =>
    (starRun p (matchSeq as) prev s).map fun r => (r.1 :: r.2.1, r.2.2)
  | Atom.opt _ :: as, prev, [] => (matchSeq as prev []).map fun r => ([] :: r.1, r.2)
  | Atom.opt c :: as, prev, x :: s =>
    if foldEq c x then
      match matchSeq as (some x) s with
      | some r => some ([x] :: r.1, r.2)
      | none => (matchSeq as prev (x :: s)).map fun r => ([] :: r.1, r.2)
    else (matchSeq as prev (x :: s)).map fun r => ([] :: r.1, r.2)
  | Atom.wordB :: as, prev, s =>
    if isWordAt prev != isWordAt s.head? then
      (matchSeq as prev s).map fun r => ([] :: r.1, r.2)
    else none

/-- The leftmost match of a pattern (`FindStringIndex`): the text before the match, the
text taken by each atom, and the text after the match. -/
def findFirst (re : List Atom) : Option Char → Str → Option (Str × List Str × Str)
  | prev, [] => (matchSeq re prev []).map fun r => ([], r)
  | prev, x :: s =>
    match matchSeq re prev (x :: s) with
    | some r => some ([], r)
    | none => (findFirst re (some x) s).map fun r => (x :: r.1, r.2)

/-- All successive non-overlapping matches (`FindAllStringSubmatch(path, -1)`), each given
by the text its atoms took.  The counter is the number of runes of the last match still to
be stepped over.  Both patterns of the source match at least `{}`, so the library's rule
for empty matches never applies. -/
def findAll (re : List Atom) : Nat → Option Char → Str → List (List Str)
  | _, _, [] => []
  | skip + 1, _, x :: s => findAll re skip (some x) s
  | 0, prev, x :: s =>
    match matchSeq re prev (x :: s) with
    | some r => r.1 :: findAll re (r.1.flatten.length - 1) (some x) s
    | none => findAll re 0 (some x) s

/-! ## Path variables -/

/-- The pattern `(?i){([a-z.0-9_\s]*)=?([^{}]*)}` of `buildPathVars`. -/
def pathVarRe : List Atom :=
  [Atom.lit '{', Atom.star isNameChar, Atom.opt '=', Atom.star notBrace, Atom.lit '}']

/-- Assignment `res[k] = v` on a Go map, kept as an association list with distinct keys. -/
def mapSet (res : List (Str × Option Str)) (k : Str) (v : Option Str) : List (Str × Option Str) :=
  if res.any (fun e => e.1 = k) then res.map fun e => if e.1 = k then (k, v) else e
  else res ++ [(k, v)]

/-- The body of `for _, m := range matches` in `buildPathVars`: `m[1]` is the text of the
second atom of `pathVarRe` and `m[2]` that of the fourth. -/
def addMatch (res : List (Str × Option Str)) (m : List Str) : List (Str × Option Str) :=
  let name := trimSpace (m.getD 1 [])
  let m2 := m.getD 3 []
  if utf8Len name > 1 ∧ m2.length > 0 then mapSet res name (some m2) else mapSet res name none

/-- Source `buildPathVars`: the map from variable name to optional capture (the warning
for a trailing `/` writes to stderr only). -/
def buildPathVars (path : Str) : List (Str × Option Str) :=
  (findAll pathVarRe 0 none path).foldl addMatch []

/-- The variable name as it reads inside the pattern of `replacePath`, where it is
interpolated unescaped: a `.` is the wildcard, every other rune that `buildPathVars` can
put into a name (letters, digits, `_`, white space) is a literal. -/
def nameAtoms (name : Str) : List Atom :=
  name.map fun c => if c = '.' then Atom.anyNotNL else Atom.lit c

/-- The pattern `(?i){([\s]*%s\b[\s]*)=?([^{}]*)}` of `replacePath`, with `name` for `%s`. -/
def replaceRe (name : Str) : List Atom :=
  [Atom.lit '{', Atom.star isReSpace] ++ nameAtoms name ++
    [Atom.wordB, Atom.star isReSpace, Atom.opt '=', Atom.star notBrace, Atom.lit '}']

/-- Source `replacePath`. -/
def replacePath (name value path : Str) : Str :=
  match findFirst (replaceRe name) none path with
  | some (pre, _, post) => pre ++ '{' :: name ++ ':' :: replaceStar value ++ '}' :: post
  | none => path

/-! ## The schema: what `protogen` and `protoreflect` hand to the generator -/

/-- The part of `protoreflect.Kind` the source looks at. -/
inductive Kind where
  | scalar
  | message
  | group
  deriving DecidableEq, Repr

/-- A `protoreflect.FieldDescriptor`: `message` is the index of the message type of a
field of message or group kind. -/
structure FieldDesc where
  name : Str
  isMap : Bool
  isList : Bool
  kind : Kind
  message : Nat
  deriving DecidableEq, Repr

/-- The message types of a run: the fields of each message, by message index.  A message
may refer to itself, directly or not. -/
abbrev Schema := Nat → List FieldDesc

/-- The method `ByName` of `protoreflect.FieldDescriptors`. -/
def byName (fields : List FieldDesc) (name : Str) : Option FieldDesc :=
  fields.find? fun fd => fd.name = name

/-- The `Pattern` of an `annotations.HttpRule`. -/
inductive Pattern where
  | none
  | get (path : Str)
  | put (path : Str)
  | post (path : Str)
  | delete (path : Str)
  | patch (path : Str)
  | custom (kind path : Str)
  deriving DecidableEq, Repr

/-- An `annotations.HttpRule`. -/
inductive HttpRule where
  | mk (pattern : Pattern) (body responseBody : Str) (additionalBindings : List HttpRule)

/-- Field `Pattern` of a rule. -/
def HttpRule.pattern : HttpRule → Pattern
  | HttpRule.mk p _ _ _ => p

/-- Field `Body` of a rule. -/
def HttpRule.body : HttpRule → Str
  | HttpRule.mk _ b _ _ => b

/-- Field `ResponseBody` of a rule. -/
def HttpRule.responseBody : HttpRule → Str
  | HttpRule.mk _ _ r _ => r

/-- Field `AdditionalBindings` of a rule. -/
def HttpRule.additionalBindings : HttpRule → List HttpRule
  | HttpRule.mk _ _ _ bs => bs

/-- A `protogen.Method`: `rule` is the extension `annotations.E_Http` of its options,
`input` the index of its input message, `request` and `reply` the qualified Go
identifiers of its input and output types, `leading` and `trailing` its comments. -/
structure Method where
  goName : Str
  name : Str
  streamingClient : Bool
  streamingServer : Bool
  rule : Option HttpRule
  input : Nat
  request : Str
  reply : Str
  leading : Str
  trailing : Str

/-- A `protogen.Service`. -/
structure Service where
  goName : Str
  fullName : Str
  deprecated : Bool
  methods : List Method

/-- A `protogen.File`. -/
structure File where
  generatedFilenamePrefix : Str
  path : Str
  services : List Service

/-- The type `methodDesc` of the generator's template. -/
structure MethodDesc where
  name : Str
  originalName : Str
  num : Nat
  request : Str
  reply : Str
  comment : Str
  path : Str
  method : Str
  hasVars : Bool
  hasBody : Bool
  body : Str
  responseBody : Str
  deriving DecidableEq, Repr

/-- The type `serviceDesc` of the generator's template. -/
structure ServiceDesc where
  serviceType : Str
  serviceName : Str
  metadata : Str
  methods : List MethodDesc
  deriving DecidableEq, Repr

/-- The package variable `methodSets`, a counter per Go method name.  The counter counts
descriptors built by the process, far below the range of a Go `int`. -/
abbrev MethodSets := Str → Nat

/-- The statement `methodSets[name]++`. -/
def bump (st : MethodSets) (name : Str) : MethodSets :=
  fun k => if k = name then st k + 1 else st k

/-- The order in which `for v, s := range vars` visits a map.  Go leaves it unspecified:
any rearrangement of the entries. -/
structure MapOrder where
  visit : List (Str × Option Str) → List (Str × Option Str)
  perm : ∀ l, (visit l).Perm l

/-- The order of insertion. -/
def MapOrder.inserted : MapOrder := ⟨fun l => l, fun l => List.Perm.refl l⟩

/-- The order of insertion, backwards. -/
def MapOrder.backwards : MapOrder := ⟨fun l => l.reverse, fun l => List.reverse_perm l⟩

/-! ## Building descriptors -/

/-- The loop `for _, field := range strings.Split(v, ".")` of `buildMethodDesc`, from the
field list `fields`: `false` when the loop reaches `os.Exit(2)`.  The warnings for map
and list fields write to stderr only. -/
def checkSegments (sch : Schema) : List FieldDesc → List Str → Bool
  | _, [] => true
  | fields, seg :: rest =>
    if trimSpace seg = [] then checkSegments sch fields rest
    else
      let field := if seg.contains ':' then (splitOn seg ':').headD [] else seg
      match byName fields field with
      | Option.none => false
      | some fd =>
        if fd.isMap then checkSegments sch fields rest
        else if fd.isList then checkSegments sch fields rest
        else if fd.kind = Kind.message ∨ fd.kind = Kind.group then
          checkSegments sch (sch fd.message) rest
        else checkSegments sch fields rest

/-- The loop `for v, s := range vars` of `buildMethodDesc` over the entries in the order
they are visited: the rewritten path, or `none` when the run exits. -/
def varsLoop (sch : Schema) (input : Nat) : List (Str × Option Str) → Str → Option Str
  | [], path => some path
  | (v, s) :: rest, path =>
    let path1 := match s with
      | some value => replacePath v value path
      | Option.none => path
    if checkSegments sch (sch input) (splitOn v '.') then varsLoop sch input rest path1
    else Option.none

/-- The comment of a descriptor, as `buildMethodDesc` builds it. -/
def buildComment (m : Method) : Str :=
  let comment := m.leading ++ m.trailing
  if comment ≠ [] then
    "// ".toList ++ m.goName ++ trimPrefixSlashes (trimSuffixNL comment)
  else comment

/-- Source `buildMethodDesc`: the descriptor and the counter after the deferred
`methodSets[m.GoName]++`, or `none` when the run exits. -/
def buildMethodDesc (ord : MapOrder) (sch : Schema) (st : MethodSets) (m : Method)
    (method path : Str) : Option (MethodDesc × MethodSets) :=
  let vars := buildPathVars path
  match varsLoop sch m.input (ord.visit vars) path with
  | Option.none => Option.none
  | some path1 =>
    some ({ name := m.goName
            originalName := m.name
            num := st m.goName
            request := m.request
            reply := m.reply
            comment := buildComment m
            path := path1
            method := method
            hasVars := decide (vars.length > 0)
            hasBody := false
            body := []
            responseBody := [] }, bump st m.goName)

/-- The string `fmt.Sprintf("%s/%s/%s", omitemptyPrefix, service.Desc.FullName(), m.Desc.Name())`. -/
def defaultPath (omitemptyPrefix : Str) (service : Service) (m : Method) : Str :=
  omitemptyPrefix ++ '/' :: service.fullName ++ '/' :: m.name

/-- The `switch pattern := rule.Pattern.(type)` of `buildHTTPRule`: the pair `(path, method)`. -/
def patternPathMethod : Pattern → Str × Str
  | Pattern.none => ([], [])
  | Pattern.get p => (p, "GET".toList)
  | Pattern.put p => (p, "PUT".toList)
  | Pattern.post p => (p, "POST".toList)
  | Pattern.delete p => (p, "DELETE".toList)
  | Pattern.patch p => (p, "PATCH".toList)
  | Pattern.custom kind p => (p, kind)

/-- Source `buildHTTPRule` (the warnings on the body policy write to stderr only). -/
def buildHTTPRule (ord : MapOrder) (sch : Schema) (st : MethodSets) (service : Service)
    (m : Method) (rule : HttpRule) (omitemptyPrefix : Str) : Option (MethodDesc × MethodSets) :=
  let pm := patternPathMethod rule.pattern
  let method := if pm.2 = [] then "POST".toList else pm.2
  let path := if pm.1 = [] then defaultPath omitemptyPrefix service m else pm.1
  let body := rule.body
  let responseBody := rule.responseBody
  match buildMethodDesc ord sch st m method path with
  | Option.none => Option.none
  | some (md, st1) =>
    let md1 : MethodDesc :=
      if body = "*".toList then { md with hasBody := true, body := [] }
      else if body ≠ [] then { md with hasBody := true, body := '.' :: camelCaseVars body }
      else { md with hasBody := false }
    let md2 : MethodDesc :=
      if responseBody = "*".toList then { md1 with responseBody := [] }
      else if responseBody ≠ [] then { md1 with responseBody := '.' :: camelCaseVars responseBody }
      else md1
    some (md2, st1)

/-- The loop `for _, bind := range rule.AdditionalBindings` of `genService`: the
descriptors appended to `sd.Methods`, in order. -/
def genBindings (ord : MapOrder) (sch : Schema) (service : Service) (m : Method)
    (omitemptyPrefix : Str) : List HttpRule → MethodSets → Option (List MethodDesc × MethodSets)
  | [], st => some ([], st)
  | bind :: rest, st =>
    match buildHTTPRule ord sch st service m bind omitemptyPrefix with
    | Option.none => Option.none
    | some (md, st1) =>
      match genBindings ord sch service m omitemptyPrefix rest st1 with
      | Option.none => Option.none
      | some (mds, st2) => some (md :: mds, st2)

/-- The body of the loop `for _, method := range service.Methods` of `genService`: the
descriptors it appends to `sd.Methods`. -/
def genMethod (ord : MapOrder) (sch : Schema) (service : Service) (omitempty : Bool)
    (omitemptyPrefix : Str) (m : Method) (st : MethodSets) :
    Option (List MethodDesc × MethodSets) :=
  if m.streamingClient || m.streamingServer then some ([], st)
  else
    match m.rule with
    | some rule =>
      match genBindings ord sch service m omitemptyPrefix rule.additionalBindings st with
      | Option.none => Option.none
      | some (mds, st1) =>
        match buildHTTPRule ord sch st1 service m rule omitemptyPrefix with
        | Option.none => Option.none
        | some (md, st2) => some (mds ++ [md], st2)
    | Option.none =>
      if !omitempty then
        match buildMethodDesc ord sch st m "POST".toList (defaultPath omitemptyPrefix service m) with
        | Option.none => Option.none
        | some (md, st1) => some ([md], st1)
      else some ([], st)

/-- The loop `for _, method := range service.Methods` of `genService`: the final value
of `sd.Methods`. -/
def genMethods (ord : MapOrder) (sch : Schema) (service : Service) (omitempty : Bool)
    (omitemptyPrefix : Str) : List Method → MethodSets → Option (List MethodDesc × MethodSets)
  | [], st => some ([], st)
  | m :: rest, st =>
    match genMethod ord sch service omitempty omitemptyPrefix m st with
    | Option.none => Option.none
    | some (mds, st1) =>
      match genMethods ord sch service omitempty omitemptyPrefix rest st1 with
      | Option.none => Option.none
      | some (mds2, st2) => some (mds ++ mds2, st2)

/-- Source `genService`: the descriptor `sd` with its methods filled in, and the counter;
`none` when the run exits.  The caller prints `sd.execute()` when `sd.Methods` is not
empty. -/
def genService (ord : MapOrder) (sch : Schema) (file : File) (service : Service)
    (omitempty : Bool) (omitemptyPrefix : Str) (st : MethodSets) :
    Option (ServiceDesc × MethodSets) :=
  match genMethods ord sch service omitempty omitemptyPrefix service.methods st with
  | Option.none => Option.none
  | some (mds, st1) =>
    some ({ serviceType := service.goName
            serviceName := service.fullName
            metadata := file.path
            methods := mds }, st1)

/-- Source `hasHTTPRule`. -/
def hasHTTPRule (services : List Service) : Bool :=
  services.any fun service =>
    service.methods.any fun method =>
      !(method.streamingClient || method.streamingServer) && method.rule.isSome

/-- Source `generateFileContent`, the loop over the services: the service descriptors
printed to the generated file (those with at least one method), in order. -/
def generateFileContent (ord : MapOrder) (sch : Schema) (file : File) (omitempty : Bool)
    (omitemptyPrefix : Str) : List Service → MethodSets → Option (List ServiceDesc × MethodSets)
  | [], st => some ([], st)
  | service :: rest, st =>
    match genService ord sch file service omitempty omitemptyPrefix st with
    | Option.none => Option.none
    | some (sd, st1) =>
      match generateFileContent ord sch file omitempty omitemptyPrefix rest st1 with
      | Option.none => Option.none
      | some (sds, st2) => some (if sd.methods.length ≠ 0 then sd :: sds else sds, st2)

/-- A `protogen.GeneratedFile`, as far as this file fills it: its name and the service
descriptors printed to it (the header lines are fixed text). -/
structure GeneratedFile where
  filename : Str
  services : List ServiceDesc
  deriving DecidableEq, Repr

/-- Source `generateFile`: `none` when the run exits, `some (none, _)` for the result
`nil`, `some (some g, _)` for a generated file. -/
def generateFile (ord : MapOrder) (sch : Schema) (file : File) (omitempty : Bool)
    (omitemptyPrefix : Str) (st : MethodSets) : Option (Option GeneratedFile × MethodSets) :=
  if file.services.length = 0 || (omitempty && !hasHTTPRule file.services) then
    some (Option.none, st)
  else
    match generateFileContent ord sch file omitempty omitemptyPrefix file.services st with
    | Option.none => Option.none
    | some (sds, st1) =>
      some (some { filename := file.generatedFilenamePrefix ++ "_http.pb.go".toList
                   services := sds }, st1)

/-- The value of the variable `method` of `buildHTTPRule` at its call of `buildMethodDesc`. -/
def ruleMethod (rule : HttpRule) : Str :=
  if (patternPathMethod rule.pattern).2 = [] then "POST".toList
  else (patternPathMethod rule.pattern).2

/-- The value of the variable `path` of `buildHTTPRule` at its call of `buildMethodDesc`. -/
def rulePath (service : Service) (m : Method) (rule : HttpRule) (omitemptyPrefix : Str) : Str :=
  if (patternPathMethod rule.pattern).1 = [] then defaultPath omitemptyPrefix service m
  else (patternPathMethod rule.pattern).1

/-- The number of positions of `s` at which `sub` occurs as a substring. -/
def countOcc (sub : Str) : Str → Nat
  | [] => if sub = [] then 1 else 0
  | c :: s => (if sub.isPrefixOf (c :: s) then 1 else 0) + countOcc sub s

/-- A word with its first letter in upper case and the rest unchanged. -/
def upperFirst : Str → Str
  | [] => []
  | c :: cs => c.toUpper :: cs

/-! ## Brace groups -/

/-- A pattern none of whose atoms can take a brace: literals and classes that match no
brace, and no `.`.  Used to show that a match of a pattern `{ ... }` is a brace, a text
without braces and a brace. -/
def braceFree : List Atom → Prop
  | [] => True
  | Atom.lit a :: as => (∀ x, foldEq a x = true → notBrace x = true) ∧ braceFree as
  | Atom.anyNotNL :: _ => False
  | Atom.star p :: as => (∀ x, p x = true → notBrace x = true) ∧ braceFree as
  | Atom.opt a :: as => (∀ x, foldEq a x = true → notBrace x = true) ∧ braceFree as
  | Atom.wordB :: as => braceFree as

/-! ## A small schema, used to run the definitions -/

/-- Message 0 has the scalars `id` and `v` and a message `ab` of type 1; message 1 has a
scalar `p` and a message `c` of type 2; message 2 has a scalar `d`. -/
def demoSchema : Schema
  | 0 => [⟨"id".toList, false, false, Kind.scalar, 0⟩, ⟨"v".toList, false, false, Kind.scalar, 0⟩,
          ⟨"ab".toList, false, false, Kind.message, 1⟩]
  | 1 => [⟨"p".toList, false, false, Kind.scalar, 0⟩, ⟨"c".toList, false, false, Kind.message, 2⟩]
  | 2 => [⟨"d".toList, false, false, Kind.scalar, 0⟩]
  | _ => []

/-- The schema `demoSchema` with two more scalars in message 0, `AB` and `abxc`. -/
def wideSchema : Schema
  | 0 => demoSchema 0 ++ [⟨"AB".toList, false, false, Kind.scalar, 0⟩,
          ⟨"abxc".toList, false, false, Kind.scalar, 0⟩]
  | n + 1 => demoSchema (n + 1)

/-- A unary method `Do` with input message 0 and the given rule. -/
def demoMethod (rule : Option HttpRule) : Method :=
  { goName := "Do".toList, name := "Do".toList, streamingClient := false,
    streamingServer := false, rule := rule, input := 0, request := "DoRequest".toList,
    reply := "DoReply".toList, leading := [], trailing := [] }

/-- A service `pkg.Svc` with the given methods. -/
def demoService (methods : List Method) : Service :=
  { goName := "Svc".toList, fullName := "pkg.Svc".toList, deprecated := false,
    methods := methods }

/-- The descriptor of `demoMethod` with the given index, path, verb, flags and accessors. -/
def demoDesc (num : Nat) (path method : Str) (hasVars hasBody : Bool)
    (body responseBody : Str) : MethodDesc :=
  { name := "Do".toList, originalName := "Do".toList, num := num,
    request := "DoRequest".toList, reply := "DoReply".toList, comment := [],
    path := path, method := method, hasVars := hasVars,
    hasBody := hasBody, body := body, responseBody := responseBody }

/-- A rule `GET /a` with one additional binding `GET /b`. -/
def demoRule : HttpRule :=
  HttpRule.mk (Pattern.get "/a".toList) [] []
    [HttpRule.mk (Pattern.get "/b".toList) [] [] []]

/-- A file with two services, `pkg.Svc` and `pkg.Other`, each with a method `Do` under
`demoRule`. -/
def demoFile : File :=
  { generatedFilenamePrefix := "demo".toList, path := "demo.proto".toList,
    services := [demoService [demoMethod (some demoRule)],
                 { demoService [demoMethod (some demoRule)] with
                   goName := "Other".toList, fullName := "pkg.Other".toList }] }

/-- The counter at the start of a process. -/
def emptySets : MethodSets := fun _ => 0

end GinHttp

/-! ## Verification -/

namespace GinHttp

/-! ### Descriptors built by `buildMethodDesc` and `buildHTTPRule` -/

theorem buildMethodDesc_eq_some {ord : MapOrder} {sch : Schema} {st : MethodSets} {m : Method}
    {method path : Str} {md : MethodDesc} {st1 : MethodSets}
    (h : buildMethodDesc ord sch st m method path = some (md, st1)) :
    ∃ p, varsLoop sch m.input (ord.visit (buildPathVars path)) path = some p ∧
      md = { name := m.goName, originalName := m.name, num := st m.goName,
             request := m.request, reply := m.reply, comment := buildComment m,
             path := p, method := method,
             hasVars := decide ((buildPathVars path).length > 0),
             hasBody := false, body := [], responseBody := [] } ∧
      st1 = bump st m.goName := by
  unfold buildMethodDesc at h
  cases hv : varsLoop sch m.input (ord.visit (buildPathVars path)) path with
  | none => simp [hv] at h
  | some p =>
    simp only [hv, Option.some.injEq, Prod.mk.injEq] at h
    exact ⟨p, rfl, h.1.symm, h.2.symm⟩

theorem buildMethodDesc_of_loop {ord : MapOrder} {sch : Schema} {st : MethodSets} {m : Method}
    {method path p : Str}
    (h : varsLoop sch m.input (ord.visit (buildPathVars path)) path = some p) :
    buildMethodDesc ord sch st m method path =
      some ({ name := m.goName, originalName := m.name, num := st m.goName,
              request := m.request, reply := m.reply, comment := buildComment m,
              path := p, method := method,
              hasVars := decide ((buildPathVars path).length > 0),
              hasBody := false, body := [], responseBody := [] }, bump st m.goName) := by
  unfold buildMethodDesc
  simp only [h]

theorem buildHTTPRule_eq_some {ord : MapOrder} {sch : Schema} {st : MethodSets}
    {service : Service} {m : Method} {rule : HttpRule} {pfx : Str}
    {md : MethodDesc} {st1 : MethodSets}
    (h : buildHTTPRule ord sch st service m rule pfx = some (md, st1)) :
    ∃ md0, buildMethodDesc ord sch st m (ruleMethod rule) (rulePath service m rule pfx)
        = some (md0, st1) ∧
      md.name = md0.name ∧ md.originalName = md0.originalName ∧ md.num = md0.num ∧
      md.request = md0.request ∧ md.reply = md0.reply ∧ md.comment = md0.comment ∧
      md.path = md0.path ∧ md.method = md0.method ∧ md.hasVars = md0.hasVars ∧
      md.hasBody = decide (rule.body ≠ []) ∧
      md.body = (if rule.body = "*".toList ∨ rule.body = [] then []
                 else '.' :: camelCaseVars rule.body) ∧
      md.responseBody = (if rule.responseBody = "*".toList ∨ rule.responseBody = [] then []
                         else '.' :: camelCaseVars rule.responseBody) := by
  unfold buildHTTPRule at h
  simp only at h
  change (match buildMethodDesc ord sch st m (ruleMethod rule) (rulePath service m rule pfx) with
    | Option.none => Option.none
    | some (md, st1) => _) = _ at h
  cases hb : buildMethodDesc ord sch st m (ruleMethod rule) (rulePath service m rule pfx) with
  | none => simp [hb] at h
  | some r =>
    obtain ⟨md0, st0⟩ := r
    obtain ⟨p, -, hmd0, -⟩ := buildMethodDesc_eq_some hb
    simp only [hb, Option.some.injEq, Prod.mk.injEq] at h
    obtain ⟨hmd, hst⟩ := h
    subst hst
    refine ⟨md0, rfl, ?_⟩
    subst hmd
    subst hmd0
    by_cases h1 : rule.body = "*".toList <;> by_cases h2 : rule.body = [] <;>
      by_cases h3 : rule.responseBody = "*".toList <;> by_cases h4 : rule.responseBody = [] <;>
      simp_all

/-! ### Character classes -/

theorem isASCIILower_iff (c : Char) : isASCIILower c = true ↔ 97 ≤ c.toNat ∧ c.toNat ≤ 122 := by
  have ha : 'a'.toNat = 97 := rfl
  have hz : 'z'.toNat = 122 := rfl
  simp [isASCIILower, ha, hz]

theorem isASCIIDigit_iff (c : Char) : isASCIIDigit c = true ↔ 48 ≤ c.toNat ∧ c.toNat ≤ 57 := by
  have h0 : '0'.toNat = 48 := rfl
  have h9 : '9'.toNat = 57 := rfl
  simp [isASCIIDigit, h0, h9]

theorem isWordChar_iff (c : Char) : isWordChar c = true ↔
    (48 ≤ c.toNat ∧ c.toNat ≤ 57) ∨ (97 ≤ c.toNat ∧ c.toNat ≤ 122) ∨
      (65 ≤ c.toNat ∧ c.toNat ≤ 90) ∨ c = '_' := by
  have hA : 'A'.toNat = 65 := rfl
  have hZ : 'Z'.toNat = 90 := rfl
  simp [isWordChar, isASCIILower_iff, isASCIIDigit_iff, hA, hZ, or_assoc]

theorem toNat_underscore (c : Char) (h : c = '_') : c.toNat = 95 := by
  subst h
  rfl

theorem isWordChar_toNat (c : Char) (h : isWordChar c = true) :
    (48 ≤ c.toNat ∧ c.toNat ≤ 57) ∨ (97 ≤ c.toNat ∧ c.toNat ≤ 122) ∨
      (65 ≤ c.toNat ∧ c.toNat ≤ 90) ∨ c.toNat = 95 := by
  rcases (isWordChar_iff c).mp h with h1 | h1 | h1 | h1
  · exact Or.inl h1
  · exact Or.inr (Or.inl h1)
  · exact Or.inr (Or.inr (Or.inl h1))
  · exact Or.inr (Or.inr (Or.inr (toNat_underscore c h1)))

theorem foldKey_upper (c : Char) (h1 : 65 ≤ c.toNat) (h2 : c.toNat ≤ 90) :
    isASCIILower (foldKey c) = true := by
  have hc : c = Char.ofNat c.toNat := (Char.ofNat_toNat c).symm
  generalize c.toNat = n at hc h1 h2
  subst hc
  interval_cases n <;> decide

theorem foldKey_cases (x : Char) : foldKey x = x ∨ isASCIILower (foldKey x) = true := by
  have hA : 'A'.toNat = 65 := rfl
  have hZ : 'Z'.toNat = 90 := rfl
  by_cases hu : 65 ≤ x.toNat ∧ x.toNat ≤ 90
  · exact Or.inr (foldKey_upper x hu.1 hu.2)
  · by_cases h1 : x.toNat = 0x17F
    · right
      have : foldKey x = 's' := by
        unfold foldKey
        simp only [hA, hZ]
        rw [if_neg (by simpa using hu), if_pos h1]
      rw [this]
      decide
    · by_cases h2 : x.toNat = 0x212A
      · right
        have : foldKey x = 'k' := by
          unfold foldKey
          simp only [hA, hZ]
          rw [if_neg (by simpa using hu), if_neg h1, if_pos h2]
        rw [this]
        decide
      · left
        unfold foldKey
        simp only [hA, hZ]
        rw [if_neg (by simpa using hu), if_neg h1, if_neg h2]

theorem foldEq_self (c : Char) : foldEq c c = true := by
  simp [foldEq]

theorem foldEq_fixed (c x : Char) (hc : foldKey c = c) (hl : isASCIILower c = false)
    (h : foldEq c x = true) : x = c := by
  have h1 : foldKey c = foldKey x := by simpa [foldEq] using h
  rcases foldKey_cases x with h2 | h2
  · rw [← h2, ← h1, hc]
  · rw [← h1, hc, hl] at h2
    exact absurd h2 (by decide)

theorem foldEq_lbrace (x : Char) (h : x ≠ '{') : foldEq '{' x = false := by
  rw [Bool.eq_false_iff]
  intro hx
  exact h (foldEq_fixed '{' x (by decide) (by decide) hx)

theorem isNameChar_of_isWordChar (c : Char) (h : isWordChar c = true) :
    isNameChar c = true := by
  rcases (isWordChar_iff c).mp h with h1 | h1 | h1 | h1
  · simp [isNameChar, (isASCIIDigit_iff c).mpr h1]
  · have hk : foldKey c = c := by
      rcases foldKey_cases c with h2 | h2
      · exact h2
      · have hA : 'A'.toNat = 65 := rfl
        have hZ : 'Z'.toNat = 90 := rfl
        unfold foldKey
        simp only [hA, hZ]
        rw [if_neg (by simp; omega), if_neg (by omega), if_neg (by omega)]
    simp [isNameChar, hk, (isASCIILower_iff c).mpr h1]
  · simp [isNameChar, foldKey_upper c h1.1 h1.2]
  · simp [isNameChar, h1]

theorem isSpace_of_isWordChar (c : Char) (h : isWordChar c = true) : isSpace c = false := by
  have h1 := isWordChar_toNat c h
  rw [Bool.eq_false_iff]
  intro hs
  simp only [isSpace, Bool.or_eq_true, Bool.and_eq_true, decide_eq_true_eq, beq_iff_eq] at hs
  omega

theorem isReSpace_of_isWordChar (c : Char) (h : isWordChar c = true) :
    isReSpace c = false := by
  have h1 := isWordChar_toNat c h
  rw [Bool.eq_false_iff]
  intro hs
  simp only [isReSpace, Bool.or_eq_true, decide_eq_true_eq] at hs
  rcases hs with (((hs | hs) | hs) | hs) | hs
  · subst hs; revert h1; decide
  · subst hs; revert h1; decide
  · omega
  · subst hs; revert h1; decide
  · subst hs; revert h1; decide

theorem ne_of_isWordChar (c d : Char) (h : isWordChar c = true) (hd : isWordChar d = false) :
    c ≠ d := by
  intro hcd
  rw [hcd, hd] at h
  exact absurd h (by decide)

/-! ### The names extracted by `buildPathVars` -/

theorem starRun_mem (p : Char → Bool) (k : Option Char → Str → Option (List Str × Str))
    (s : Str) : ∀ (prev : Option Char) (g : Str) (r : List Str × Str),
    starRun p k prev s = some (g, r) → ∀ c ∈ g, p c = true := by
  induction s with
  | nil =>
    intro prev g r h
    simp only [starRun, Option.map_eq_some', Prod.mk.injEq] at h
    obtain ⟨_, _, hg, _⟩ := h
    subst hg
    simp
  | cons x s ih =>
    intro prev g r h
    simp only [starRun] at h
    by_cases hp : p x = true
    · simp only [hp, if_true] at h
      cases hrec : starRun p k (some x) s with
      | none =>
        simp only [hrec, Option.map_eq_some', Prod.mk.injEq] at h
        obtain ⟨_, _, hg, _⟩ := h
        subst hg
        simp
      | some r1 =>
        obtain ⟨g1, r1⟩ := r1
        simp only [hrec, Option.some.injEq, Prod.mk.injEq] at h
        obtain ⟨hg, _⟩ := h
        subst hg
        intro c hc
        rcases List.mem_cons.mp hc with hc | hc
        · rw [hc]; exact hp
        · exact ih (some x) g1 r1 hrec c hc
    · simp only [hp, Bool.false_eq_true, if_false, Option.map_eq_some', Prod.mk.injEq] at h
      obtain ⟨_, _, hg, _⟩ := h
      subst hg
      simp

theorem matchSeq_pathVarRe_name (prev : Option Char) (s : Str) (gs : List Str) (rest : Str)
    (h : matchSeq pathVarRe prev s = some (gs, rest)) :
    ∀ c ∈ gs.getD 1 [], isNameChar c = true := by
  cases s with
  | nil => simp [pathVarRe, matchSeq] at h
  | cons x s =>
    simp only [pathVarRe, matchSeq] at h
    by_cases hx : foldEq '{' x = true
    · simp only [hx, if_true, Option.map_eq_some', Prod.mk.injEq] at h
      obtain ⟨r, ⟨r1, hstar, hr⟩, hgs, _⟩ := h
      obtain ⟨g, r2⟩ := r1
      subst hr
      subst hgs
      simp only [List.getD_cons_succ, List.getD_cons_zero]
      exact starRun_mem _ _ s (some x) g r2 hstar
    · simp [hx] at h

theorem findAll_mem (re : List Atom) (s : Str) :
    ∀ (n : Nat) (prev : Option Char) (m : List Str), m ∈ findAll re n prev s →
      ∃ prev1 s1 rest, matchSeq re prev1 s1 = some (m, rest) := by
  induction s with
  | nil => intro n prev m h; simp [findAll] at h
  | cons x s ih =>
    intro n prev m h
    cases n with
    | succ n =>
      simp only [findAll] at h
      exact ih n (some x) m h
    | zero =>
      simp only [findAll] at h
      cases hm : matchSeq re prev (x :: s) with
      | none =>
        simp only [hm] at h
        exact ih 0 (some x) m h
      | some r =>
        simp only [hm, List.mem_cons] at h
        rcases h with h | h
        · exact ⟨prev, x :: s, r.2, by rw [hm, h]⟩
        · exact ih _ (some x) m h

theorem mem_mapSet (res : List (Str × Option Str)) (k : Str) (v : Option Str)
    (e : Str × Option Str) (h : e ∈ mapSet res k v) : e ∈ res ∨ e = (k, v) := by
  unfold mapSet at h
  split at h
  · rw [List.mem_map] at h
    obtain ⟨e1, he1, heq⟩ := h
    by_cases hk : e1.1 = k
    · simp only [hk, if_true] at heq
      exact Or.inr heq.symm
    · simp only [hk, if_false] at heq
      exact Or.inl (heq ▸ he1)
  · rcases List.mem_append.mp h with h | h
    · exact Or.inl h
    · exact Or.inr (by simpa using h)

theorem mem_foldl_addMatch (ms : List (List Str)) :
    ∀ (acc : List (Str × Option Str)) (e : Str × Option Str), e ∈ ms.foldl addMatch acc →
      e ∈ acc ∨ ∃ m ∈ ms, e.1 = trimSpace (m.getD 1 []) := by
  induction ms with
  | nil => intro acc e h; exact Or.inl h
  | cons m ms ih =>
    intro acc e h
    rw [List.foldl_cons] at h
    rcases ih _ e h with h1 | ⟨m1, hm1, he⟩
    · have h2 : e ∈ acc ∨ e.1 = trimSpace (m.getD 1 []) := by
        unfold addMatch at h1
        simp only at h1
        split at h1
        · rcases mem_mapSet _ _ _ _ h1 with h3 | h3
          · exact Or.inl h3
          · exact Or.inr (by rw [h3])
        · rcases mem_mapSet _ _ _ _ h1 with h3 | h3
          · exact Or.inl h3
          · exact Or.inr (by rw [h3])
      rcases h2 with h2 | h2
      · exact Or.inl h2
      · exact Or.inr ⟨m, List.mem_cons_self _ _, h2⟩
    · exact Or.inr ⟨m1, List.mem_cons_of_mem _ hm1, he⟩

theorem mem_of_mem_trimSpace (s : Str) (c : Char) (h : c ∈ trimSpace s) : c ∈ s := by
  unfold trimSpace at h
  rw [List.mem_reverse] at h
  have h1 := (List.dropWhile_sublist isSpace).subset h
  rw [List.mem_reverse] at h1
  exact (List.dropWhile_sublist isSpace).subset h1

theorem mem_of_mem_splitAux (sep : Char) (s : Str) :
    ∀ (cur seg : Str), seg ∈ splitAux sep cur s → ∀ c ∈ seg, c ∈ cur ∨ c ∈ s := by
  induction s with
  | nil =>
    intro cur seg h c hc
    simp only [splitAux, List.mem_singleton] at h
    subst h
    exact Or.inl (List.mem_reverse.mp hc)
  | cons x s ih =>
    intro cur seg h c hc
    simp only [splitAux] at h
    by_cases hx : x = sep
    · simp only [hx, if_true, List.mem_cons] at h
      rcases h with h | h
      · subst h
        exact Or.inl (List.mem_reverse.mp hc)
      · rcases ih [] seg h c hc with h1 | h1
        · simp at h1
        · exact Or.inr (List.mem_cons_of_mem _ h1)
    · simp only [hx, if_false] at h
      rcases ih (x :: cur) seg h c hc with h1 | h1
      · rcases List.mem_cons.mp h1 with h2 | h2
        · exact Or.inr (h2 ▸ List.mem_cons_self _ _)
        · exact Or.inl h2
      · exact Or.inr (List.mem_cons_of_mem _ h1)

theorem mem_of_mem_splitOn (s : Str) (sep : Char) (seg : Str) (h : seg ∈ splitOn s sep)
    (c : Char) (hc : c ∈ seg) : c ∈ s := by
  rcases mem_of_mem_splitAux sep s [] seg h c hc with h1 | h1
  · simp at h1
  · exact h1

/-- Every rune of a variable name returned by `buildPathVars` is of the class
`[a-z.0-9_\s]` of its pattern. -/
theorem buildPathVars_name_chars (path : Str) (e : Str × Option Str)
    (h : e ∈ buildPathVars path) : ∀ c ∈ e.1, isNameChar c = true := by
  unfold buildPathVars at h
  rcases mem_foldl_addMatch _ [] e h with h1 | ⟨m, hm, he⟩
  · simp at h1
  · obtain ⟨prev1, s1, rest, hmatch⟩ := findAll_mem _ _ _ _ _ hm
    intro c hc
    rw [he] at hc
    exact matchSeq_pathVarRe_name prev1 s1 m rest hmatch c (mem_of_mem_trimSpace _ c hc)

/-! ### The matcher on a single brace occurrence -/

theorem starRun_greedy (p : Char → Bool) (k : Option Char → Str → Option (List Str × Str))
    (xs t : Str) (r : List Str × Str) (hxs : ∀ c ∈ xs, p c = true)
    (ht : ∀ y, t.head? = some y → p y = false) (hk : ∀ pv, k pv t = some r) :
    ∀ prev, starRun p k prev (xs ++ t) = some (xs, r) := by
  induction xs with
  | nil =>
    intro prev
    cases t with
    | nil => simp [starRun, hk]
    | cons y t =>
      have hy : p y = false := ht y rfl
      simp [starRun, hy, hk]
  | cons x xs ih =>
    intro prev
    have hx : p x = true := hxs x (List.mem_cons_self _ _)
    have hrec := ih (fun c hc => hxs c (List.mem_cons_of_mem _ hc)) (some x)
    simp only [List.cons_append, starRun, hx, if_true, List.append_eq, hrec]

theorem matchSeq_lit_prev (c : Char) (as : List Atom) (p1 p2 : Option Char) (s : Str) :
    matchSeq (Atom.lit c :: as) p1 s = matchSeq (Atom.lit c :: as) p2 s := by
  cases s <;> simp [matchSeq]

theorem matchSeq_lbrace_none (as : List Atom) (prev : Option Char) (x : Char) (s : Str)
    (h : x ≠ '{') : matchSeq (Atom.lit '{' :: as) prev (x :: s) = Option.none := by
  simp [matchSeq, foldEq_lbrace x h]

theorem matchSeq_tail (pat post : Str) (hpat : ∀ c ∈ pat, notBrace c = true)
    (pv : Option Char) :
    matchSeq [Atom.opt '=', Atom.star notBrace, Atom.lit '}'] pv
      ('=' :: (pat ++ '}' :: post)) = some ([['='], pat, ['}']], post) := by
  have h3 : ∀ pv, matchSeq [Atom.lit '}'] pv ('}' :: post) = some ([['}']], post) := by
    intro pv
    simp [matchSeq, foldEq_self]
  simp only [matchSeq, foldEq_self, if_true]
  rw [starRun_greedy notBrace _ pat ('}' :: post) _ hpat
    (fun y hy => by
      simp only [List.head?_cons, Option.some.injEq] at hy
      subst hy
      decide) h3]
  rfl

theorem matchSeq_pathVarRe_occurrence (v pat post : Str) (prev : Option Char)
    (hv : ∀ c ∈ v, isNameChar c = true) (hpat : ∀ c ∈ pat, notBrace c = true) :
    matchSeq pathVarRe prev ('{' :: (v ++ '=' :: (pat ++ '}' :: post)))
      = some ([['{'], v, ['='], pat, ['}']], post) := by
  simp only [pathVarRe, matchSeq, foldEq_self, if_true]
  rw [starRun_greedy isNameChar _ v ('=' :: (pat ++ '}' :: post)) _ hv
    (fun y hy => by
      simp only [List.head?_cons, Option.some.injEq] at hy
      subst hy
      decide) (matchSeq_tail pat post hpat)]
  rfl

theorem findAll_lit_prev (c : Char) (as : List Atom) (s : Str) :
    ∀ (n : Nat) (p1 p2 : Option Char),
      findAll (Atom.lit c :: as) n p1 s = findAll (Atom.lit c :: as) n p2 s := by
  induction s with
  | nil => intro n p1 p2; simp [findAll]
  | cons x s ih =>
    intro n p1 p2
    cases n with
    | succ n => simp only [findAll]
    | zero => simp only [findAll, matchSeq_lit_prev c as p1 p2]

theorem findAll_no_lbrace (as : List Atom) (s : Str) (h : '{' ∉ s) :
    ∀ prev, findAll (Atom.lit '{' :: as) 0 prev s = [] := by
  induction s with
  | nil => intro prev; simp [findAll]
  | cons x s ih =>
    intro prev
    have hx : x ≠ '{' := fun hx => h (hx ▸ List.mem_cons_self _ _)
    simp only [findAll, matchSeq_lbrace_none as prev x s hx]
    exact ih (fun hs => h (List.mem_cons_of_mem _ hs)) _

theorem findAll_skip_pre (as : List Atom) (pre t : Str) (h : '{' ∉ pre) :
    ∀ prev, findAll (Atom.lit '{' :: as) 0 prev (pre ++ t)
      = findAll (Atom.lit '{' :: as) 0 Option.none t := by
  induction pre with
  | nil => intro prev; exact findAll_lit_prev _ _ _ _ _ _
  | cons x pre ih =>
    intro prev
    have hx : x ≠ '{' := fun hx => h (hx ▸ List.mem_cons_self _ _)
    simp only [List.cons_append, findAll, matchSeq_lbrace_none as prev x _ hx]
    exact ih (fun hs => h (List.mem_cons_of_mem _ hs)) _

theorem findAll_skip (c : Char) (as : List Atom) (xs t : Str) :
    ∀ prev, findAll (Atom.lit c :: as) xs.length prev (xs ++ t)
      = findAll (Atom.lit c :: as) 0 Option.none t := by
  induction xs with
  | nil => intro prev; exact findAll_lit_prev _ _ _ _ _ _
  | cons x xs ih =>
    intro prev
    simp only [List.cons_append, List.length_cons, findAll]
    exact ih _

theorem findAll_pathVarRe_single (pre post v pat : Str) (hpre : '{' ∉ pre)
    (hpost : '{' ∉ post) (hv : ∀ c ∈ v, isNameChar c = true)
    (hpat : ∀ c ∈ pat, notBrace c = true) :
    findAll pathVarRe 0 Option.none (pre ++ '{' :: (v ++ '=' :: (pat ++ '}' :: post)))
      = [[['{'], v, ['='], pat, ['}']]] := by
  have hre : pathVarRe = Atom.lit '{' ::
      [Atom.star isNameChar, Atom.opt '=', Atom.star notBrace, Atom.lit '}'] := rfl
  have hm := matchSeq_pathVarRe_occurrence v pat post Option.none hv hpat
  rw [hre] at hm ⊢
  rw [findAll_skip_pre _ pre _ hpre]
  simp only [findAll, hm]
  have hlen : ([['{'], v, ['='], pat, ['}']] : List Str).flatten.length - 1
      = (v ++ '=' :: (pat ++ ['}'])).length := by
    simp
  have hrest : v ++ '=' :: (pat ++ '}' :: post) = (v ++ '=' :: (pat ++ ['}'])) ++ post := by
    simp
  rw [hlen, hrest, findAll_skip, findAll_no_lbrace _ post hpost]

/-! ### `replacePath` and `buildPathVars` on a single brace occurrence -/

theorem matchSeq_nameAtoms (w : Str) (z : Char) (as : List Atom) (t : Str)
    (hdot : '.' ∉ w ++ [z]) : ∀ prev,
    matchSeq (nameAtoms (w ++ [z]) ++ as) prev (w ++ z :: t)
      = (matchSeq as (some z) t).map
          fun r => ((w ++ [z]).map (fun c => [c]) ++ r.1, r.2) := by
  induction w with
  | nil =>
    intro prev
    have hz : z ≠ '.' := fun h => hdot (by simp [h])
    simp [nameAtoms, matchSeq, foldEq_self, hz]
  | cons x w ih =>
    intro prev
    have hx : x ≠ '.' := fun h => hdot (by simp [h])
    have hw : '.' ∉ w ++ [z] := fun h => hdot (by
      rw [List.cons_append]
      exact List.mem_cons_of_mem _ h)
    have hna : nameAtoms (x :: w ++ [z]) = Atom.lit x :: nameAtoms (w ++ [z]) := by
      simp [nameAtoms, hx]
    rw [hna]
    simp only [List.cons_append, matchSeq, foldEq_self, if_true, List.append_eq]
    rw [ih hw (some x), Option.map_map]
    rfl

theorem findFirst_lit_prev (c : Char) (as : List Atom) (s : Str) :
    ∀ (p1 p2 : Option Char),
      findFirst (Atom.lit c :: as) p1 s = findFirst (Atom.lit c :: as) p2 s := by
  induction s with
  | nil => intro p1 p2; simp [findFirst, matchSeq]
  | cons x s ih =>
    intro p1 p2
    simp only [findFirst, matchSeq_lit_prev c as p1 p2]

theorem findFirst_skip_pre (as : List Atom) (pre t : Str) (h : '{' ∉ pre) :
    ∀ prev, findFirst (Atom.lit '{' :: as) prev (pre ++ t)
      = (findFirst (Atom.lit '{' :: as) Option.none t).map fun r => (pre ++ r.1, r.2) := by
  induction pre with
  | nil =>
    intro prev
    rw [List.nil_append, findFirst_lit_prev '{' as t prev Option.none]
    cases findFirst (Atom.lit '{' :: as) Option.none t <;> simp
  | cons x pre ih =>
    intro prev
    have hx : x ≠ '{' := fun hx => h (hx ▸ List.mem_cons_self _ _)
    simp only [List.cons_append, findFirst, matchSeq_lbrace_none as prev x _ hx,
      List.append_eq]
    rw [ih (fun hs => h (List.mem_cons_of_mem _ hs)) (some x), Option.map_map]
    rfl

theorem matchSeq_replaceRe_occurrence (v pat post : Str) (prev : Option Char)
    (hne : v ≠ []) (hv : ∀ c ∈ v, isWordChar c = true)
    (hpat : ∀ c ∈ pat, notBrace c = true) :
    ∃ gs, matchSeq (replaceRe v) prev ('{' :: (v ++ '=' :: (pat ++ '}' :: post)))
      = some (gs, post) := by
  obtain ⟨w, z, hwz⟩ : ∃ w z, v = w ++ [z] := by
    rcases List.eq_nil_or_concat v with h | ⟨w, z, h⟩
    · exact absurd h hne
    · exact ⟨w, z, by rw [h, List.concat_eq_append]⟩
  have hz : isWordChar z = true := hv z (by simp [hwz])
  have hdot : '.' ∉ w ++ [z] := by
    intro h
    rw [← hwz] at h
    exact absurd (hv '.' h) (by decide)
  have hhead : ∀ y, (v ++ '=' :: (pat ++ '}' :: post)).head? = some y →
      isReSpace y = false := by
    intro y hy
    cases hvv : v with
    | nil => exact absurd hvv hne
    | cons a v1 =>
      rw [hvv] at hy
      simp only [List.cons_append, List.head?_cons, Option.some.injEq] at hy
      subst hy
      exact isReSpace_of_isWordChar a (hv a (by simp [hvv]))
  have htail : ∀ pv, matchSeq [Atom.star isReSpace, Atom.opt '=', Atom.star notBrace,
      Atom.lit '}'] pv ('=' :: (pat ++ '}' :: post))
        = some ([[], ['='], pat, ['}']], post) := by
    intro pv
    have hs := starRun_greedy isReSpace _ [] ('=' :: (pat ++ '}' :: post)) _ (by simp)
      (fun y hy => by
        simp only [List.head?_cons, Option.some.injEq] at hy
        subst hy
        decide) (matchSeq_tail pat post hpat) pv
    rw [List.nil_append] at hs
    simp only [matchSeq]
    rw [hs]
    rfl
  have hbound : matchSeq [Atom.wordB, Atom.star isReSpace, Atom.opt '=',
      Atom.star notBrace, Atom.lit '}'] (some z) ('=' :: (pat ++ '}' :: post))
        = some ([[], [], ['='], pat, ['}']], post) := by
    have hb : (isWordAt (some z) != isWordAt ('=' :: (pat ++ '}' :: post)).head?) = true := by
      simp only [isWordAt, hz, List.head?_cons]
      decide
    rw [matchSeq, if_pos hb, htail]
    rfl
  have hname : ∀ pv, matchSeq (nameAtoms v ++ [Atom.wordB, Atom.star isReSpace,
      Atom.opt '=', Atom.star notBrace, Atom.lit '}']) pv (v ++ '=' :: (pat ++ '}' :: post))
        = some (v.map (fun c => [c]) ++ [[], [], ['='], pat, ['}']], post) := by
    intro pv
    have hvt : v ++ '=' :: (pat ++ '}' :: post) = w ++ z :: ('=' :: (pat ++ '}' :: post)) := by
      rw [hwz]
      simp
    rw [hvt, hwz, matchSeq_nameAtoms w z _ _ hdot pv, hbound]
    rfl
  have hre : replaceRe v = Atom.lit '{' :: Atom.star isReSpace ::
      (nameAtoms v ++ [Atom.wordB, Atom.star isReSpace, Atom.opt '=',
        Atom.star notBrace, Atom.lit '}']) := by
    simp [replaceRe]
  refine ⟨['{'] :: [] :: (v.map (fun c => [c]) ++ [[], [], ['='], pat, ['}']]), ?_⟩
  have hs := starRun_greedy isReSpace _ [] (v ++ '=' :: (pat ++ '}' :: post)) _ (by simp)
    hhead hname (some '{')
  rw [List.nil_append] at hs
  rw [hre]
  simp only [matchSeq, foldEq_self, if_true]
  rw [hs]
  rfl

theorem replacePath_single (pre post v pat : Str) (hpre : '{' ∉ pre)
    (hne : v ≠ []) (hv : ∀ c ∈ v, isWordChar c = true)
    (hpat : ∀ c ∈ pat, notBrace c = true) :
    replacePath v pat (pre ++ '{' :: (v ++ '=' :: (pat ++ '}' :: post)))
      = pre ++ '{' :: (v ++ ':' :: (replaceStar pat ++ '}' :: post)) := by
  obtain ⟨gs, hgs⟩ := matchSeq_replaceRe_occurrence v pat post Option.none hne hv hpat
  have hre : replaceRe v = Atom.lit '{' :: (Atom.star isReSpace ::
      (nameAtoms v ++ [Atom.wordB, Atom.star isReSpace, Atom.opt '=',
        Atom.star notBrace, Atom.lit '}'])) := by
    simp [replaceRe]
  unfold replacePath
  rw [hre] at hgs ⊢
  rw [findFirst_skip_pre _ pre _ hpre]
  simp only [findFirst, hgs, Option.map_some']
  simp

theorem trimSpace_eq_self (s : Str) (h : ∀ c ∈ s, isSpace c = false) : trimSpace s = s := by
  have hdrop : ∀ l : Str, (∀ c ∈ l, isSpace c = false) → l.dropWhile isSpace = l := by
    intro l hl
    cases l with
    | nil => rfl
    | cons a l =>
      have ha : isSpace a = false := hl a (List.mem_cons_self _ _)
      simp [List.dropWhile, ha]
  unfold trimSpace
  rw [hdrop s h, hdrop s.reverse (fun c hc => h c (List.mem_reverse.mp hc)),
    List.reverse_reverse]

theorem length_le_utf8Len (s : Str) : s.length ≤ utf8Len s := by
  induction s with
  | nil => simp [utf8Len]
  | cons c s ih =>
    have hc : 0 < c.utf8Size := Char.utf8Size_pos c
    simp only [utf8Len, List.map_cons, List.sum_cons, List.length_cons] at ih ⊢
    omega

theorem buildPathVars_single (pre post v pat : Str) (hpre : '{' ∉ pre)
    (hpost : '{' ∉ post) (hlen : 2 ≤ v.length) (hv : ∀ c ∈ v, isWordChar c = true)
    (hpat : ∀ c ∈ pat, notBrace c = true) (hpne : pat ≠ []) :
    buildPathVars (pre ++ '{' :: (v ++ '=' :: (pat ++ '}' :: post)))
      = [(v, some pat)] := by
  unfold buildPathVars
  rw [findAll_pathVarRe_single pre post v pat hpre hpost
    (fun c hc => isNameChar_of_isWordChar c (hv c hc)) hpat]
  have htrim : trimSpace v = v :=
    trimSpace_eq_self v (fun c hc => isSpace_of_isWordChar c (hv c hc))
  have hu : utf8Len v > 1 := by
    have := length_le_utf8Len v
    omega
  have hp : pat.length > 0 := List.length_pos.mpr hpne
  simp [addMatch, htrim, hu, hp, mapSet]

/-! ### Counting occurrences, and the order of the map -/

theorem countOcc_zero (a : Char) (w s : Str) (h : a ∉ s) : countOcc (a :: w) s = 0 := by
  induction s with
  | nil => simp [countOcc]
  | cons c s ih =>
    have hc : a ≠ c := fun hc => h (hc ▸ List.mem_cons_self _ _)
    simp only [countOcc, List.isPrefixOf, ih (fun hs => h (List.mem_cons_of_mem _ hs))]
    simp [hc]

theorem countOcc_single (a : Char) (w pre post : Str) (hpre : a ∉ pre)
    (hrest : a ∉ w ++ post) : countOcc (a :: w) (pre ++ a :: (w ++ post)) = 1 := by
  induction pre with
  | nil =>
    have hp : (a :: w).isPrefixOf (a :: (w ++ post)) = true := by
      rw [List.isPrefixOf_iff_prefix]
      exact (List.prefix_cons_inj a).mpr (List.prefix_append w post)
    simp only [List.nil_append, countOcc, hp, if_true, countOcc_zero a w _ hrest]
  | cons c pre ih =>
    have hc : a ≠ c := fun hc => hpre (hc ▸ List.mem_cons_self _ _)
    have hp : (a :: w).isPrefixOf (c :: (pre ++ a :: (w ++ post))) = false := by
      simp [List.isPrefixOf, hc]
    rw [List.cons_append, countOcc, hp, ih (fun hs => hpre (List.mem_cons_of_mem _ hs))]
    rfl

theorem mem_replaceStar (s : Str) (c : Char) (h : c ∈ replaceStar s) :
    c ∈ s ∨ c = '.' := by
  induction s with
  | nil => simp [replaceStar] at h
  | cons x s ih =>
    simp only [replaceStar] at h
    by_cases hx : x = '*'
    · simp only [hx, if_true, List.mem_cons] at h
      rcases h with h | h | h
      · exact Or.inr h
      · exact Or.inl (by rw [h, hx]; exact List.mem_cons_self _ _)
      · rcases ih h with h1 | h1
        · exact Or.inl (List.mem_cons_of_mem _ h1)
        · exact Or.inr h1
    · simp only [hx, if_false, List.mem_cons] at h
      rcases h with h | h
      · exact Or.inl (by rw [h]; exact List.mem_cons_self _ _)
      · rcases ih h with h1 | h1
        · exact Or.inl (List.mem_cons_of_mem _ h1)
        · exact Or.inr h1

theorem splitAux_no_sep (sep : Char) (s : Str) (h : sep ∉ s) :
    ∀ cur, splitAux sep cur s = [cur.reverse ++ s] := by
  induction s with
  | nil => intro cur; simp [splitAux]
  | cons x s ih =>
    intro cur
    have hx : x ≠ sep := fun hx => h (hx ▸ List.mem_cons_self _ _)
    simp only [splitAux, hx, if_false, ih (fun hs => h (List.mem_cons_of_mem _ hs))]
    simp

theorem checkSegments_field (sch : Schema) (fields : List FieldDesc) (v : Str)
    (fd : FieldDesc) (hne : v ≠ []) (hv : ∀ c ∈ v, isWordChar c = true)
    (hfd : byName fields v = some fd) :
    checkSegments sch fields (splitOn v '.') = true := by
  have hdot : '.' ∉ v := fun h => absurd (hv '.' h) (by decide)
  have hcolon : v.contains ':' = false := by
    rw [Bool.eq_false_iff]
    intro hcon
    have hmem : ':' ∈ v := by simpa using hcon
    exact absurd (hv ':' hmem) (by decide)
  have htrim : trimSpace v = v :=
    trimSpace_eq_self v (fun c hc => isSpace_of_isWordChar c (hv c hc))
  have hsplit : splitOn v '.' = [v] := by
    unfold splitOn
    rw [splitAux_no_sep '.' v hdot]
    simp
  rw [hsplit]
  simp only [checkSegments, htrim, hne, if_false, hcolon, Bool.false_eq_true, hfd]
  split <;> [rfl; (split <;> [rfl; (split <;> rfl)])]

theorem varsLoop_isSome (sch : Schema) (input : Nat) (l : List (Str × Option Str)) :
    ∀ path, (varsLoop sch input l path).isSome
      = l.all fun e => checkSegments sch (sch input) (splitOn e.1 '.') := by
  induction l with
  | nil => intro path; rfl
  | cons e l ih =>
    intro path
    obtain ⟨v, s⟩ := e
    simp only [varsLoop, List.all_cons]
    by_cases hc : checkSegments sch (sch input) (splitOn v '.') = true
    · simp only [hc, if_true, Bool.true_and]
      exact ih _
    · simp [hc]

/-- `buildMethodDesc` returns a descriptor exactly when every variable of the path
passes the validation loop. -/
theorem buildMethodDesc_isSome (ord : MapOrder) (sch : Schema) (st : MethodSets)
    (m : Method) (method path : Str) :
    (buildMethodDesc ord sch st m method path).isSome
      = (buildPathVars path).all
          fun e => checkSegments sch (sch m.input) (splitOn e.1 '.') := by
  have hl := varsLoop_isSome sch m.input (ord.visit (buildPathVars path)) path
  have hall : ((ord.visit (buildPathVars path)).all
        fun e => checkSegments sch (sch m.input) (splitOn e.1 '.'))
      = (buildPathVars path).all
          fun e => checkSegments sch (sch m.input) (splitOn e.1 '.') := by
    rw [Bool.eq_iff_iff, List.all_eq_true, List.all_eq_true]
    exact ⟨fun h e he => h e (((ord.perm _).mem_iff).mpr he),
      fun h e he => h e (((ord.perm _).mem_iff).mp he)⟩
  rw [hall] at hl
  rw [← hl]
  unfold buildMethodDesc
  cases hvl : varsLoop sch m.input (ord.visit (buildPathVars path)) path <;> simp [hvl]

/-- Whether `buildMethodDesc` returns a descriptor or exits does not depend on the order
in which the map of variables is ranged, nor on the counter. -/
theorem buildMethodDesc_isSome_order (ord1 ord2 : MapOrder) (sch : Schema)
    (st1 st2 : MethodSets) (m : Method) (method path : Str) :
    (buildMethodDesc ord1 sch st1 m method path).isSome
      = (buildMethodDesc ord2 sch st2 m method path).isSome := by
  rw [buildMethodDesc_isSome, buildMethodDesc_isSome]

/-! ### The loops of `genService` -/

theorem genMethods_append (ord : MapOrder) (sch : Schema) (service : Service) (oe : Bool)
    (pfx : Str) (xs ys : List Method) (st : MethodSets) :
    genMethods ord sch service oe pfx (xs ++ ys) st =
      match genMethods ord sch service oe pfx xs st with
      | Option.none => Option.none
      | some (d1, s1) =>
        match genMethods ord sch service oe pfx ys s1 with
        | Option.none => Option.none
        | some (d2, s2) => some (d1 ++ d2, s2) := by
  induction xs generalizing st with
  | nil =>
    simp only [List.nil_append, genMethods]
    cases genMethods ord sch service oe pfx ys st with
    | none => rfl
    | some r => simp
  | cons m xs ih =>
    simp only [List.cons_append, genMethods]
    cases genMethod ord sch service oe pfx m st with
    | none => rfl
    | some r =>
      obtain ⟨d0, s0⟩ := r
      simp only [List.append_eq, ih]
      cases genMethods ord sch service oe pfx xs s0 with
      | none => rfl
      | some r1 =>
        obtain ⟨d1, s1⟩ := r1
        simp only
        cases genMethods ord sch service oe pfx ys s1 with
        | none => rfl
        | some r2 => simp

theorem genMethods_skip (ord : MapOrder) (sch : Schema) (service : Service) (oe : Bool)
    (pfx : Str) (keep : Method → Bool)
    (hskip : ∀ m st, keep m = false → genMethod ord sch service oe pfx m st = some ([], st))
    (ms : List Method) (st : MethodSets) :
    genMethods ord sch service oe pfx ms st =
      genMethods ord sch service oe pfx (ms.filter keep) st := by
  induction ms generalizing st with
  | nil => rfl
  | cons m ms ih =>
    cases hk : keep m with
    | true =>
      rw [List.filter_cons_of_pos hk]
      simp only [genMethods]
      cases genMethod ord sch service oe pfx m st with
      | none => rfl
      | some r => simp only [ih]
    | false =>
      rw [List.filter_cons_of_neg (by simp [hk])]
      simp only [genMethods, hskip m st hk, List.nil_append]
      rw [ih]
      cases genMethods ord sch service oe pfx (ms.filter keep) st with
      | none => rfl
      | some r => rfl

theorem genMethod_streaming (ord : MapOrder) (sch : Schema) (service : Service) (oe : Bool)
    (pfx : Str) (m : Method) (st : MethodSets)
    (h : (!(m.streamingClient || m.streamingServer)) = false) :
    genMethod ord sch service oe pfx m st = some ([], st) := by
  unfold genMethod
  have h1 : (m.streamingClient || m.streamingServer) = true := by
    cases hc : m.streamingClient <;> cases hs : m.streamingServer <;> simp_all
  simp [h1]

theorem genMethod_no_rule_omit (ord : MapOrder) (sch : Schema) (service : Service)
    (pfx : Str) (m : Method) (st : MethodSets) (h : m.rule.isSome = false) :
    genMethod ord sch service true pfx m st = some ([], st) := by
  unfold genMethod
  have h1 : m.rule = Option.none := by simpa using h
  by_cases hs : (m.streamingClient || m.streamingServer) = true
  · simp [hs]
  · simp [hs, h1]

theorem buildHTTPRule_congr_service (ord : MapOrder) (sch : Schema) (st : MethodSets)
    (s1 s2 : Service) (m : Method) (rule : HttpRule) (pfx : Str)
    (h : s1.fullName = s2.fullName) :
    buildHTTPRule ord sch st s1 m rule pfx = buildHTTPRule ord sch st s2 m rule pfx := by
  unfold buildHTTPRule defaultPath
  rw [h]

theorem genBindings_congr_service (ord : MapOrder) (sch : Schema)
    (s1 s2 : Service) (m : Method) (pfx : Str) (h : s1.fullName = s2.fullName)
    (bs : List HttpRule) (st : MethodSets) :
    genBindings ord sch s1 m pfx bs st = genBindings ord sch s2 m pfx bs st := by
  induction bs generalizing st with
  | nil => rfl
  | cons b bs ih =>
    simp only [genBindings, buildHTTPRule_congr_service ord sch st s1 s2 m b pfx h]
    cases buildHTTPRule ord sch st s2 m b pfx with
    | none => rfl
    | some r => simp only [ih]

theorem genMethod_congr_service (ord : MapOrder) (sch : Schema)
    (s1 s2 : Service) (oe : Bool) (pfx : Str) (h : s1.fullName = s2.fullName)
    (m : Method) (st : MethodSets) :
    genMethod ord sch s1 oe pfx m st = genMethod ord sch s2 oe pfx m st := by
  unfold genMethod
  have hd : defaultPath pfx s1 m = defaultPath pfx s2 m := by
    unfold defaultPath
    rw [h]
  rw [hd]
  cases m.rule with
  | none => rfl
  | some rule =>
    simp only [genBindings_congr_service ord sch s1 s2 m pfx h]
    cases genBindings ord sch s2 m pfx rule.additionalBindings st with
    | none => rfl
    | some r => simp only [buildHTTPRule_congr_service ord sch r.2 s1 s2 m rule pfx h]

theorem genMethods_congr_service (ord : MapOrder) (sch : Schema)
    (s1 s2 : Service) (oe : Bool) (pfx : Str) (h : s1.fullName = s2.fullName)
    (ms : List Method) (st : MethodSets) :
    genMethods ord sch s1 oe pfx ms st = genMethods ord sch s2 oe pfx ms st := by
  induction ms generalizing st with
  | nil => rfl
  | cons m ms ih =>
    simp only [genMethods, genMethod_congr_service ord sch s1 s2 oe pfx h]
    cases genMethod ord sch s2 oe pfx m st with
    | none => rfl
    | some r => simp only [ih]

theorem genService_filter (ord : MapOrder) (sch : Schema) (file : File) (service : Service)
    (oe : Bool) (pfx : Str) (st : MethodSets) (keep : Method → Bool)
    (hskip : ∀ m st, keep m = false → genMethod ord sch service oe pfx m st = some ([], st)) :
    genService ord sch file service oe pfx st =
      genService ord sch file { service with methods := service.methods.filter keep }
        oe pfx st := by
  unfold genService
  simp only
  rw [genMethods_congr_service ord sch
      { service with methods := service.methods.filter keep } service oe pfx rfl,
    ← genMethods_skip ord sch service oe pfx keep hskip]

theorem bump_self (st : MethodSets) (g : Str) : bump st g g = st g + 1 := by
  simp [bump]

theorem bump_add (st : MethodSets) (g : Str) (n : Nat) :
    (fun k => if k = g then bump st g k + n else bump st g k)
      = fun k => if k = g then st k + (n + 1) else st k := by
  funext k
  by_cases hk : k = g
  · simp [hk, bump]; omega
  · simp [hk, bump]

theorem buildHTTPRule_num {ord : MapOrder} {sch : Schema} {st : MethodSets}
    {service : Service} {m : Method} {rule : HttpRule} {pfx : Str}
    {md : MethodDesc} {st1 : MethodSets}
    (h : buildHTTPRule ord sch st service m rule pfx = some (md, st1)) :
    md.num = st m.goName ∧ st1 = bump st m.goName := by
  obtain ⟨md0, hb, -, -, hnum, -⟩ := buildHTTPRule_eq_some h
  obtain ⟨p0, -, hmd0, hst⟩ := buildMethodDesc_eq_some hb
  refine ⟨?_, hst⟩
  rw [hnum, hmd0]

theorem genBindings_nums (ord : MapOrder) (sch : Schema) (service : Service) (m : Method)
    (pfx : Str) (bs : List HttpRule) (st : MethodSets) (ds : List MethodDesc)
    (st1 : MethodSets) (h : genBindings ord sch service m pfx bs st = some (ds, st1)) :
    ds.map (fun d => d.num) = List.range' (st m.goName) bs.length ∧
    st1 = fun k => if k = m.goName then st k + bs.length else st k := by
  induction bs generalizing st ds st1 with
  | nil =>
    simp only [genBindings, Option.some.injEq, Prod.mk.injEq] at h
    obtain ⟨h1, h2⟩ := h
    subst h1 h2
    simp
  | cons b bs ih =>
    simp only [genBindings] at h
    cases hb : buildHTTPRule ord sch st service m b pfx with
    | none => simp [hb] at h
    | some r =>
      obtain ⟨md, s0⟩ := r
      simp only [hb] at h
      cases hg : genBindings ord sch service m pfx bs s0 with
      | none => simp [hg] at h
      | some r1 =>
        obtain ⟨mds, s2⟩ := r1
        simp only [hg, Option.some.injEq, Prod.mk.injEq] at h
        obtain ⟨h1, h2⟩ := h
        subst h1 h2
        obtain ⟨hn, hs0⟩ := buildHTTPRule_num hb
        obtain ⟨ihn, ihs⟩ := ih s0 mds s2 hg
        subst hs0
        refine ⟨?_, ?_⟩
        · simp only [List.map_cons, List.length_cons, List.range'_succ, hn, ihn, bump_self]
        · rw [ihs]
          exact bump_add st m.goName bs.length

/-! ### Validation of the variables -/

theorem checkSegments_unresolved (sch : Schema) (fields : List FieldDesc) (segs : List Str)
    (f : Str) (hf : segs.find? (fun seg => decide (trimSpace seg ≠ [])) = some f)
    (hc : f.contains ':' = false) (hn : byName fields f = Option.none) :
    checkSegments sch fields segs = false := by
  induction segs with
  | nil => simp at hf
  | cons seg rest ih =>
    rw [List.find?_cons] at hf
    by_cases hb : trimSpace seg = []
    · have hd : decide (trimSpace seg ≠ []) = false := by simp [hb]
      rw [hd] at hf
      simp only [checkSegments, hb, if_true]
      exact ih hf
    · have hd : decide (trimSpace seg ≠ []) = true := by simp [hb]
      rw [hd] at hf
      simp only [Option.some.injEq] at hf
      subst hf
      simp only [checkSegments, hb, if_false, hc, Bool.false_eq_true, hn]

theorem varsLoop_abort (sch : Schema) (input : Nat) (l : List (Str × Option Str))
    (v : Str) (s : Option Str) (hv : (v, s) ∈ l)
    (hbad : checkSegments sch (sch input) (splitOn v '.') = false) :
    ∀ path, varsLoop sch input l path = Option.none := by
  induction l with
  | nil => simp at hv
  | cons e l ih =>
    intro path
    obtain ⟨v1, s1⟩ := e
    simp only [varsLoop]
    rcases List.mem_cons.mp hv with h | h
    · simp only [Prod.mk.injEq] at h
      obtain ⟨h1, h2⟩ := h
      subst h1
      simp [hbad]
    · by_cases hchk : checkSegments sch (sch input) (splitOn v1 '.') = true
      · simp only [hchk, if_true]
        exact ih h _
      · simp [hchk]

theorem buildMethodDesc_abort (ord : MapOrder) (sch : Schema) (st : MethodSets) (m : Method)
    (method path v : Str) (s : Option Str) (hv : (v, s) ∈ buildPathVars path)
    (hbad : checkSegments sch (sch m.input) (splitOn v '.') = false) :
    buildMethodDesc ord sch st m method path = Option.none := by
  unfold buildMethodDesc
  have hmem : (v, s) ∈ ord.visit (buildPathVars path) :=
    ((ord.perm (buildPathVars path)).mem_iff).mpr hv
  simp only [varsLoop_abort sch m.input _ v s hmem hbad path]

theorem buildHTTPRule_abort (ord : MapOrder) (sch : Schema) (st : MethodSets)
    (service : Service) (m : Method) (rule : HttpRule) (pfx : Str)
    (h : ∀ st1 method, buildMethodDesc ord sch st1 m method (rulePath service m rule pfx)
      = Option.none) :
    buildHTTPRule ord sch st service m rule pfx = Option.none := by
  cases hb : buildHTTPRule ord sch st service m rule pfx with
  | none => rfl
  | some r =>
    obtain ⟨md0, hb0, -⟩ := buildHTTPRule_eq_some hb
    rw [h] at hb0
    exact absurd hb0 (by simp)

theorem genBindings_abort (ord : MapOrder) (sch : Schema) (service : Service) (m : Method)
    (pfx : Str) (bs : List HttpRule) (r : HttpRule) (hr : r ∈ bs)
    (h : ∀ st, buildHTTPRule ord sch st service m r pfx = Option.none) :
    ∀ st, genBindings ord sch service m pfx bs st = Option.none := by
  induction bs with
  | nil => simp at hr
  | cons b bs ih =>
    intro st
    simp only [genBindings]
    rcases List.mem_cons.mp hr with hb | hb
    · subst hb
      simp only [h]
    · cases buildHTTPRule ord sch st service m b pfx with
      | none => rfl
      | some r1 => simp only [ih hb]

theorem genMethods_abort (ord : MapOrder) (sch : Schema) (service : Service) (oe : Bool)
    (pfx : Str) (pre post : List Method) (m : Method)
    (h : ∀ st, genMethod ord sch service oe pfx m st = Option.none) (st : MethodSets) :
    genMethods ord sch service oe pfx (pre ++ m :: post) st = Option.none := by
  rw [genMethods_append]
  cases genMethods ord sch service oe pfx pre st with
  | none => rfl
  | some r => simp only [genMethods, h]

/-- C2: `camelCase("_my_field_name_2")` is `"XMyFieldName_2"`, the empty string is
mapped to the empty string by `camelCase` and by `camelCaseVars`. -/
theorem camelCase_doc_example :
    camelCase "_my_field_name_2".toList = "XMyFieldName_2".toList ∧
    camelCase "".toList = "".toList ∧ camelCaseVars "".toList = "".toList := by
  decide

/-- C3: a descriptor returned by `buildHTTPRule` has `HasBody` exactly when the body path
of the rule is not empty; its body accessor is empty for the body path `*` or the empty
one and `.` followed by `camelCaseVars` of the body path otherwise (`.A.B` for `a.b`);
its response-body accessor is obtained the same way from the response-body path. -/
theorem buildHTTPRule_body (ord : MapOrder) (sch : Schema) (st : MethodSets)
    (service : Service) (m : Method) (rule : HttpRule) (pfx : Str)
    (md : MethodDesc) (st1 : MethodSets)
    (h : buildHTTPRule ord sch st service m rule pfx = some (md, st1)) :
    (md.hasBody = true ↔ rule.body ≠ []) ∧
    md.body = (if rule.body = "*".toList ∨ rule.body = [] then []
               else '.' :: camelCaseVars rule.body) ∧
    md.responseBody = (if rule.responseBody = "*".toList ∨ rule.responseBody = [] then []
                       else '.' :: camelCaseVars rule.responseBody) ∧
    '.' :: camelCaseVars "a.b".toList = ".A.B".toList := by
  obtain ⟨md0, -, -, -, -, -, -, -, -, -, -, hb, hbody, hresp⟩ := buildHTTPRule_eq_some h
  refine ⟨?_, hbody, hresp, by decide⟩
  rw [hb]
  simp

theorem buildHTTPRule_body_witness :
    buildHTTPRule MapOrder.inserted demoSchema emptySets (demoService [])
        (demoMethod Option.none)
        (HttpRule.mk (Pattern.post "/x/\x7bid\x7d".toList) "a.b".toList "*".toList []) []
      = some (demoDesc 0 "/x/\x7bid\x7d".toList "POST".toList true true ".A.B".toList [],
              bump emptySets "Do".toList) ∧
    ((true = true ↔ "a.b".toList ≠ []) ∧
     ".A.B".toList = (if "a.b".toList = "*".toList ∨ "a.b".toList = [] then []
               else '.' :: camelCaseVars "a.b".toList) ∧
     ([] : Str) = (if "*".toList = "*".toList ∨ "*".toList = [] then []
                       else '.' :: camelCaseVars "*".toList) ∧
     '.' :: camelCaseVars "a.b".toList = ".A.B".toList) :=
  ⟨rfl, buildHTTPRule_body MapOrder.inserted demoSchema emptySets (demoService [])
    (demoMethod Option.none)
    (HttpRule.mk (Pattern.post "/x/\x7bid\x7d".toList) "a.b".toList "*".toList []) []
    (demoDesc 0 "/x/\x7bid\x7d".toList "POST".toList true true ".A.B".toList [])
    (bump emptySets "Do".toList) rfl⟩

/-- C8: a descriptor returned by `buildHTTPRule` carries the verb of the rule's pattern
variant (`GET`, `PUT`, `POST`, `DELETE`, `PATCH`), the kind of a `CUSTOM` variant when
that kind is not empty, and `POST` for a rule with no variant or a `CUSTOM` variant of
empty kind; and when the variant's path is empty the descriptor is built, by
`buildMethodDesc`, from the template `<prefix>/<service full name>/<method name>`. -/
theorem buildHTTPRule_verb_and_default_path (ord : MapOrder) (sch : Schema) (st : MethodSets)
    (service : Service) (m : Method) (rule : HttpRule) (pfx : Str)
    (md : MethodDesc) (st1 : MethodSets)
    (h : buildHTTPRule ord sch st service m rule pfx = some (md, st1)) :
    (∀ p, rule.pattern = Pattern.get p → md.method = "GET".toList) ∧
    (∀ p, rule.pattern = Pattern.put p → md.method = "PUT".toList) ∧
    (∀ p, rule.pattern = Pattern.post p → md.method = "POST".toList) ∧
    (∀ p, rule.pattern = Pattern.delete p → md.method = "DELETE".toList) ∧
    (∀ p, rule.pattern = Pattern.patch p → md.method = "PATCH".toList) ∧
    (∀ kind p, rule.pattern = Pattern.custom kind p → kind ≠ [] → md.method = kind) ∧
    (∀ p, rule.pattern = Pattern.custom [] p → md.method = "POST".toList) ∧
    (rule.pattern = Pattern.none → md.method = "POST".toList) ∧
    ((patternPathMethod rule.pattern).1 = [] →
      ∃ md0, buildMethodDesc ord sch st m md.method
          (pfx ++ "/".toList ++ service.fullName ++ "/".toList ++ m.name) = some (md0, st1) ∧
        md.path = md0.path) := by
  obtain ⟨md0, hb, -, -, -, -, -, -, hpath, hmeth, -⟩ := buildHTTPRule_eq_some h
  obtain ⟨p0, -, hmd0, -⟩ := buildMethodDesc_eq_some hb
  have hm : md.method = ruleMethod rule := by rw [hmeth, hmd0]
  refine ⟨?_, ?_, ?_, ?_, ?_, ?_, ?_, ?_, ?_⟩
  · intro p hp; rw [hm, ruleMethod, hp]; simp [patternPathMethod]
  · intro p hp; rw [hm, ruleMethod, hp]; simp [patternPathMethod]
  · intro p hp; rw [hm, ruleMethod, hp]; simp [patternPathMethod]
  · intro p hp; rw [hm, ruleMethod, hp]; simp [patternPathMethod]
  · intro p hp; rw [hm, ruleMethod, hp]; simp [patternPathMethod]
  · intro kind p hp hk; rw [hm, ruleMethod, hp]; simp [patternPathMethod, hk]
  · intro p hp; rw [hm, ruleMethod, hp]; simp [patternPathMethod]
  · intro hp; rw [hm, ruleMethod, hp]; simp [patternPathMethod]
  · intro hp
    refine ⟨md0, ?_, hpath⟩
    have hrp : rulePath service m rule pfx
        = pfx ++ "/".toList ++ service.fullName ++ "/".toList ++ m.name := by
      simp [rulePath, hp, defaultPath]
    rw [hm, ← hrp]
    exact hb

theorem buildHTTPRule_verb_and_default_path_witness :
    buildHTTPRule MapOrder.inserted demoSchema emptySets (demoService [])
        (demoMethod Option.none)
        (HttpRule.mk (Pattern.custom "HEAD".toList []) [] [] []) "/v1".toList
      = some (demoDesc 0 "/v1/pkg.Svc/Do".toList "HEAD".toList false false [] [],
              bump emptySets "Do".toList) ∧
    (∀ kind p, Pattern.custom "HEAD".toList [] = Pattern.custom kind p → kind ≠ [] →
        "HEAD".toList = kind) ∧
    ((patternPathMethod (Pattern.custom "HEAD".toList [])).1 = [] →
      ∃ md0, buildMethodDesc MapOrder.inserted demoSchema emptySets (demoMethod Option.none)
          "HEAD".toList
          ("/v1".toList ++ "/".toList ++ "pkg.Svc".toList ++ "/".toList ++ "Do".toList)
            = some (md0, bump emptySets "Do".toList) ∧
        "/v1/pkg.Svc/Do".toList = md0.path) :=
  have h := buildHTTPRule_verb_and_default_path MapOrder.inserted demoSchema emptySets
    (demoService []) (demoMethod Option.none)
    (HttpRule.mk (Pattern.custom "HEAD".toList []) [] [] []) "/v1".toList
    (demoDesc 0 "/v1/pkg.Svc/Do".toList "HEAD".toList false false [] [])
    (bump emptySets "Do".toList) rfl
  ⟨rfl, h.2.2.2.2.2.1, h.2.2.2.2.2.2.2.2⟩

/-- C6: `genService` builds no descriptor for a method with the streaming-client or the
streaming-server flag set, whatever `omitempty` and the rules are: the loop body returns
no descriptor and leaves the counter alone, the result of `genService` is the one for the
service without its streaming methods, and a service of streaming methods only gets an
empty descriptor list. -/
theorem genService_skips_streaming (ord : MapOrder) (sch : Schema) (file : File)
    (service : Service) (oe : Bool) (pfx : Str) (st : MethodSets) :
    (∀ m st1, m.streamingClient = true ∨ m.streamingServer = true →
      genMethod ord sch service oe pfx m st1 = some ([], st1)) ∧
    genService ord sch file service oe pfx st =
      genService ord sch file
        { service with methods := service.methods.filter fun m =>
            !(m.streamingClient || m.streamingServer) } oe pfx st ∧
    ((∀ m ∈ service.methods, m.streamingClient = true ∨ m.streamingServer = true) →
      genService ord sch file service oe pfx st =
        some ({ serviceType := service.goName, serviceName := service.fullName,
                metadata := file.path, methods := [] }, st)) := by
  have hskip : ∀ m st1, (!(m.streamingClient || m.streamingServer)) = false →
      genMethod ord sch service oe pfx m st1 = some ([], st1) :=
    fun m st1 h => genMethod_streaming ord sch service oe pfx m st1 h
  have hfilter := genService_filter ord sch file service oe pfx st
    (fun m => !(m.streamingClient || m.streamingServer)) hskip
  refine ⟨?_, hfilter, ?_⟩
  · intro m st1 h
    apply hskip
    rcases h with h | h <;> simp [h]
  · intro hall
    rw [hfilter]
    have hnil : (service.methods.filter fun m =>
        !(m.streamingClient || m.streamingServer)) = [] := by
      rw [List.filter_eq_nil_iff]
      intro m hm
      rcases hall m hm with h | h <;> simp [h]
    rw [hnil]
    rfl

theorem genService_skips_streaming_witness :
    (∀ m ∈ (demoService [{ demoMethod (some (HttpRule.mk (Pattern.get "/x".toList) [] [] []))
        with streamingServer := true }]).methods,
      m.streamingClient = true ∨ m.streamingServer = true) ∧
    genService MapOrder.inserted demoSchema ⟨[], [], []⟩
        (demoService [{ demoMethod (some (HttpRule.mk (Pattern.get "/x".toList) [] [] []))
          with streamingServer := true }]) false [] emptySets =
      some ({ serviceType := "Svc".toList, serviceName := "pkg.Svc".toList,
              metadata := [], methods := [] }, emptySets) :=
  have hall : ∀ m ∈ (demoService [{ demoMethod
        (some (HttpRule.mk (Pattern.get "/x".toList) [] [] []))
        with streamingServer := true }]).methods,
      m.streamingClient = true ∨ m.streamingServer = true := by
    intro m hm
    simp only [demoService, List.mem_singleton] at hm
    subst hm
    exact Or.inr rfl
  ⟨hall, (genService_skips_streaming MapOrder.inserted demoSchema ⟨[], [], []⟩
    (demoService [{ demoMethod (some (HttpRule.mk (Pattern.get "/x".toList) [] [] []))
      with streamingServer := true }]) false [] emptySets).2.2 hall⟩

/-- C7, as stated, fails: with the prefix `/{nope}` the default path of the method `Do` has
the variable `nope`, which is no field of the input message, and `genService` exits
without any descriptor. -/
theorem default_route_can_abort :
    genService MapOrder.inserted demoSchema ⟨[], [], []⟩
      (demoService [demoMethod Option.none]) false "/\x7bnope\x7d".toList emptySets
        = Option.none :=
  rfl

/-- C7, amended: with `omitempty = false`, for a non-streaming method without a rule
`genService` calls `buildMethodDesc` once, with the verb `POST` and the template
`<prefix>/<service full name>/<method name>`, and puts its descriptor between those of
the methods before and after it; the call returns a descriptor exactly when every brace
variable of that string passes validation (otherwise the run exits); the descriptor has
verb `POST`, `HasBody` false, empty body and response-body accessors; and when the string
has no brace variable occurrence the descriptor is returned and its path is that string. -/
theorem genService_default_route (ord : MapOrder) (sch : Schema) (file : File)
    (service : Service) (pfx : Str) (st : MethodSets) (pre post : List Method) (m : Method)
    (hm : service.methods = pre ++ m :: post)
    (hc : m.streamingClient = false) (hs : m.streamingServer = false)
    (hr : m.rule = Option.none) :
    genService ord sch file service false pfx st =
      (match genMethods ord sch service false pfx pre st with
       | Option.none => Option.none
       | some (d1, s1) =>
         match buildMethodDesc ord sch s1 m "POST".toList
             (pfx ++ "/".toList ++ service.fullName ++ "/".toList ++ m.name) with
         | Option.none => Option.none
         | some (d, s2) =>
           match genMethods ord sch service false pfx post s2 with
           | Option.none => Option.none
           | some (d2, s3) =>
             some ({ serviceType := service.goName, serviceName := service.fullName,
                     metadata := file.path, methods := d1 ++ [d] ++ d2 }, s3)) ∧
    (∀ s1, (buildMethodDesc ord sch s1 m "POST".toList
          (pfx ++ "/".toList ++ service.fullName ++ "/".toList ++ m.name)).isSome
        = (buildPathVars (pfx ++ "/".toList ++ service.fullName ++ "/".toList ++ m.name)).all
            fun e => checkSegments sch (sch m.input) (splitOn e.1 '.')) ∧
    (∀ s1 d s2, buildMethodDesc ord sch s1 m "POST".toList
          (pfx ++ "/".toList ++ service.fullName ++ "/".toList ++ m.name) = some (d, s2) →
        d.method = "POST".toList ∧ d.hasBody = false ∧ d.body = [] ∧ d.responseBody = []) ∧
    (buildPathVars (pfx ++ "/".toList ++ service.fullName ++ "/".toList ++ m.name) = [] →
      ∀ s1, buildMethodDesc ord sch s1 m "POST".toList
          (pfx ++ "/".toList ++ service.fullName ++ "/".toList ++ m.name)
        = some ({ name := m.goName, originalName := m.name, num := s1 m.goName,
                  request := m.request, reply := m.reply, comment := buildComment m,
                  path := pfx ++ "/".toList ++ service.fullName ++ "/".toList ++ m.name,
                  method := "POST".toList, hasVars := false,
                  hasBody := false, body := [], responseBody := [] },
                bump s1 m.goName)) := by
  have hdp : defaultPath pfx service m
      = pfx ++ "/".toList ++ service.fullName ++ "/".toList ++ m.name := by
    simp [defaultPath]
  refine ⟨?_, ?_, ?_, ?_⟩
  · have hstep : ∀ s1, genMethod ord sch service false pfx m s1 =
        match buildMethodDesc ord sch s1 m "POST".toList
            (pfx ++ "/".toList ++ service.fullName ++ "/".toList ++ m.name) with
        | Option.none => Option.none
        | some (d, s2) => some ([d], s2) := by
      intro s1
      unfold genMethod
      simp only [hc, hs, hr, Bool.or_self, Bool.false_eq_true, if_false, Bool.not_false,
        if_true, hdp]
    unfold genService
    rw [hm, genMethods_append]
    cases genMethods ord sch service false pfx pre st with
    | none => rfl
    | some r =>
      obtain ⟨d1, s1⟩ := r
      simp only [genMethods, hstep]
      cases buildMethodDesc ord sch s1 m "POST".toList
          (pfx ++ "/".toList ++ service.fullName ++ "/".toList ++ m.name) with
      | none => rfl
      | some r1 =>
        obtain ⟨d, s2⟩ := r1
        simp only
        cases genMethods ord sch service false pfx post s2 with
        | none => rfl
        | some r2 => simp
  · intro s1
    exact buildMethodDesc_isSome ord sch s1 m _ _
  · intro s1 d s2 h
    obtain ⟨p, -, hd, -⟩ := buildMethodDesc_eq_some h
    subst hd
    exact ⟨rfl, rfl, rfl, rfl⟩
  · intro hv s1
    have hloop : varsLoop sch m.input (ord.visit (buildPathVars
        (pfx ++ "/".toList ++ service.fullName ++ "/".toList ++ m.name)))
        (pfx ++ "/".toList ++ service.fullName ++ "/".toList ++ m.name)
          = some (pfx ++ "/".toList ++ service.fullName ++ "/".toList ++ m.name) := by
      rw [hv]
      have h0 : ord.visit [] = [] := List.Perm.eq_nil (ord.perm [])
      rw [h0]
      rfl
    rw [buildMethodDesc_of_loop hloop, hv]
    rfl

theorem genService_default_route_witness :
    buildPathVars ("/v1".toList ++ "/".toList ++ "pkg.Svc".toList ++ "/".toList ++ "Do".toList)
      = [] ∧
    buildMethodDesc MapOrder.inserted demoSchema emptySets (demoMethod Option.none)
        "POST".toList
        ("/v1".toList ++ "/".toList ++ "pkg.Svc".toList ++ "/".toList ++ "Do".toList)
      = some (demoDesc 0 "/v1/pkg.Svc/Do".toList "POST".toList false false [] [],
              bump emptySets "Do".toList) :=
  ⟨by decide, (genService_default_route MapOrder.inserted demoSchema ⟨[], [], []⟩
    (demoService [demoMethod Option.none]) "/v1".toList emptySets [] []
    (demoMethod Option.none) rfl rfl rfl rfl).2.2.2 (by decide) emptySets⟩

/-- C9: with `omitempty = true`, `genService` builds descriptors only for methods that
declare a rule (the loop body returns nothing for a method without one, and the result
is that for the service reduced to its methods with a rule), and `generateFile` returns
`nil` whenever `hasHTTPRule` is false, which is the case when no method of any service of
the file declares a rule. -/
theorem omitempty_only_declared_rules (ord : MapOrder) (sch : Schema) (file : File)
    (service : Service) (pfx : Str) (st : MethodSets) :
    (∀ m st1, m.rule = Option.none →
      genMethod ord sch service true pfx m st1 = some ([], st1)) ∧
    genService ord sch file service true pfx st =
      genService ord sch file
        { service with methods := service.methods.filter fun m => m.rule.isSome }
        true pfx st ∧
    (hasHTTPRule file.services = false →
      generateFile ord sch file true pfx st = some (Option.none, st)) ∧
    ((∀ s ∈ file.services, ∀ m ∈ s.methods, m.rule = Option.none) →
      hasHTTPRule file.services = false) := by
  refine ⟨?_, ?_, ?_, ?_⟩
  · intro m st1 h
    exact genMethod_no_rule_omit ord sch service pfx m st1 (by simp [h])
  · exact genService_filter ord sch file service true pfx st (fun m => m.rule.isSome)
      (fun m st1 h => genMethod_no_rule_omit ord sch service pfx m st1 h)
  · intro h
    unfold generateFile
    simp [h]
  · intro h
    unfold hasHTTPRule
    rw [Bool.eq_false_iff, Ne, List.any_eq_true]
    rintro ⟨s, hs, hany⟩
    rw [List.any_eq_true] at hany
    obtain ⟨m, hm, hrule⟩ := hany
    simp [h s hs m hm] at hrule

theorem omitempty_only_declared_rules_witness :
    hasHTTPRule [demoService [demoMethod Option.none]] = false ∧
    generateFile MapOrder.inserted demoSchema ⟨[], [], [demoService [demoMethod Option.none]]⟩
      true [] emptySets = some (Option.none, emptySets) :=
  ⟨by decide, (omitempty_only_declared_rules MapOrder.inserted demoSchema
    ⟨[], [], [demoService [demoMethod Option.none]]⟩ (demoService []) [] emptySets).2.2.1
      (by decide)⟩

/-- C4, as stated, fails: in one run over a file with two services that both have a
method `Do` with one additional binding, the descriptors of the second `Do` carry the
indices 2 and 3, not 0 and 1. -/
theorem overload_indices_not_from_zero :
    ∃ sds st, generateFileContent MapOrder.inserted demoSchema demoFile false []
        demoFile.services emptySets = some (sds, st) ∧
      sds.map (fun sd => sd.methods.map fun d => d.num) = [[0, 1], [2, 3]] :=
  ⟨_, _, rfl, by decide⟩

/-- C4, amended: for a non-streaming method whose primary rule carries K additional
bindings, reached with the counter of its Go name at `c`, the K+1 descriptors built for
it carry the indices `c, c+1, ..., c+K` in output order, the additional bindings first
(`c .. c+K-1`, in declaration order) and the primary rule last (`c+K`); these are
`0 .. K` when the counter is still at 0; afterwards the counter of that name is
`c+K+1` and no other counter has changed. -/
theorem genMethod_overload_indices (ord : MapOrder) (sch : Schema) (service : Service)
    (oe : Bool) (pfx : Str) (m : Method) (rule : HttpRule) (st : MethodSets)
    (ds : List MethodDesc) (st1 : MethodSets)
    (hc : m.streamingClient = false) (hs : m.streamingServer = false)
    (hr : m.rule = some rule)
    (h : genMethod ord sch service oe pfx m st = some (ds, st1)) :
    ds.map (fun d => d.num)
      = List.range' (st m.goName) (rule.additionalBindings.length + 1) ∧
    (st m.goName = 0 →
      ds.map (fun d => d.num) = List.range (rule.additionalBindings.length + 1)) ∧
    (∃ dsb stb dp, genBindings ord sch service m pfx rule.additionalBindings st
          = some (dsb, stb) ∧
        buildHTTPRule ord sch stb service m rule pfx = some (dp, st1) ∧
        ds = dsb ++ [dp] ∧
        dsb.map (fun d => d.num)
          = List.range' (st m.goName) rule.additionalBindings.length ∧
        dp.num = st m.goName + rule.additionalBindings.length) ∧
    st1 = fun k =>
      if k = m.goName then st k + (rule.additionalBindings.length + 1) else st k := by
  unfold genMethod at h
  simp only [hc, hs, hr, Bool.or_self, Bool.false_eq_true, if_false] at h
  cases hg : genBindings ord sch service m pfx rule.additionalBindings st with
  | none => simp [hg] at h
  | some r =>
    obtain ⟨dsb, stb⟩ := r
    simp only [hg] at h
    cases hb : buildHTTPRule ord sch stb service m rule pfx with
    | none => simp [hb] at h
    | some r1 =>
      obtain ⟨dp, s2⟩ := r1
      simp only [hb, Option.some.injEq, Prod.mk.injEq] at h
      obtain ⟨h1, h2⟩ := h
      subst h1 h2
      obtain ⟨hn, hstb⟩ := genBindings_nums ord sch service m pfx _ st dsb stb hg
      obtain ⟨hpn, hs2⟩ := buildHTTPRule_num hb
      have hdp : dp.num = st m.goName + rule.additionalBindings.length := by
        rw [hpn, hstb]
        simp
      have hall : (dsb ++ [dp]).map (fun d => d.num)
          = List.range' (st m.goName) (rule.additionalBindings.length + 1) := by
        rw [List.map_append, hn, List.range'_concat]
        simp [hdp]
      refine ⟨hall, ?_, ⟨dsb, stb, dp, rfl, hb, rfl, hn, hdp⟩, ?_⟩
      · intro h0
        rw [hall, h0, List.range_eq_range']
      · rw [hs2, hstb]
        funext k
        by_cases hk : k = m.goName
        · simp [hk, bump]; omega
        · simp [hk, bump]

theorem genMethod_overload_indices_witness :
    genMethod MapOrder.inserted demoSchema (demoService []) false []
        (demoMethod (some demoRule)) (bump (bump emptySets "Do".toList) "Do".toList)
      = some ([demoDesc 2 "/b".toList "GET".toList false false [] [],
               demoDesc 3 "/a".toList "GET".toList false false [] []],
              bump (bump (bump (bump emptySets "Do".toList) "Do".toList) "Do".toList)
                "Do".toList) ∧
    [demoDesc 2 "/b".toList "GET".toList false false [] [],
        demoDesc 3 "/a".toList "GET".toList false false [] []].map (fun d => d.num)
      = List.range' 2 2 :=
  ⟨rfl, (genMethod_overload_indices MapOrder.inserted demoSchema (demoService []) false []
    (demoMethod (some demoRule)) demoRule (bump (bump emptySets "Do".toList) "Do".toList)
    [demoDesc 2 "/b".toList "GET".toList false false [] [],
     demoDesc 3 "/a".toList "GET".toList false false [] []]
    (bump (bump (bump (bump emptySets "Do".toList) "Do".toList) "Do".toList) "Do".toList)
    rfl rfl rfl rfl).1⟩

/-- C5: when `buildPathVars(path)` has a variable whose first non-blank `.`-separated
segment names no field of the method's input message, `buildMethodDesc` exits and returns
no descriptor, whatever the verb, the counter and the order of the map; and `genService`
then returns no descriptor list at all for a service in which that path is the template
of the method (its default route, its primary rule or one of its additional bindings),
whatever the other methods are. -/
theorem unresolved_field_aborts (ord : MapOrder) (sch : Schema) (m : Method)
    (path v f : Str) (s : Option Str)
    (hv : (v, s) ∈ buildPathVars path)
    (hf : (splitOn v '.').find? (fun seg => decide (trimSpace seg ≠ [])) = some f)
    (hn : byName (sch m.input) f = Option.none) :
    (∀ st method, buildMethodDesc ord sch st m method path = Option.none) ∧
    (∀ (file : File) (service : Service) (oe : Bool) (pfx : Str) (st : MethodSets)
        (pre post : List Method),
      service.methods = pre ++ m :: post →
      m.streamingClient = false → m.streamingServer = false →
      ((m.rule = Option.none ∧ oe = false ∧
          pfx ++ "/".toList ++ service.fullName ++ "/".toList ++ m.name = path) ∨
        ∃ rule, m.rule = some rule ∧ ∃ r ∈ rule.additionalBindings ++ [rule],
          (if (patternPathMethod r.pattern).1 = []
            then pfx ++ "/".toList ++ service.fullName ++ "/".toList ++ m.name
            else (patternPathMethod r.pattern).1) = path) →
      genService ord sch file service oe pfx st = Option.none) := by
  have hfmem : f ∈ splitOn v '.' := List.mem_of_find?_eq_some hf
  have hcolon : f.contains ':' = false := by
    rw [Bool.eq_false_iff]
    intro hcon
    have hmem : ':' ∈ f := by simpa using hcon
    have hname := buildPathVars_name_chars path (v, s) hv ':'
      (mem_of_mem_splitOn v '.' f hfmem ':' hmem)
    exact absurd hname (by decide)
  have hbad : checkSegments sch (sch m.input) (splitOn v '.') = false :=
    checkSegments_unresolved sch _ _ f hf hcolon hn
  have hbuild : ∀ st method, buildMethodDesc ord sch st m method path = Option.none :=
    fun st method => buildMethodDesc_abort ord sch st m method path v s hv hbad
  refine ⟨hbuild, ?_⟩
  intro file service oe pfx st pre post hms hc hs hcase
  have hdp : defaultPath pfx service m
      = pfx ++ "/".toList ++ service.fullName ++ "/".toList ++ m.name := by
    simp [defaultPath]
  have hstep : ∀ st1, genMethod ord sch service oe pfx m st1 = Option.none := by
    intro st1
    unfold genMethod
    simp only [hc, hs, Bool.or_self, Bool.false_eq_true, if_false]
    rcases hcase with ⟨hr, hoe, hp⟩ | ⟨rule, hr, r, hrmem, hp⟩
    · simp only [hr, hoe, Bool.not_false, if_true, hdp, hp, hbuild]
    · have hrule : ∀ st2, buildHTTPRule ord sch st2 service m r pfx = Option.none := by
        intro st2
        apply buildHTTPRule_abort
        intro st3 method
        have : rulePath service m r pfx = path := by
          rw [← hp, rulePath, hdp]
        rw [this]
        exact hbuild st3 method
      simp only [hr]
      rcases List.mem_append.mp hrmem with hin | hin
      · simp only [genBindings_abort ord sch service m pfx _ r hin hrule]
      · have hrr : r = rule := by simpa using hin
        subst hrr
        cases genBindings ord sch service m pfx r.additionalBindings st1 with
        | none => rfl
        | some r1 => simp only [hrule]
  unfold genService
  rw [hms, genMethods_abort ord sch service oe pfx pre post m hstep st]

theorem unresolved_field_aborts_witness :
    ("nope".toList, Option.none) ∈ buildPathVars "/x/\x7bnope\x7d".toList ∧
    (splitOn "nope".toList '.').find? (fun seg => decide (trimSpace seg ≠ []))
      = some "nope".toList ∧
    byName (demoSchema 0) "nope".toList = Option.none ∧
    buildMethodDesc MapOrder.inserted demoSchema emptySets (demoMethod Option.none)
      "GET".toList "/x/\x7bnope\x7d".toList = Option.none :=
  ⟨by decide, by decide, by decide,
    (unresolved_field_aborts MapOrder.inserted demoSchema (demoMethod Option.none)
      "/x/\x7bnope\x7d".toList "nope".toList "nope".toList Option.none
      (by decide) (by decide) (by decide)).1 emptySets "GET".toList⟩

/-- A path with a single occurrence: for `pre{v=pattern}post` whose only opening brace is
that of the occurrence, the path of the descriptor is `pre{v:P}post`, the occurrence
rewritten where it stands. -/
theorem buildMethodDesc_single_occurrence (ord : MapOrder) (sch : Schema) (st : MethodSets)
    (m : Method) (method pre post v pat : Str) (fd : FieldDesc)
    (hpre : '{' ∉ pre) (hpost : '{' ∉ post)
    (hlen : 2 ≤ v.length) (hv : ∀ c ∈ v, isWordChar c = true)
    (hpat : ∀ c ∈ pat, c ≠ '{' ∧ c ≠ '}') (hstar : '*' ∈ pat)
    (hfd : byName (sch m.input) v = some fd) :
    ∃ md st1, buildMethodDesc ord sch st m method
        (pre ++ '{' :: v ++ '=' :: pat ++ '}' :: post) = some (md, st1) ∧
      md.path = pre ++ '{' :: v ++ ':' :: replaceStar pat ++ '}' :: post ∧
      countOcc ('{' :: v ++ ':' :: replaceStar pat ++ ['}']) md.path = 1 := by
  have hne : v ≠ [] := by
    intro h
    rw [h] at hlen
    simp at hlen
  have hpne : pat ≠ [] := List.ne_nil_of_mem hstar
  have hnb : ∀ c ∈ pat, notBrace c = true := by
    intro c hc
    simp [notBrace, (hpat c hc).1, (hpat c hc).2]
  have hpath : pre ++ '{' :: v ++ '=' :: pat ++ '}' :: post
      = pre ++ '{' :: (v ++ '=' :: (pat ++ '}' :: post)) := by
    simp
  have hvars := buildPathVars_single pre post v pat hpre hpost hlen hv hnb hpne
  have hvisit : ord.visit [(v, some pat)] = [(v, some pat)] :=
    (ord.perm [(v, some pat)]).eq_singleton
  have hcheck := checkSegments_field sch (sch m.input) v fd hne hv hfd
  have hloop : varsLoop sch m.input
      (ord.visit (buildPathVars (pre ++ '{' :: (v ++ '=' :: (pat ++ '}' :: post)))))
      (pre ++ '{' :: (v ++ '=' :: (pat ++ '}' :: post)))
        = some (pre ++ '{' :: (v ++ ':' :: (replaceStar pat ++ '}' :: post))) := by
    rw [hvars, hvisit]
    simp only [varsLoop, hcheck, if_true, replacePath_single pre post v pat hpre hne hv hnb]
  rw [hpath]
  refine ⟨_, _, buildMethodDesc_of_loop hloop, ?_, ?_⟩
  · simp
  · have hsub : '{' :: v ++ ':' :: replaceStar pat ++ ['}']
        = '{' :: (v ++ ':' :: (replaceStar pat ++ ['}'])) := by
      simp
    have hres : pre ++ '{' :: (v ++ ':' :: (replaceStar pat ++ '}' :: post))
        = pre ++ '{' :: ((v ++ ':' :: (replaceStar pat ++ ['}'])) ++ post) := by
      simp
    rw [hsub]
    show countOcc _ (pre ++ '{' :: (v ++ ':' :: (replaceStar pat ++ '}' :: post))) = 1
    rw [hres]
    apply countOcc_single _ _ _ _ hpre
    intro hmem
    simp only [List.append_assoc, List.cons_append, List.nil_append, List.mem_append,
      List.mem_cons] at hmem
    rcases hmem with h | h | h | h | h
    · exact absurd (hv _ h) (by decide)
    · exact absurd h (by decide)
    · rcases mem_replaceStar pat _ h with h1 | h1
      · exact (hpat _ h1).1 rfl
      · exact absurd h1 (by decide)
    · exact absurd h (by decide)
    · exact hpost h

/-! ### The pattern of `replacePath` on a brace group -/

theorem foldKey_eq_toLower (c : Char) (h : isWordChar c = true) : foldKey c = c.toLower := by
  by_cases hu : 65 ≤ c.toNat ∧ c.toNat ≤ 90
  · have hc : c = Char.ofNat c.toNat := by simp
    rw [hc]
    obtain ⟨h1, h2⟩ := hu
    generalize c.toNat = n at h1 h2
    interval_cases n <;> decide
  · have hb := isWordChar_toNat c h
    have h1 : foldKey c = c := by
      unfold foldKey
      have e1 : ('A'.toNat ≤ c.toNat && c.toNat ≤ 'Z'.toNat) = false := by
        rw [Bool.eq_false_iff]
        intro hh
        simp only [Bool.and_eq_true, decide_eq_true_eq] at hh
        exact hu ⟨hh.1, hh.2⟩
      have e2 : ¬ c.toNat = 0x17F := by omega
      have e3 : ¬ c.toNat = 0x212A := by omega
      simp only [e1, Bool.false_eq_true, if_false, e2, e3]
    have h2 : c.toLower = c := by
      unfold Char.toLower
      simp only [ge_iff_le, hu, if_false]
    rw [h1, h2]

theorem foldEq_iff_toLower (a b : Char) (ha : isWordChar a = true) (hb : isWordChar b = true) :
    foldEq a b = true ↔ a.toLower = b.toLower := by
  unfold foldEq
  rw [foldKey_eq_toLower a ha, foldKey_eq_toLower b hb]
  simp

theorem foldEq_sep (c x : Char) (hc : isWordChar c = true)
    (hx : x = '.' ∨ x = '=' ∨ x = ':' ∨ x = '}') : foldEq c x = false := by
  have hxw : isWordChar x = false := by
    rcases hx with h | h | h | h <;> subst h <;> decide
  have hxl : isASCIILower x = false := by
    rcases hx with h | h | h | h <;> subst h <;> decide
  have hxk : foldKey x = x := by
    rcases hx with h | h | h | h <;> subst h <;> decide
  rw [Bool.eq_false_iff]
  intro h
  unfold foldEq at h
  simp only [decide_eq_true_eq] at h
  rw [hxk] at h
  rcases foldKey_cases c with h1 | h1
  · rw [h1] at h
    rw [h] at hc
    rw [hc] at hxw
    exact absurd hxw (by decide)
  · rw [h] at h1
    rw [h1] at hxl
    exact absurd hxl (by decide)

theorem starRun_not_class (p : Char → Bool) (k : Option Char → Str → Option (List Str × Str))
    (prev : Option Char) (s : Str) (h : ∀ y, s.head? = some y → p y = false) :
    starRun p k prev s = (k prev s).map fun r => ([], r) := by
  cases s with
  | nil => rfl
  | cons y s =>
    have hy : p y = false := h y rfl
    simp [starRun, hy]

/-- After the name, the pattern of `replacePath` takes what is left of a brace group. -/
theorem matchSeq_group_rest (r more : Str) (hr : ∀ c ∈ r, notBrace c = true)
    (hh : ∀ c, r.head? = some c → c = '.' ∨ c = '=' ∨ c = ':') :
    ∃ gs, ∀ pv, matchSeq [Atom.star isReSpace, Atom.opt '=', Atom.star notBrace,
      Atom.lit '}'] pv (r ++ '}' :: more) = some (gs, more) := by
  have h3 : ∀ pv, matchSeq [Atom.lit '}'] pv ('}' :: more) = some ([['}']], more) := by
    intro pv
    simp [matchSeq, foldEq_self]
  have hws : ∀ y, (r ++ '}' :: more).head? = some y → isReSpace y = false := by
    intro y hy
    cases r with
    | nil =>
      simp only [List.nil_append, List.head?_cons, Option.some.injEq] at hy
      subst hy
      decide
    | cons x q =>
      simp only [List.cons_append, List.head?_cons, Option.some.injEq] at hy
      subst hy
      rcases hh x rfl with h | h | h <;> subst h <;> decide
  have hopt : ∃ gs, ∀ pv, matchSeq [Atom.opt '=', Atom.star notBrace, Atom.lit '}'] pv
      (r ++ '}' :: more) = some (gs, more) := by
    cases r with
    | nil =>
      refine ⟨[[], [], ['}']], fun pv => ?_⟩
      have hs := starRun_greedy notBrace (matchSeq [Atom.lit '}']) [] ('}' :: more) _
        (by simp) (fun y hy => by
          simp only [List.head?_cons, Option.some.injEq] at hy
          subst hy
          decide) h3 pv
      rw [List.nil_append] at hs
      have hf : foldEq '=' '}' = false := by decide
      simp only [List.nil_append, matchSeq, hf, Bool.false_eq_true, if_false]
      rw [hs]
      rfl
    | cons x q =>
      by_cases hx : x = '='
      · subst hx
        exact ⟨_, fun pv => matchSeq_tail q more
          (fun c hc => hr c (List.mem_cons_of_mem _ hc)) pv⟩
      · refine ⟨[[], x :: q, ['}']], fun pv => ?_⟩
        have hf : foldEq '=' x = false := by
          rcases hh x rfl with h | h | h
          · subst h; decide
          · exact absurd h hx
          · subst h; decide
        have hs := starRun_greedy notBrace (matchSeq [Atom.lit '}']) (x :: q) ('}' :: more) _
          hr (fun y hy => by
            simp only [List.head?_cons, Option.some.injEq] at hy
            subst hy
            decide) h3 pv
        simp only [List.cons_append, matchSeq, hf, Bool.false_eq_true, if_false, List.append_eq]
        rw [List.cons_append] at hs
        rw [hs]
        rfl
  obtain ⟨gs, hgs⟩ := hopt
  refine ⟨[] :: gs, fun pv => ?_⟩
  have hs := starRun_greedy isReSpace
    (matchSeq [Atom.opt '=', Atom.star notBrace, Atom.lit '}']) [] (r ++ '}' :: more) _
    (by simp) hws hgs pv
  rw [List.nil_append] at hs
  simp only [matchSeq]
  rw [hs]
  rfl

/-- The head of what follows the leading word of a brace group is no word character and
matches no literal of a name. -/
theorem group_rest_head (r more : Str)
    (hh : ∀ c, r.head? = some c → c = '.' ∨ c = '=' ∨ c = ':') :
    ∃ s zs, r ++ '}' :: more = s :: zs ∧ (s = '.' ∨ s = '=' ∨ s = ':' ∨ s = '}') := by
  cases r with
  | nil => exact ⟨'}', more, rfl, Or.inr (Or.inr (Or.inr rfl))⟩
  | cons x q =>
    refine ⟨x, q ++ '}' :: more, rfl, ?_⟩
    rcases hh x rfl with h | h | h
    · exact Or.inl h
    · exact Or.inr (Or.inl h)
    · exact Or.inr (Or.inr (Or.inl h))

theorem nameAtoms_cons_word (c : Char) (u : Str) (as : List Atom)
    (hc : isWordChar c = true) :
    nameAtoms (c :: u) ++ as = Atom.lit c :: (nameAtoms u ++ as) := by
  have hd : c ≠ '.' := fun h => absurd (h ▸ hc) (by decide)
  simp [nameAtoms, hd]

/-- On a brace group whose leading word is the name, the case of ASCII letters ignored,
the name, the word boundary and the rest of the pattern of `replacePath` match, up to the
closing brace of the group. -/
theorem matchSeq_name_same (r more : Str) (hr : ∀ c ∈ r, notBrace c = true)
    (hh : ∀ c, r.head? = some c → c = '.' ∨ c = '=' ∨ c = ':') :
    ∀ (u x : Str), u.map Char.toLower = x.map Char.toLower →
      (∀ c ∈ u, isWordChar c = true) → (∀ c ∈ x, isWordChar c = true) →
      ∃ gs, ∀ prev, (u = [] → isWordAt prev = true) →
        matchSeq (nameAtoms u ++ [Atom.wordB, Atom.star isReSpace, Atom.opt '=',
          Atom.star notBrace, Atom.lit '}']) prev (x ++ (r ++ '}' :: more))
          = some (gs, more) := by
  intro u
  induction u with
  | nil =>
    intro x hux _ _
    have hx : x = [] := by
      cases x with
      | nil => rfl
      | cons y x => simp at hux
    subst hx
    obtain ⟨gs, hgs⟩ := matchSeq_group_rest r more hr hh
    obtain ⟨s, zs, hz, hs⟩ := group_rest_head r more hh
    refine ⟨[] :: gs, fun prev hp => ?_⟩
    have hsw : isWordChar s = false := by
      rcases hs with h | h | h | h <;> subst h <;> decide
    have hb : (isWordAt prev != isWordAt (r ++ '}' :: more).head?) = true := by
      rw [hp rfl, hz]
      simp [isWordAt, hsw]
    have e : nameAtoms [] ++ [Atom.wordB, Atom.star isReSpace, Atom.opt '=',
        Atom.star notBrace, Atom.lit '}'] = Atom.wordB :: [Atom.star isReSpace,
          Atom.opt '=', Atom.star notBrace, Atom.lit '}'] := rfl
    rw [List.nil_append, e, matchSeq, if_pos hb, hgs]
    rfl
  | cons c u ih =>
    intro x hux hu hx
    cases x with
    | nil => simp at hux
    | cons y x =>
      simp only [List.map_cons, List.cons.injEq] at hux
      have hc : isWordChar c = true := hu c (List.mem_cons_self _ _)
      have hy : isWordChar y = true := hx y (List.mem_cons_self _ _)
      obtain ⟨gs, hgs⟩ := ih x hux.2 (fun d hd => hu d (List.mem_cons_of_mem _ hd))
        (fun d hd => hx d (List.mem_cons_of_mem _ hd))
      refine ⟨[y] :: gs, fun prev _ => ?_⟩
      have hf : foldEq c y = true := (foldEq_iff_toLower c y hc hy).mpr hux.1
      rw [nameAtoms_cons_word c u _ hc]
      simp only [List.cons_append, matchSeq, hf, if_true]
      have h1 := hgs (some y) (fun _ => by simp [isWordAt, hy])
      simp only [List.append_eq] at h1 ⊢
      rw [h1]
      rfl

/-- On a brace group whose leading word is not the name, the case of ASCII letters
ignored, the name followed by the word boundary does not match. -/
theorem matchSeq_name_other (as : List Atom) (s : Char) (zs : Str)
    (hs : s = '.' ∨ s = '=' ∨ s = ':' ∨ s = '}') :
    ∀ (u w : Str) (prev : Option Char), u.map Char.toLower ≠ w.map Char.toLower →
      (∀ c ∈ u, isWordChar c = true) → (∀ c ∈ w, isWordChar c = true) →
      (u = [] → isWordAt prev = true) →
      matchSeq (nameAtoms u ++ Atom.wordB :: as) prev (w ++ s :: zs) = Option.none := by
  intro u
  induction u with
  | nil =>
    intro w prev huw _ hw hp
    cases w with
    | nil => exact absurd rfl huw
    | cons y w =>
      have hy : isWordChar y = true := hw y (List.mem_cons_self _ _)
      have hb : ¬ ((isWordAt prev != isWordAt (y :: w ++ s :: zs).head?) = true) := by
        rw [hp rfl]
        simp [isWordAt, hy]
      have e : nameAtoms [] ++ Atom.wordB :: as = Atom.wordB :: as := rfl
      rw [e, matchSeq, if_neg hb]
  | cons c u ih =>
    intro w prev huw hu hw _
    have hc : isWordChar c = true := hu c (List.mem_cons_self _ _)
    rw [nameAtoms_cons_word c u _ hc]
    cases w with
    | nil =>
      have hf : foldEq c s = false := foldEq_sep c s hc hs
      simp [matchSeq, hf]
    | cons y w =>
      have hy : isWordChar y = true := hw y (List.mem_cons_self _ _)
      by_cases hf : foldEq c y = true
      · have hcy : c.toLower = y.toLower := (foldEq_iff_toLower c y hc hy).mp hf
        have hne : u.map Char.toLower ≠ w.map Char.toLower := by
          intro h
          apply huw
          simp [hcy, h]
        have h1 := ih w (some y) hne (fun d hd => hu d (List.mem_cons_of_mem _ hd))
          (fun d hd => hw d (List.mem_cons_of_mem _ hd)) (fun _ => by simp [isWordAt, hy])
        simp only [List.cons_append, matchSeq, hf, if_true, List.append_eq]
        simp only [List.append_eq] at h1
        rw [h1]
        rfl
      · simp [matchSeq, hf]

theorem replaceRe_eq (u : Str) :
    replaceRe u = Atom.lit '{' :: (Atom.star isReSpace ::
      (nameAtoms u ++ [Atom.wordB, Atom.star isReSpace, Atom.opt '=',
        Atom.star notBrace, Atom.lit '}'])) := by
  simp [replaceRe]

theorem group_head_not_space (w r more : Str) (hw : ∀ c ∈ w, isWordChar c = true)
    (hh : ∀ c, r.head? = some c → c = '.' ∨ c = '=' ∨ c = ':') :
    ∀ y, (w ++ (r ++ '}' :: more)).head? = some y → isReSpace y = false := by
  intro y hy
  cases w with
  | nil =>
    obtain ⟨s, zs, hz, hs⟩ := group_rest_head r more hh
    rw [List.nil_append, hz] at hy
    simp only [List.head?_cons, Option.some.injEq] at hy
    subst hy
    rcases hs with h | h | h | h <;> subst h <;> decide
  | cons a w =>
    simp only [List.cons_append, List.head?_cons, Option.some.injEq] at hy
    subst hy
    exact isReSpace_of_isWordChar a (hw a (List.mem_cons_self _ _))

/-- The pattern of `replacePath` for a name without `.` matches a brace group whose
leading word is the name, the case of ASCII letters ignored, and takes all of it. -/
theorem matchSeq_replaceRe_same (u w r more : Str) (prev : Option Char) (hne : u ≠ [])
    (hu : ∀ c ∈ u, isWordChar c = true) (hw : ∀ c ∈ w, isWordChar c = true)
    (hr : ∀ c ∈ r, notBrace c = true)
    (hh : ∀ c, r.head? = some c → c = '.' ∨ c = '=' ∨ c = ':')
    (hsame : w.map Char.toLower = u.map Char.toLower) :
    ∃ gs, matchSeq (replaceRe u) prev ('{' :: (w ++ (r ++ '}' :: more)))
      = some (gs, more) := by
  obtain ⟨gs, hgs⟩ := matchSeq_name_same r more hr hh u w hsame.symm hu hw
  refine ⟨['{'] :: [] :: gs, ?_⟩
  have hs := starRun_greedy isReSpace _ [] (w ++ (r ++ '}' :: more)) _ (by simp)
    (group_head_not_space w r more hw hh)
    (fun pv => hgs pv (fun h => absurd h hne)) (some '{')
  rw [List.nil_append] at hs
  rw [replaceRe_eq]
  simp only [matchSeq, foldEq_self, if_true]
  rw [hs]
  rfl

/-- The pattern of `replacePath` for a name without `.` matches no brace group with
another leading word. -/
theorem matchSeq_replaceRe_other (u w r more : Str) (prev : Option Char) (hne : u ≠ [])
    (hu : ∀ c ∈ u, isWordChar c = true) (hw : ∀ c ∈ w, isWordChar c = true)
    (hh : ∀ c, r.head? = some c → c = '.' ∨ c = '=' ∨ c = ':')
    (hdiff : w.map Char.toLower ≠ u.map Char.toLower) :
    matchSeq (replaceRe u) prev ('{' :: (w ++ (r ++ '}' :: more))) = Option.none := by
  obtain ⟨s, zs, hz, hs⟩ := group_rest_head r more hh
  have h1 := matchSeq_name_other [Atom.star isReSpace, Atom.opt '=', Atom.star notBrace,
    Atom.lit '}'] s zs hs u w (some '{') (fun h => hdiff h.symm) hu hw
    (fun h => absurd h hne)
  rw [← hz] at h1
  rw [replaceRe_eq]
  simp only [matchSeq, foldEq_self, if_true]
  rw [starRun_not_class isReSpace _ (some '{') _ (group_head_not_space w r more hw hh), h1]
  rfl

/-! ### Shared facts about lists, the map and `replacePath` -/

/-- What `replacePath` makes of a path, given the leftmost match of its pattern. -/
theorem replacePath_eq (u value path : Str) :
    replacePath u value path
      = ((findFirst (replaceRe u) Option.none path).map fun r =>
          r.1 ++ '{' :: (u ++ ':' :: (replaceStar value ++ '}' :: r.2.2))).getD path := by
  unfold replacePath
  cases findFirst (replaceRe u) Option.none path with
  | none => rfl
  | some r =>
    obtain ⟨pre, gs, post⟩ := r
    simp

/-- A text that starts with a word has one leading word. -/
theorem leading_word_unique :
    ∀ (w v r s : Str), (∀ c ∈ w, isWordChar c = true) → (∀ c ∈ v, isWordChar c = true) →
      (∀ c, r.head? = some c → isWordChar c = false) →
      (∀ c, s.head? = some c → isWordChar c = false) →
      w ++ r = v ++ s → w = v := by
  intro w
  induction w with
  | nil =>
    intro v r s _ hv hr _ h
    cases v with
    | nil => rfl
    | cons y v =>
      rw [List.nil_append] at h
      have h1 := hr y (by rw [h]; rfl)
      rw [hv y (List.mem_cons_self _ _)] at h1
      exact absurd h1 (by decide)
  | cons x w ih =>
    intro v r s hw hv hr hs h
    cases v with
    | nil =>
      rw [List.nil_append] at h
      have h1 := hs x (by rw [← h]; rfl)
      rw [hw x (List.mem_cons_self _ _)] at h1
      exact absurd h1 (by decide)
    | cons y v =>
      simp only [List.cons_append, List.cons.injEq] at h
      rw [h.1, ih v r s (fun c hc => hw c (List.mem_cons_of_mem _ hc))
        (fun c hc => hv c (List.mem_cons_of_mem _ hc)) hr hs h.2]

theorem countOcc_skip (a : Char) (w pre s : Str) (hpre : a ∉ pre) :
    countOcc (a :: w) (pre ++ s) = countOcc (a :: w) s := by
  induction pre with
  | nil => rfl
  | cons c pre ih =>
    have hc : a ≠ c := fun hc => hpre (hc ▸ List.mem_cons_self _ _)
    have hp : (a :: w).isPrefixOf (c :: (pre ++ s)) = false := by
      simp [List.isPrefixOf, hc]
    rw [List.cons_append, countOcc, hp, ih (fun hs => hpre (List.mem_cons_of_mem _ hs))]
    simp

theorem isPrefixOf_group :
    ∀ (c0 c rest : Str), '}' ∉ c0 → '}' ∉ c →
      ((c0 ++ ['}']).isPrefixOf (c ++ '}' :: rest) = true ↔ c = c0) := by
  intro c0
  induction c0 with
  | nil =>
    intro c rest _ hc
    cases c with
    | nil => simp [List.isPrefixOf]
    | cons y c =>
      have hy : ('}' : Char) ≠ y := fun h => hc (h ▸ List.mem_cons_self _ _)
      simp [List.isPrefixOf, hy]
  | cons x c0 ih =>
    intro c rest hc0 hc
    have hx : x ≠ '}' := fun h => hc0 (h ▸ List.mem_cons_self _ _)
    cases c with
    | nil => simp [List.isPrefixOf, hx]
    | cons y c =>
      have h1 := ih c rest (fun h => hc0 (List.mem_cons_of_mem _ h))
        (fun h => hc (List.mem_cons_of_mem _ h))
      simp only [List.cons_append, List.isPrefixOf, Bool.and_eq_true, beq_iff_eq,
        List.cons.injEq, List.append_eq]
      exact ⟨fun h => ⟨h.1.symm, h1.mp h.2⟩, fun h => ⟨h.1.symm, h1.mpr h.2⟩⟩

theorem mapSet_self (res : List (Str × Option Str)) (k : Str) (x : Option Str) :
    (k, x) ∈ mapSet res k x := by
  unfold mapSet
  split
  · rename_i h
    rw [List.any_eq_true] at h
    obtain ⟨e, he, hk⟩ := h
    have hk1 : e.1 = k := by simpa using hk
    rw [List.mem_map]
    exact ⟨e, he, by simp [hk1]⟩
  · simp

theorem mapSet_keep (res : List (Str × Option Str)) (k : Str) (x : Option Str)
    (e : Str × Option Str) (he : e ∈ res) (hk : e.1 ≠ k) : e ∈ mapSet res k x := by
  unfold mapSet
  split
  · rw [List.mem_map]
    exact ⟨e, he, by simp [hk]⟩
  · exact List.mem_append_left _ he

theorem replaceStar_eq_flatMap (pat : Str) :
    replaceStar pat = pat.flatMap fun c => if c = '*' then ['.', '*'] else [c] := by
  induction pat with
  | nil => rfl
  | cons c s ih =>
    by_cases hc : c = '*'
    · simp [replaceStar, hc, ih]
    · simp [replaceStar, hc, ih]

theorem utf8Len_pos_ne_nil (n : Str) (h : 1 < utf8Len n) : n ≠ [] := by
  intro hn
  rw [hn] at h
  simp [utf8Len] at h

/-! ### A match of a pattern `{ ... }` is a brace group -/

theorem starRun_sound (p : Char → Bool) (k : Option Char → Str → Option (List Str × Str))
    (s : Str) : ∀ (prev : Option Char) (g : Str) (r : List Str × Str),
    starRun p k prev s = some (g, r) → ∃ pv t, s = g ++ t ∧ k pv t = some r := by
  induction s with
  | nil =>
    intro prev g r h
    simp only [starRun, Option.map_eq_some', Prod.mk.injEq] at h
    obtain ⟨r1, hk, hg, hr⟩ := h
    subst hg
    subst hr
    exact ⟨prev, [], rfl, hk⟩
  | cons x s ih =>
    intro prev g r h
    simp only [starRun] at h
    by_cases hp : p x = true
    · simp only [hp, if_true] at h
      cases hrec : starRun p k (some x) s with
      | none =>
        simp only [hrec, Option.map_eq_some', Prod.mk.injEq] at h
        obtain ⟨r1, hk, hg, hr⟩ := h
        subst hg
        subst hr
        exact ⟨prev, x :: s, rfl, hk⟩
      | some r1 =>
        obtain ⟨g1, r1⟩ := r1
        simp only [hrec, Option.some.injEq, Prod.mk.injEq] at h
        obtain ⟨hg, hr⟩ := h
        subst hg
        subst hr
        obtain ⟨pv, t, hs, hk⟩ := ih (some x) g1 r1 hrec
        exact ⟨pv, t, by rw [hs]; rfl, hk⟩
    · simp only [hp, Bool.false_eq_true, if_false, Option.map_eq_some', Prod.mk.injEq] at h
      obtain ⟨r1, hk, hg, hr⟩ := h
      subst hg
      subst hr
      exact ⟨prev, x :: s, rfl, hk⟩

theorem foldEq_comm (a b : Char) : foldEq a b = foldEq b a := by
  simp [foldEq, eq_comm]

theorem notBrace_of_ne (x : Char) (h1 : x ≠ '{') (h2 : x ≠ '}') : notBrace x = true := by
  simp [notBrace, h1, h2]

theorem notBrace_ne (x : Char) (h : notBrace x = true) : x ≠ '{' ∧ x ≠ '}' := by
  constructor
  · intro hx
    rw [hx] at h
    exact absurd h (by decide)
  · intro hx
    rw [hx] at h
    exact absurd h (by decide)

theorem foldEq_word_notBrace (a x : Char) (ha : isWordChar a = true)
    (h : foldEq a x = true) : notBrace x = true := by
  apply notBrace_of_ne
  · intro hx
    subst hx
    rw [foldEq_comm] at h
    have := foldEq_fixed '{' a (by decide) (by decide) h
    rw [this] at ha
    exact absurd ha (by decide)
  · intro hx
    subst hx
    rw [foldEq_comm] at h
    have := foldEq_fixed '}' a (by decide) (by decide) h
    rw [this] at ha
    exact absurd ha (by decide)

/-- A match of a pattern whose atoms take no brace, followed by `}`, is a text without
braces and a `}`. -/
theorem matchSeq_braceFree : ∀ (mid : List Atom), braceFree mid →
    ∀ (prev : Option Char) (s : Str) (gs : List Str) (rest : Str),
      matchSeq (mid ++ [Atom.lit '}']) prev s = some (gs, rest) →
      ∃ c, s = c ++ '}' :: rest ∧ (∀ x ∈ c, notBrace x = true) ∧ gs.flatten = c ++ ['}'] := by
  intro mid
  induction mid with
  | nil =>
    intro _ prev s gs rest h
    cases s with
    | nil => simp [matchSeq] at h
    | cons x s =>
      simp only [List.nil_append, matchSeq] at h
      by_cases hx : foldEq '}' x = true
      · have hxe : x = '}' := foldEq_fixed '}' x (by decide) (by decide) hx
        simp only [hx, if_true, Option.map_some', Option.some.injEq, Prod.mk.injEq] at h
        obtain ⟨hgs, hrest⟩ := h
        subst hgs
        subst hrest
        subst hxe
        exact ⟨[], rfl, by simp, by simp⟩
      · simp [hx] at h
  | cons a mid ih =>
    intro hbf prev s gs rest h
    cases a with
    | lit c =>
      obtain ⟨hc, hbf1⟩ := hbf
      cases s with
      | nil => simp [matchSeq] at h
      | cons x s =>
        simp only [List.cons_append, matchSeq] at h
        by_cases hx : foldEq c x = true
        · simp only [hx, if_true, Option.map_eq_some', Prod.mk.injEq] at h
          obtain ⟨r, hr, hgs, hrest⟩ := h
          obtain ⟨gs1, rest1⟩ := r
          simp only at hgs hrest
          subst hgs
          subst hrest
          obtain ⟨c1, hs, hc1, hfl⟩ := ih hbf1 (some x) s gs1 rest1 hr
          refine ⟨x :: c1, by rw [hs]; rfl, ?_, by simp [hfl]⟩
          intro y hy
          rcases List.mem_cons.mp hy with h1 | h1
          · rw [h1]; exact hc x hx
          · exact hc1 y h1
        · simp [hx] at h
    | anyNotNL => exact absurd hbf (by simp [braceFree])
    | star p =>
      obtain ⟨hp, hbf1⟩ := hbf
      simp only [List.cons_append, matchSeq, Option.map_eq_some', Prod.mk.injEq] at h
      obtain ⟨r, hr, hgs, hrest⟩ := h
      obtain ⟨g, gs1, rest1⟩ := r
      simp only at hgs hrest
      subst hgs
      subst hrest
      have hg := starRun_mem p _ s prev g (gs1, rest1) hr
      obtain ⟨pv, t, hs, hk⟩ := starRun_sound p _ s prev g (gs1, rest1) hr
      obtain ⟨c1, ht, hc1, hfl⟩ := ih hbf1 pv t gs1 rest1 hk
      refine ⟨g ++ c1, by rw [hs, ht]; simp, ?_, by simp [hfl]⟩
      intro y hy
      rcases List.mem_append.mp hy with h1 | h1
      · exact hp y (hg y h1)
      · exact hc1 y h1
    | opt c =>
      obtain ⟨hc, hbf1⟩ := hbf
      have hskip : ∀ r : List Str × Str,
          matchSeq (mid ++ [Atom.lit '}']) prev s = some r → gs = [] :: r.1 → rest = r.2 →
          ∃ c, s = c ++ '}' :: rest ∧ (∀ x ∈ c, notBrace x = true) ∧
            gs.flatten = c ++ ['}'] := by
        intro r hr hgs hrest
        obtain ⟨gs1, rest1⟩ := r
        simp only at hgs hrest
        subst hgs
        subst hrest
        obtain ⟨c1, hs, hc1, hfl⟩ := ih hbf1 prev s gs1 rest hr
        exact ⟨c1, hs, hc1, by simp [hfl]⟩
      cases s with
      | nil =>
        simp only [List.cons_append, matchSeq, Option.map_eq_some', Prod.mk.injEq] at h
        obtain ⟨r, hr, hgs, hrest⟩ := h
        exact hskip r hr hgs.symm hrest.symm
      | cons x s1 =>
        simp only [List.cons_append, matchSeq] at h
        by_cases hx : foldEq c x = true
        · simp only [hx, if_true] at h
          cases hm : matchSeq (mid ++ [Atom.lit '}']) (some x) s1 with
          | some r1 =>
            obtain ⟨gs1, rest1⟩ := r1
            simp only [List.append_eq, hm, Option.some.injEq, Prod.mk.injEq] at h
            obtain ⟨hgs, hrest⟩ := h
            subst hgs
            subst hrest
            obtain ⟨c1, hs, hc1, hfl⟩ := ih hbf1 (some x) s1 gs1 rest1 hm
            refine ⟨x :: c1, by rw [hs]; rfl, ?_, by simp [hfl]⟩
            intro y hy
            rcases List.mem_cons.mp hy with h1 | h1
            · rw [h1]; exact hc x hx
            · exact hc1 y h1
          | none =>
            simp only [List.append_eq, hm, Option.map_eq_some', Prod.mk.injEq] at h
            obtain ⟨r, hr, hgs, hrest⟩ := h
            exact hskip r hr hgs.symm hrest.symm
        · simp only [hx, Bool.false_eq_true, if_false, Option.map_eq_some',
            Prod.mk.injEq] at h
          obtain ⟨r, hr, hgs, hrest⟩ := h
          exact hskip r hr hgs.symm hrest.symm
    | wordB =>
      simp only [List.cons_append, matchSeq] at h
      split at h
      · simp only [Option.map_eq_some', Prod.mk.injEq] at h
        obtain ⟨r, hr, hgs, hrest⟩ := h
        obtain ⟨gs1, rest1⟩ := r
        simp only at hgs hrest
        subst hgs
        subst hrest
        obtain ⟨c1, hs, hc1, hfl⟩ := ih hbf prev s gs1 rest1 hr
        exact ⟨c1, hs, hc1, by simp [hfl]⟩
      · simp at h

/-- A match of a pattern `{ ... }` whose inner atoms take no brace is a brace group: `{`,
a text without braces and `}`. -/
theorem matchSeq_brace_group (mid : List Atom) (hmid : braceFree mid) (prev : Option Char)
    (s : Str) (gs : List Str) (rest : Str)
    (h : matchSeq (Atom.lit '{' :: (mid ++ [Atom.lit '}'])) prev s = some (gs, rest)) :
    ∃ c, s = '{' :: (c ++ '}' :: rest) ∧ (∀ x ∈ c, notBrace x = true) ∧
      gs.flatten = '{' :: (c ++ ['}']) := by
  cases s with
  | nil => simp [matchSeq] at h
  | cons x s =>
    simp only [matchSeq] at h
    by_cases hx : foldEq '{' x = true
    · have hxe : x = '{' := foldEq_fixed '{' x (by decide) (by decide) hx
      simp only [hx, if_true, Option.map_eq_some', Prod.mk.injEq] at h
      obtain ⟨r, hr, hgs, hrest⟩ := h
      obtain ⟨gs1, rest1⟩ := r
      simp only at hgs hrest
      subst hgs
      subst hrest
      subst hxe
      obtain ⟨c1, hs, hc1, hfl⟩ := matchSeq_braceFree mid hmid (some '{') s gs1 rest1 hr
      exact ⟨c1, by rw [hs], hc1, by simp [hfl]⟩
    · simp [hx] at h

theorem braceFree_nameAtoms (as : List Atom) (has : braceFree as) :
    ∀ n : Str, (∀ c ∈ n, isWordChar c = true) → braceFree (nameAtoms n ++ as) := by
  intro n
  induction n with
  | nil => intro _; exact has
  | cons c n ih =>
    intro hn
    have hc : isWordChar c = true := hn c (List.mem_cons_self _ _)
    rw [nameAtoms_cons_word c n as hc]
    exact ⟨fun x hx => foldEq_word_notBrace c x hc hx,
      ih (fun d hd => hn d (List.mem_cons_of_mem _ hd))⟩

theorem notBrace_of_isReSpace (x : Char) (h : isReSpace x = true) : notBrace x = true := by
  apply notBrace_of_ne
  · intro hx
    rw [hx] at h
    exact absurd h (by decide)
  · intro hx
    rw [hx] at h
    exact absurd h (by decide)

theorem notBrace_of_isNameChar (x : Char) (h : isNameChar x = true) : notBrace x = true := by
  apply notBrace_of_ne
  · intro hx
    rw [hx] at h
    exact absurd h (by decide)
  · intro hx
    rw [hx] at h
    exact absurd h (by decide)

theorem notBrace_of_foldEq_eq (x : Char) (h : foldEq '=' x = true) : notBrace x = true := by
  rw [foldEq_fixed '=' x (by decide) (by decide) h]
  decide

/-- A match of the pattern of `replacePath`, for a name without `.`, is a brace group. -/
theorem matchSeq_replaceRe_group (n : Str) (hn : ∀ c ∈ n, isWordChar c = true)
    (prev : Option Char) (s : Str) (gs : List Str) (rest : Str)
    (h : matchSeq (replaceRe n) prev s = some (gs, rest)) :
    ∃ c, s = '{' :: (c ++ '}' :: rest) ∧ (∀ x ∈ c, notBrace x = true) := by
  have hre : replaceRe n = Atom.lit '{' :: ((Atom.star isReSpace ::
      (nameAtoms n ++ [Atom.wordB, Atom.star isReSpace, Atom.opt '=',
        Atom.star notBrace])) ++ [Atom.lit '}']) := by
    simp [replaceRe]
  have htail : braceFree [Atom.wordB, Atom.star isReSpace, Atom.opt '=',
      Atom.star notBrace] :=
    ⟨notBrace_of_isReSpace, notBrace_of_foldEq_eq, fun _ hx => hx, trivial⟩
  have hbf : braceFree (Atom.star isReSpace ::
      (nameAtoms n ++ [Atom.wordB, Atom.star isReSpace, Atom.opt '=',
        Atom.star notBrace])) :=
    ⟨notBrace_of_isReSpace, braceFree_nameAtoms _ htail n hn⟩
  rw [hre] at h
  obtain ⟨c, hs, hc, -⟩ := matchSeq_brace_group _ hbf prev s gs rest h
  exact ⟨c, hs, hc⟩

/-- A match of the pattern of `buildPathVars` is a brace group, and the fourth submatch
has no brace. -/
theorem matchSeq_pathVarRe_group (prev : Option Char) (s : Str) (gs : List Str) (rest : Str)
    (h : matchSeq pathVarRe prev s = some (gs, rest)) :
    ∃ c, s = '{' :: (c ++ '}' :: rest) ∧ (∀ x ∈ c, notBrace x = true) ∧
      gs.flatten = '{' :: (c ++ ['}']) := by
  have hre : pathVarRe = Atom.lit '{' :: ([Atom.star isNameChar, Atom.opt '=',
      Atom.star notBrace] ++ [Atom.lit '}']) := rfl
  have hbf : braceFree [Atom.star isNameChar, Atom.opt '=', Atom.star notBrace] :=
    ⟨notBrace_of_isNameChar, notBrace_of_foldEq_eq, fun _ hx => hx, trivial⟩
  rw [hre] at h
  exact matchSeq_brace_group _ hbf prev s gs rest h

/-! ### The leftmost match, and what `replacePath` does to a path -/

theorem findFirst_sound (re : List Atom) (s : Str) :
    ∀ (prev : Option Char) (pre : Str) (gs : List Str) (post : Str),
      findFirst re prev s = some (pre, gs, post) →
      ∃ m pv, s = pre ++ m ∧ matchSeq re pv m = some (gs, post) := by
  induction s with
  | nil =>
    intro prev pre gs post h
    simp only [findFirst, Option.map_eq_some', Prod.mk.injEq] at h
    obtain ⟨r, hr, hpre, hgs⟩ := h
    subst hpre
    exact ⟨[], prev, rfl, by rw [hr, hgs]⟩
  | cons x s ih =>
    intro prev pre gs post h
    simp only [findFirst] at h
    cases hm : matchSeq re prev (x :: s) with
    | some r =>
      simp only [hm, Option.some.injEq, Prod.mk.injEq] at h
      obtain ⟨hpre, hgs⟩ := h
      subst hpre
      exact ⟨x :: s, prev, rfl, by rw [hm, hgs]⟩
    | none =>
      simp only [hm, Option.map_eq_some', Prod.mk.injEq] at h
      obtain ⟨r, hr, hpre, hgs⟩ := h
      obtain ⟨pre1, gs1, post1⟩ := r
      simp only [Prod.mk.injEq] at hgs
      obtain ⟨hgs1, hpost⟩ := hgs
      simp only at hpre
      subst hpre
      subst hgs1
      subst hpost
      obtain ⟨m, pv, hs, hmm⟩ := ih (some x) pre1 gs1 post1 hr
      exact ⟨m, pv, by rw [hs]; rfl, hmm⟩

theorem findFirst_isSome (re : List Atom) (m : Str)
    (hm : ∀ pv, (matchSeq re pv m).isSome = true) :
    ∀ (a : Str) (prev : Option Char), (findFirst re prev (a ++ m)).isSome = true := by
  have hbase : ∀ prev, (findFirst re prev m).isSome = true := by
    intro prev
    have h := hm prev
    cases m with
    | nil =>
      simp only [findFirst]
      cases hr : matchSeq re prev [] with
      | none => rw [hr] at h; simp at h
      | some r => simp
    | cons x s =>
      simp only [findFirst]
      cases hr : matchSeq re prev (x :: s) with
      | none => rw [hr] at h; simp at h
      | some r => simp
  intro a
  induction a with
  | nil => intro prev; exact hbase prev
  | cons y a ih =>
    intro prev
    simp only [List.cons_append, findFirst]
    cases hr : matchSeq re prev (y :: (a ++ m)) with
    | some r => simp
    | none =>
      have h1 := ih (some y)
      cases hf : findFirst re (some y) (a ++ m) with
      | none => rw [hf] at h1; simp at h1
      | some r => simp

/-- For a name without `.`, `replacePath` leaves the path as it is or rewrites one brace
group of it, at which its pattern matches, into `{name:value'}`. -/
theorem replacePath_cases (n value path : Str) (hn : ∀ c ∈ n, isWordChar c = true) :
    (findFirst (replaceRe n) Option.none path = Option.none ∧
      replacePath n value path = path) ∨
    ∃ pre c post pv gs, path = pre ++ '{' :: (c ++ '}' :: post) ∧
      (∀ x ∈ c, notBrace x = true) ∧
      matchSeq (replaceRe n) pv ('{' :: (c ++ '}' :: post)) = some (gs, post) ∧
      replacePath n value path
        = pre ++ '{' :: (n ++ ':' :: (replaceStar value ++ '}' :: post)) := by
  rw [replacePath_eq]
  cases hf : findFirst (replaceRe n) Option.none path with
  | none => exact Or.inl ⟨rfl, rfl⟩
  | some r =>
    obtain ⟨pre, gs, post⟩ := r
    obtain ⟨m, pv, hs, hm⟩ := findFirst_sound _ path _ pre gs post hf
    obtain ⟨c, hmc, hc⟩ := matchSeq_replaceRe_group n hn pv m gs post hm
    subst hmc
    exact Or.inr ⟨pre, c, post, pv, gs, hs, hc, hm, rfl⟩

/-! ### Counting a brace group in a path -/

theorem isPrefixOf_append_lbrace :
    ∀ (B s R : Str), '{' ∉ B → B.isPrefixOf (s ++ '{' :: R) = B.isPrefixOf s := by
  intro B
  induction B with
  | nil => intro s R _; simp [List.isPrefixOf]
  | cons b B ih =>
    intro s R hB
    have hb : b ≠ '{' := fun h => hB (h ▸ List.mem_cons_self _ _)
    cases s with
    | nil => simp [List.isPrefixOf, hb]
    | cons y s =>
      simp only [List.cons_append, List.isPrefixOf, List.append_eq]
      rw [ih s R (fun h => hB (List.mem_cons_of_mem _ h))]

theorem countOcc_append_lbrace (B a R : Str) (hB : '{' ∉ B) :
    countOcc ('{' :: B) (a ++ '{' :: R)
      = countOcc ('{' :: B) a + countOcc ('{' :: B) ('{' :: R) := by
  induction a with
  | nil => simp [countOcc]
  | cons y a ih =>
    have hp : ('{' :: B).isPrefixOf (y :: (a ++ '{' :: R)) = ('{' :: B).isPrefixOf (y :: a) := by
      simp only [List.isPrefixOf]
      rw [isPrefixOf_append_lbrace B a R hB]
    rw [List.cons_append, countOcc, countOcc, hp, ih]
    omega

theorem notBrace_no_lbrace (c : Str) (hc : ∀ x ∈ c, notBrace x = true) : '{' ∉ c :=
  fun h => absurd (hc _ h) (by decide)

theorem notBrace_no_rbrace (c : Str) (hc : ∀ x ∈ c, notBrace x = true) : '}' ∉ c :=
  fun h => absurd (hc _ h) (by decide)

/-- The substring `{C}` occurs in `a{c}b` as often as in `a` and in `b`, and once more
when `c` is `C`. -/
theorem countOcc_group (C a c b : Str) (hC : ∀ x ∈ C, notBrace x = true)
    (hc : ∀ x ∈ c, notBrace x = true) :
    countOcc ('{' :: (C ++ ['}'])) (a ++ '{' :: (c ++ '}' :: b))
      = countOcc ('{' :: (C ++ ['}'])) a + (if c = C then 1 else 0)
        + countOcc ('{' :: (C ++ ['}'])) b := by
  have hB : '{' ∉ C ++ ['}'] := by
    intro h
    rcases List.mem_append.mp h with h | h
    · exact notBrace_no_lbrace C hC h
    · simp at h
  have hcb : '{' ∉ c ++ ['}'] := by
    intro h
    rcases List.mem_append.mp h with h | h
    · exact notBrace_no_lbrace c hc h
    · simp at h
  have hsplit : c ++ '}' :: b = (c ++ ['}']) ++ b := by simp
  have hp : ('{' :: (C ++ ['}'])).isPrefixOf ('{' :: (c ++ '}' :: b)) = decide (c = C) := by
    rw [Bool.eq_iff_iff, decide_eq_true_eq, ← isPrefixOf_group C c b
      (notBrace_no_rbrace C hC) (notBrace_no_rbrace c hc)]
    simp [List.isPrefixOf]
  rw [countOcc_append_lbrace _ a _ hB, countOcc, hp, hsplit,
    countOcc_skip '{' _ _ _ hcb]
  by_cases h : c = C
  · simp only [h, decide_True, if_true]
    omega
  · simp [h]

/-! ### Two brace groups of a path do not overlap -/

theorem nonbrace_prefix :
    ∀ (c p b z : Str), (∀ x ∈ c, notBrace x = true) → c ++ '}' :: b = p ++ '{' :: z →
      ∃ mid, p = c ++ '}' :: mid ∧ b = mid ++ '{' :: z := by
  intro c
  induction c with
  | nil =>
    intro p b z _ h
    cases p with
    | nil =>
      simp only [List.nil_append, List.cons.injEq] at h
      exact absurd h.1 (by decide)
    | cons y p =>
      simp only [List.nil_append, List.cons_append, List.cons.injEq] at h
      exact ⟨p, by rw [← h.1]; rfl, h.2⟩
  | cons x c ih =>
    intro p b z hc h
    have hx : x ≠ '{' := (notBrace_ne x (hc x (List.mem_cons_self _ _))).1
    cases p with
    | nil =>
      simp only [List.nil_append, List.cons_append, List.cons.injEq] at h
      exact absurd h.1 hx
    | cons y p =>
      simp only [List.cons_append, List.cons.injEq] at h
      obtain ⟨mid, hp, hb⟩ := ih p b z (fun d hd => hc d (List.mem_cons_of_mem _ hd)) h.2
      exact ⟨mid, by rw [h.1, hp]; rfl, hb⟩

theorem split_rbrace :
    ∀ (c1 c2 b1 b2 : Str), (∀ x ∈ c1, notBrace x = true) → (∀ x ∈ c2, notBrace x = true) →
      c1 ++ '}' :: b1 = c2 ++ '}' :: b2 → c1 = c2 ∧ b1 = b2 := by
  intro c1
  induction c1 with
  | nil =>
    intro c2 b1 b2 _ h2 h
    cases c2 with
    | nil =>
      simp only [List.nil_append, List.cons.injEq, true_and] at h
      exact ⟨rfl, h⟩
    | cons y c2 =>
      simp only [List.nil_append, List.cons_append, List.cons.injEq] at h
      exact absurd h.1.symm (notBrace_ne y (h2 y (List.mem_cons_self _ _))).2
  | cons x c1 ih =>
    intro c2 b1 b2 h1 h2 h
    cases c2 with
    | nil =>
      simp only [List.nil_append, List.cons_append, List.cons.injEq] at h
      exact absurd h.1 (notBrace_ne x (h1 x (List.mem_cons_self _ _))).2
    | cons y c2 =>
      simp only [List.cons_append, List.cons.injEq] at h
      obtain ⟨hc, hb⟩ := ih c2 b1 b2 (fun d hd => h1 d (List.mem_cons_of_mem _ hd))
        (fun d hd => h2 d (List.mem_cons_of_mem _ hd)) h.2
      exact ⟨by rw [h.1, hc], hb⟩

/-- Two brace groups of a path are the same group, or one stands wholly before the
other. -/
theorem group_disjoint (c1 c2 : Str) (h1 : ∀ x ∈ c1, notBrace x = true)
    (h2 : ∀ x ∈ c2, notBrace x = true) :
    ∀ (a b pre post : Str),
      a ++ '{' :: (c1 ++ '}' :: b) = pre ++ '{' :: (c2 ++ '}' :: post) →
      (a = pre ∧ c1 = c2 ∧ b = post) ∨
      (∃ mid, pre = a ++ '{' :: (c1 ++ '}' :: mid) ∧ b = mid ++ '{' :: (c2 ++ '}' :: post)) ∨
      (∃ mid, a = pre ++ '{' :: (c2 ++ '}' :: mid) ∧ post = mid ++ '{' :: (c1 ++ '}' :: b)) := by
  intro a
  induction a with
  | nil =>
    intro b pre post h
    cases pre with
    | nil =>
      simp only [List.nil_append, List.cons.injEq, true_and] at h
      obtain ⟨hc, hb⟩ := split_rbrace c1 c2 b post h1 h2 h
      exact Or.inl ⟨rfl, hc, hb⟩
    | cons y pre =>
      simp only [List.nil_append, List.cons_append, List.cons.injEq] at h
      obtain ⟨mid, hp, hb⟩ := nonbrace_prefix c1 pre b _ h1 h.2
      exact Or.inr (Or.inl ⟨mid, by rw [← h.1, hp]; rfl, hb⟩)
  | cons x a ih =>
    intro b pre post h
    cases pre with
    | nil =>
      simp only [List.nil_append, List.cons_append, List.cons.injEq] at h
      obtain ⟨mid, hp, hb⟩ := nonbrace_prefix c2 a post _ h2 h.2.symm
      exact Or.inr (Or.inr ⟨mid, by rw [h.1, hp]; rfl, hb⟩)
    | cons y pre =>
      simp only [List.cons_append, List.cons.injEq] at h
      rcases ih b pre post h.2 with ⟨ha, hc, hb⟩ | ⟨mid, hp, hb⟩ | ⟨mid, ha, hp⟩
      · exact Or.inl ⟨by rw [h.1, ha], hc, hb⟩
      · exact Or.inr (Or.inl ⟨mid, by rw [← h.1, hp]; rfl, hb⟩)
      · exact Or.inr (Or.inr ⟨mid, by rw [h.1, ha]; rfl, hp⟩)

/-! ### The map of variables of a path -/

theorem mapSet_keys (res : List (Str × Option Str)) (k : Str) (x : Option Str)
    (h : (res.map Prod.fst).Nodup) : ((mapSet res k x).map Prod.fst).Nodup := by
  unfold mapSet
  split
  · have e : (res.map fun e => if e.1 = k then (k, x) else e).map Prod.fst
        = res.map Prod.fst := by
      rw [List.map_map]
      apply List.map_congr_left
      intro e _
      by_cases hk : e.1 = k <;> simp [hk]
    rw [e]
    exact h
  · rename_i hany
    rw [List.map_append, List.map_singleton]
    apply List.Nodup.append h (List.nodup_singleton _)
    intro a ha hb
    simp only [List.mem_singleton] at hb
    subst hb
    apply hany
    rw [List.any_eq_true]
    rw [List.mem_map] at ha
    obtain ⟨e, he, hek⟩ := ha
    exact ⟨e, he, by simpa using hek⟩

theorem foldl_addMatch_keys (ms : List (List Str)) :
    ∀ acc : List (Str × Option Str), (acc.map Prod.fst).Nodup →
      ((ms.foldl addMatch acc).map Prod.fst).Nodup := by
  induction ms with
  | nil => intro acc h; exact h
  | cons m ms ih =>
    intro acc h
    rw [List.foldl_cons]
    apply ih
    unfold addMatch
    simp only
    split <;> exact mapSet_keys _ _ _ h

/-- The map of variables has one entry for a name. -/
theorem buildPathVars_keys (path : Str) : ((buildPathVars path).map Prod.fst).Nodup :=
  foldl_addMatch_keys _ [] (by simp)

theorem keys_unique (l : List (Str × Option Str)) (h : (l.map Prod.fst).Nodup)
    (k : Str) (x y : Option Str) (hx : (k, x) ∈ l) (hy : (k, y) ∈ l) : x = y := by
  induction l with
  | nil => simp at hx
  | cons e l ih =>
    rw [List.map_cons, List.nodup_cons] at h
    rcases List.mem_cons.mp hx with h1 | h1
    · rcases List.mem_cons.mp hy with h2 | h2
      · rw [← h1] at h2
        simp only [Prod.mk.injEq, true_and] at h2
        exact h2.symm
      · exact absurd (List.mem_map_of_mem Prod.fst h2) (by rw [← h1] at h; exact h.1)
    · rcases List.mem_cons.mp hy with h2 | h2
      · exact absurd (List.mem_map_of_mem Prod.fst h1) (by rw [← h2] at h; exact h.1)
      · exact ih h.2 h1 h2

theorem matchSeq_pathVarRe_capture (prev : Option Char) (s : Str) (gs : List Str) (rest : Str)
    (h : matchSeq pathVarRe prev s = some (gs, rest)) :
    ∀ c ∈ gs.getD 3 [], notBrace c = true := by
  have htail : ∀ (pv : Option Char) (t : Str) (r : List Str × Str),
      matchSeq [Atom.star notBrace, Atom.lit '}'] pv t = some r →
      ∀ c ∈ r.1.getD 0 [], notBrace c = true := by
    intro pv t r hr
    simp only [matchSeq, Option.map_eq_some'] at hr
    obtain ⟨r1, hstar, hr1⟩ := hr
    obtain ⟨g, r2⟩ := r1
    subst hr1
    simp only [List.getD_cons_zero]
    exact starRun_mem _ _ t pv g r2 hstar
  have hopt : ∀ (pv : Option Char) (t : Str) (r : List Str × Str),
      matchSeq [Atom.opt '=', Atom.star notBrace, Atom.lit '}'] pv t = some r →
      ∀ c ∈ r.1.getD 1 [], notBrace c = true := by
    intro pv t r hr
    have hskip : ∀ r1 : List Str × Str,
        matchSeq [Atom.star notBrace, Atom.lit '}'] pv t = some r1 →
        r = ([] :: r1.1, r1.2) → ∀ c ∈ r.1.getD 1 [], notBrace c = true := by
      intro r1 h1 hrr
      subst hrr
      simp only [List.getD_cons_succ]
      exact htail pv t r1 h1
    cases t with
    | nil =>
      rw [matchSeq] at hr
      simp only [Option.map_eq_some'] at hr
      obtain ⟨r1, h1, hrr⟩ := hr
      exact hskip r1 h1 hrr.symm
    | cons x t1 =>
      rw [matchSeq] at hr
      by_cases hx : foldEq '=' x = true
      · simp only [hx, if_true] at hr
        cases hm : matchSeq [Atom.star notBrace, Atom.lit '}'] (some x) t1 with
        | some r1 =>
          simp only [hm, Option.some.injEq] at hr
          subst hr
          simp only [List.getD_cons_succ]
          exact htail (some x) t1 r1 hm
        | none =>
          simp only [hm, Option.map_eq_some'] at hr
          obtain ⟨r1, h1, hrr⟩ := hr
          exact hskip r1 h1 hrr.symm
      · simp only [hx, Bool.false_eq_true, if_false, Option.map_eq_some'] at hr
        obtain ⟨r1, h1, hrr⟩ := hr
        exact hskip r1 h1 hrr.symm
  cases s with
  | nil => simp [pathVarRe, matchSeq] at h
  | cons x s =>
    rw [pathVarRe, matchSeq] at h
    by_cases hx : foldEq '{' x = true
    · simp only [hx, if_true, Option.map_eq_some'] at h
      obtain ⟨r, hr, hgs⟩ := h
      rw [matchSeq] at hr
      simp only [Option.map_eq_some'] at hr
      obtain ⟨r1, hstar, hr1⟩ := hr
      obtain ⟨g, r2⟩ := r1
      subst hr1
      simp only [Prod.mk.injEq] at hgs
      obtain ⟨hgs1, -⟩ := hgs
      subst hgs1
      obtain ⟨pv, t, -, hk⟩ := starRun_sound _ _ s (some x) g r2 hstar
      simp only [List.getD_cons_succ]
      exact hopt pv t r2 hk
    · simp [hx] at h

/-- A capture of the map belongs to a name of more than one byte and has no brace. -/
theorem mem_foldl_addMatch_capture (ms : List (List Str)) :
    ∀ (acc : List (Str × Option Str)) (n c : Str), (n, some c) ∈ ms.foldl addMatch acc →
      (n, some c) ∈ acc ∨ (1 < utf8Len n ∧ ∃ m ∈ ms, c = m.getD 3 []) := by
  induction ms with
  | nil => intro acc n c h; exact Or.inl h
  | cons m ms ih =>
    intro acc n c h
    rw [List.foldl_cons] at h
    rcases ih _ n c h with h1 | ⟨h1, m1, hm1, hc⟩
    · unfold addMatch at h1
      simp only at h1
      split at h1
      · rename_i hcond
        rcases mem_mapSet _ _ _ _ h1 with h2 | h2
        · exact Or.inl h2
        · simp only [Prod.mk.injEq, Option.some.injEq] at h2
          refine Or.inr ⟨by rw [h2.1]; exact hcond.1, m, List.mem_cons_self _ _, h2.2⟩
      · rcases mem_mapSet _ _ _ _ h1 with h2 | h2
        · exact Or.inl h2
        · simp at h2
    · exact Or.inr ⟨h1, m1, List.mem_cons_of_mem _ hm1, hc⟩

theorem buildPathVars_capture (path n c : Str) (h : (n, some c) ∈ buildPathVars path) :
    n ≠ [] ∧ ∀ x ∈ c, notBrace x = true := by
  unfold buildPathVars at h
  rcases mem_foldl_addMatch_capture _ [] n c h with h1 | ⟨h1, m, hm, hc⟩
  · simp at h1
  · obtain ⟨pv, s, rest, hms⟩ := findAll_mem pathVarRe path 0 Option.none m hm
    refine ⟨utf8Len_pos_ne_nil n h1, ?_⟩
    rw [hc]
    exact matchSeq_pathVarRe_capture pv s m rest hms

theorem mem_foldl_addMatch_stays (ms : List (List Str)) :
    ∀ (acc : List (Str × Option Str)) (e : Str × Option Str),
      (∀ m ∈ ms, trimSpace (m.getD 1 []) ≠ e.1) → e ∈ acc → e ∈ ms.foldl addMatch acc := by
  induction ms with
  | nil => intro acc e _ h; exact h
  | cons m ms ih =>
    intro acc e hne h
    rw [List.foldl_cons]
    apply ih _ e (fun m1 hm1 => hne m1 (List.mem_cons_of_mem _ hm1))
    have hk : e.1 ≠ trimSpace (m.getD 1 []) := fun hk =>
      hne m (List.mem_cons_self _ _) hk.symm
    unfold addMatch
    simp only
    split
    · exact mapSet_keep _ _ _ e h hk
    · exact mapSet_keep _ _ _ e h hk

/-- The matches of the pattern of `buildPathVars` in `pre{v=pat}post`: matches that lie
in `pre`, the occurrence, and the matches in `post`. -/
theorem findAll_occurrence (v pat post : Str) (hv : ∀ c ∈ v, isNameChar c = true)
    (hpat : ∀ c ∈ pat, notBrace c = true) :
    ∀ (pre : Str) (skip : Nat) (prev : Option Char), skip ≤ pre.length →
      ∃ l1, findAll pathVarRe skip prev (pre ++ '{' :: (v ++ '=' :: (pat ++ '}' :: post)))
        = l1 ++ [['{'], v, ['='], pat, ['}']] :: findAll pathVarRe 0 Option.none post := by
  have hre : pathVarRe = Atom.lit '{' ::
      [Atom.star isNameChar, Atom.opt '=', Atom.star notBrace, Atom.lit '}'] := rfl
  intro pre
  induction pre with
  | nil =>
    intro skip prev hskip
    have h0 : skip = 0 := by simpa using hskip
    subst h0
    refine ⟨[], ?_⟩
    have hm := matchSeq_pathVarRe_occurrence v pat post prev hv hpat
    have hlen : ([['{'], v, ['='], pat, ['}']] : List Str).flatten.length - 1
        = (v ++ '=' :: (pat ++ ['}'])).length := by
      simp
    have hrest : v ++ '=' :: (pat ++ '}' :: post) = (v ++ '=' :: (pat ++ ['}'])) ++ post := by
      simp
    simp only [List.nil_append, findAll, hm]
    rw [hlen, hrest, hre, findAll_skip]
  | cons x pre ih =>
    intro skip prev hskip
    cases skip with
    | succ k =>
      simp only [List.cons_append, findAll, List.append_eq]
      exact ih k (some x) (by simpa using hskip)
    | zero =>
      simp only [List.cons_append, findAll, List.append_eq]
      cases hm : matchSeq pathVarRe prev
          (x :: (pre ++ '{' :: (v ++ '=' :: (pat ++ '}' :: post)))) with
      | none => exact ih 0 (some x) (Nat.zero_le _)
      | some r =>
        obtain ⟨gs, rest⟩ := r
        obtain ⟨c, hs, hc, hfl⟩ := matchSeq_pathVarRe_group prev _ gs rest hm
        simp only [List.cons.injEq] at hs
        obtain ⟨mid, hp, -⟩ := nonbrace_prefix c pre rest _ hc hs.2.symm
        have hle : gs.flatten.length - 1 ≤ pre.length := by
          rw [hfl, hp]
          simp
        obtain ⟨l1, hl1⟩ := ih (gs.flatten.length - 1) (some x) hle
        exact ⟨gs :: l1, by simp only [hl1, List.cons_append]⟩

/-- The map of variables of `pre{v=pat}post` holds the capture `pat` for `v` when no brace
occurrence of `post` has the name `v`. -/
theorem buildPathVars_occurrence (pre post v pat : Str) (hlen : 2 ≤ v.length)
    (hv : ∀ c ∈ v, isWordChar c = true) (hpat : ∀ c ∈ pat, notBrace c = true)
    (hpne : pat ≠ [])
    (hlast : ∀ g ∈ findAll pathVarRe 0 Option.none post, trimSpace (g.getD 1 []) ≠ v) :
    (v, some pat) ∈ buildPathVars (pre ++ '{' :: (v ++ '=' :: (pat ++ '}' :: post))) := by
  obtain ⟨l1, hl1⟩ := findAll_occurrence v pat post
    (fun c hc => isNameChar_of_isWordChar c (hv c hc)) hpat pre 0 Option.none (Nat.zero_le _)
  unfold buildPathVars
  rw [hl1, List.foldl_append, List.foldl_cons]
  apply mem_foldl_addMatch_stays _ _ (v, some pat) hlast
  have htrim : trimSpace v = v :=
    trimSpace_eq_self v (fun c hc => isSpace_of_isWordChar c (hv c hc))
  have hu : utf8Len v > 1 := by
    have := length_le_utf8Len v
    omega
  have hp : pat.length > 0 := List.length_pos.mpr hpne
  have e : addMatch (List.foldl addMatch [] l1) [['{'], v, ['='], pat, ['}']]
      = mapSet (List.foldl addMatch [] l1) v (some pat) := by
    simp [addMatch, htrim, hu, hp]
  rw [e]
  exact mapSet_self _ _ _

/-! ### The loop over the variables and the substring `{v:P}` -/

theorem varsLoop_append (sch : Schema) (input : Nat) (l1 l2 : List (Str × Option Str)) :
    ∀ path, varsLoop sch input (l1 ++ l2) path
      = (varsLoop sch input l1 path).bind (varsLoop sch input l2) := by
  induction l1 with
  | nil => intro path; rfl
  | cons e l1 ih =>
    intro path
    obtain ⟨n, s⟩ := e
    simp only [List.cons_append, varsLoop]
    split
    · exact ih _
    · rfl

theorem notBrace_word (v : Str) (hv : ∀ c ∈ v, isWordChar c = true) :
    ∀ x ∈ v, notBrace x = true := by
  intro x hx
  apply notBrace_of_ne
  · intro h
    exact absurd (h ▸ hv x hx) (by decide)
  · intro h
    exact absurd (h ▸ hv x hx) (by decide)

theorem notBrace_replaceStar (value : Str) (h : ∀ x ∈ value, notBrace x = true) :
    ∀ x ∈ replaceStar value, notBrace x = true := by
  intro x hx
  rcases mem_replaceStar value x hx with h1 | h1
  · exact h x h1
  · subst h1; decide

/-- What stands between the braces of `{n:value'}` and of `{v=pat}` has no brace. -/
theorem notBrace_content (n : Str) (s : Char) (r : Str) (hn : ∀ c ∈ n, isWordChar c = true)
    (hs : notBrace s = true) (hr : ∀ x ∈ r, notBrace x = true) :
    ∀ x ∈ n ++ s :: r, notBrace x = true := by
  intro x hx
  simp only [List.mem_append, List.mem_cons] at hx
  rcases hx with h | h | h
  · exact notBrace_word n hn x h
  · subst h; exact hs
  · exact hr x h

/-- The pattern of `replacePath` for a name without `.` that is not `v`, the case of ASCII
letters ignored, matches neither `{v=...}` nor `{v:...}`. -/
theorem matchSeq_replaceRe_not (n v : Str) (s : Char) (r post : Str) (pv : Option Char)
    (hne : n ≠ []) (hn : ∀ c ∈ n, isWordChar c = true) (hv : ∀ c ∈ v, isWordChar c = true)
    (hs : s = '=' ∨ s = ':') (hdiff : n.map Char.toLower ≠ v.map Char.toLower) :
    matchSeq (replaceRe n) pv ('{' :: ((v ++ s :: r) ++ '}' :: post)) = Option.none := by
  have e : (v ++ s :: r) ++ '}' :: post = v ++ ((s :: r) ++ '}' :: post) := by simp
  rw [e]
  apply matchSeq_replaceRe_other n v (s :: r) post pv hne hn hv
  · intro c hc
    simp only [List.head?_cons, Option.some.injEq] at hc
    subst hc
    rcases hs with h | h
    · exact Or.inr (Or.inl h)
    · exact Or.inr (Or.inr h)
  · exact fun h => hdiff h.symm

/-- A call of `replacePath` for another variable with a name without `.` keeps the number
of times `{v:X}` occurs, and keeps an occurrence `{v=pat}`. -/
theorem replacePath_other (n value v X pat path : Str)
    (hne : n ≠ []) (hn : ∀ c ∈ n, isWordChar c = true)
    (hval : ∀ x ∈ value, notBrace x = true) (hv : ∀ c ∈ v, isWordChar c = true)
    (hX : ∀ x ∈ X, notBrace x = true) (hpat : ∀ x ∈ pat, notBrace x = true)
    (hdiff : n.map Char.toLower ≠ v.map Char.toLower) :
    countOcc ('{' :: ((v ++ ':' :: X) ++ ['}'])) (replacePath n value path)
      = countOcc ('{' :: ((v ++ ':' :: X) ++ ['}'])) path ∧
    ((∃ a b, path = a ++ '{' :: ((v ++ '=' :: pat) ++ '}' :: b)) →
      ∃ a b, replacePath n value path = a ++ '{' :: ((v ++ '=' :: pat) ++ '}' :: b)) := by
  have hC := notBrace_content v ':' X hv (by decide) hX
  have hO := notBrace_content v '=' pat hv (by decide) hpat
  have hN := notBrace_content n ':' (replaceStar value) hn (by decide)
    (notBrace_replaceStar value hval)
  rcases replacePath_cases n value path hn with ⟨-, h⟩ | ⟨pre, c, post, pv, gs, hp, hc, hm, h⟩
  · rw [h]
    exact ⟨rfl, fun hh => hh⟩
  · have hnew : replacePath n value path
        = pre ++ '{' :: ((n ++ ':' :: replaceStar value) ++ '}' :: post) := by
      rw [h]
      simp
    constructor
    · have h1 : ¬ c = v ++ ':' :: X := by
        intro hcc
        rw [hcc, matchSeq_replaceRe_not n v ':' X post pv hne hn hv (Or.inr rfl) hdiff] at hm
        simp at hm
      have h2 : ¬ n ++ ':' :: replaceStar value = v ++ ':' :: X := by
        intro hcc
        have hnv : n = v := leading_word_unique n v _ _ hn hv
          (fun c hc => by
            simp only [List.head?_cons, Option.some.injEq] at hc
            subst hc
            decide)
          (fun c hc => by
            simp only [List.head?_cons, Option.some.injEq] at hc
            subst hc
            decide) hcc
        exact hdiff (by rw [hnv])
      rw [hnew, hp, countOcc_group _ pre _ post hC hN, countOcc_group _ pre _ post hC hc]
      simp only [h1, h2, if_false]
    · intro ⟨a, b, hab⟩
      rw [hp] at hab
      rcases group_disjoint c (v ++ '=' :: pat) hc hO pre post a b hab with
        ⟨-, hcc, -⟩ | ⟨mid, ha, hpost⟩ | ⟨mid, hpre, hb⟩
      · rw [hcc, matchSeq_replaceRe_not n v '=' pat post pv hne hn hv (Or.inl rfl) hdiff] at hm
        simp at hm
      · refine ⟨pre ++ '{' :: ((n ++ ':' :: replaceStar value) ++ '}' :: mid), b, ?_⟩
        rw [hnew, hpost]
        simp
      · refine ⟨a, mid ++ '{' :: ((n ++ ':' :: replaceStar value) ++ '}' :: post), ?_⟩
        rw [hnew, hpre]
        simp

/-- The call of `replacePath` for `v` on a path that has an occurrence `{v=pat}` and does
not contain `{v:X}`, with `X` the rewritten pattern, makes `{v:X}` occur exactly once. -/
theorem replacePath_self (v pat path : Str) (hne : v ≠ [])
    (hv : ∀ c ∈ v, isWordChar c = true) (hpat : ∀ x ∈ pat, notBrace x = true)
    (h0 : countOcc ('{' :: ((v ++ ':' :: replaceStar pat) ++ ['}'])) path = 0)
    (hocc : ∃ a b, path = a ++ '{' :: ((v ++ '=' :: pat) ++ '}' :: b)) :
    countOcc ('{' :: ((v ++ ':' :: replaceStar pat) ++ ['}'])) (replacePath v pat path)
      = 1 := by
  have hC := notBrace_content v ':' (replaceStar pat) hv (by decide)
    (notBrace_replaceStar pat hpat)
  obtain ⟨a, b, hab⟩ := hocc
  have hsome : (findFirst (replaceRe v) Option.none path).isSome = true := by
    rw [hab]
    apply findFirst_isSome
    intro pv
    have e : (v ++ '=' :: pat) ++ '}' :: b = v ++ (('=' :: pat) ++ '}' :: b) := by simp
    rw [e]
    obtain ⟨gs, hgs⟩ := matchSeq_replaceRe_same v v ('=' :: pat) b pv hne hv hv
      (fun c hc => by
        rcases List.mem_cons.mp hc with h | h
        · subst h; decide
        · exact hpat c h)
      (fun c hc => by
        simp only [List.head?_cons, Option.some.injEq] at hc
        exact Or.inr (Or.inl hc.symm)) rfl
    rw [hgs]
    rfl
  rcases replacePath_cases v pat path hv with ⟨hnone, -⟩ | ⟨pre, c, post, pv, gs, hp, hc, -, h⟩
  · rw [hnone] at hsome
    simp at hsome
  · have hnew : replacePath v pat path
        = pre ++ '{' :: ((v ++ ':' :: replaceStar pat) ++ '}' :: post) := by
      rw [h]
      simp
    rw [hp, countOcc_group _ pre _ post hC hc] at h0
    rw [hnew, countOcc_group _ pre _ post hC hC]
    simp only [if_true]
    omega

/-- The loop of `buildMethodDesc` over variables other than `v`, whose captures belong to
names without `.` that differ from `v` even when the case of ASCII letters is ignored. -/
theorem varsLoop_others (sch : Schema) (input : Nat) (v X pat : Str)
    (hv : ∀ c ∈ v, isWordChar c = true) (hX : ∀ x ∈ X, notBrace x = true)
    (hpat : ∀ x ∈ pat, notBrace x = true) :
    ∀ (l : List (Str × Option Str)),
      (∀ e ∈ l, checkSegments sch (sch input) (splitOn e.1 '.') = true) →
      (∀ n c, (n, some c) ∈ l → n ≠ [] ∧ (∀ x ∈ n, isWordChar x = true) ∧
        (∀ x ∈ c, notBrace x = true) ∧ n.map Char.toLower ≠ v.map Char.toLower) →
      ∀ path, ∃ p, varsLoop sch input l path = some p ∧
        countOcc ('{' :: ((v ++ ':' :: X) ++ ['}'])) p
          = countOcc ('{' :: ((v ++ ':' :: X) ++ ['}'])) path ∧
        ((∃ a b, path = a ++ '{' :: ((v ++ '=' :: pat) ++ '}' :: b)) →
          ∃ a b, p = a ++ '{' :: ((v ++ '=' :: pat) ++ '}' :: b)) := by
  intro l
  induction l with
  | nil => intro _ _ path; exact ⟨path, rfl, rfl, fun h => h⟩
  | cons e l ih =>
    intro hcheck hcap path
    obtain ⟨n, s⟩ := e
    have hc : checkSegments sch (sch input) (splitOn n '.') = true :=
      hcheck (n, s) (List.mem_cons_self _ _)
    have hrec := ih (fun e he => hcheck e (List.mem_cons_of_mem _ he))
      (fun n c h => hcap n c (List.mem_cons_of_mem _ h))
    cases s with
    | none =>
      simp only [varsLoop, hc, if_true]
      exact hrec path
    | some c =>
      obtain ⟨hne, hn, hcb, hdiff⟩ := hcap n c (List.mem_cons_self _ _)
      obtain ⟨k1, k2⟩ := replacePath_other n c v X pat path hne hn hcb hv hX hpat hdiff
      obtain ⟨p, hp, hcnt, hocc⟩ := hrec (replacePath n c path)
      simp only [varsLoop, hc, if_true]
      exact ⟨p, hp, by rw [hcnt, k1], fun h => hocc (k2 h)⟩

theorem mapSet_key_stays (res : List (Str × Option Str)) (k : Str) (x : Option Str)
    (n : Str) (h : n ∈ res.map Prod.fst) : n ∈ (mapSet res k x).map Prod.fst := by
  rw [List.mem_map] at h ⊢
  obtain ⟨e, he, hen⟩ := h
  by_cases hk : e.1 = k
  · exact ⟨(k, x), mapSet_self res k x, by rw [← hen, hk]⟩
  · exact ⟨e, mapSet_keep res k x e he hk, hen⟩

/-- The name of every match is a key of the map. -/
theorem mem_keys_foldl_addMatch (ms : List (List Str)) :
    ∀ (acc : List (Str × Option Str)) (n : Str),
      (n ∈ acc.map Prod.fst ∨ ∃ m ∈ ms, trimSpace (m.getD 1 []) = n) →
      n ∈ (ms.foldl addMatch acc).map Prod.fst := by
  induction ms with
  | nil =>
    intro acc n h
    rcases h with h | ⟨m, hm, -⟩
    · exact h
    · simp at hm
  | cons m ms ih =>
    intro acc n h
    rw [List.foldl_cons]
    apply ih
    have hkey : ∀ k, k ∈ acc.map Prod.fst ∨ k = trimSpace (m.getD 1 []) →
        k ∈ (addMatch acc m).map Prod.fst := by
      intro k hk
      unfold addMatch
      simp only
      rcases hk with hk | hk
      · split <;> exact mapSet_key_stays _ _ _ k hk
      · subst hk
        split <;> exact List.mem_map_of_mem Prod.fst (mapSet_self _ _ _)
    rcases h with h | ⟨m1, hm1, hn⟩
    · exact Or.inl (hkey n (Or.inl h))
    · rcases List.mem_cons.mp hm1 with h1 | h1
      · subst h1
        exact Or.inl (hkey n (Or.inr hn.symm))
      · exact Or.inr ⟨m1, h1, hn⟩

theorem keys_middle (l1 l2 : List (Str × Option Str)) (k : Str) (x : Option Str)
    (h : ((l1 ++ (k, x) :: l2).map Prod.fst).Nodup) : ∀ e ∈ l1 ++ l2, e.1 ≠ k := by
  rw [List.map_append, List.map_cons, List.nodup_middle, List.nodup_cons] at h
  intro e he hk
  apply h.1
  have hm := List.mem_map_of_mem Prod.fst he
  rw [hk, List.map_append] at hm
  exact hm

/-! ### Captures -/

/-- C1, as stated, fails.  The occurrence `{v=*}` of the one-letter variable `v` is left as
it is (a name of one byte carries no capture), and so is `{ab=*}` when the same variable
occurs again without a pattern (the map keeps the last occurrence).  With `{AB=y}` before
`{ab=*}` and the map ranged backwards, the pattern for `ab`, which ignores case, rewrites
`{AB=y}` and the pattern for `AB` then rewrites the result.  With `{ab.c=y}` after
`{abxc=*}`, the pattern for `ab.c`, whose `.` matches any rune, rewrites `{abxc:.*}`.  In
these four cases the path of the descriptor does not contain `{v:P}`.  A path in which
`{ab:.*}` stands twice before `{ab=*}` is returned as it is, and contains `{ab:.*}`
twice. -/
theorem capture_not_rewritten :
    (∃ md st1, buildMethodDesc MapOrder.inserted demoSchema emptySets
        (demoMethod Option.none) "GET".toList "/\x7bv=*\x7d".toList = some (md, st1) ∧
      md.path = "/\x7bv=*\x7d".toList ∧ countOcc "\x7bv:.*\x7d".toList md.path = 0) ∧
    (∃ md st1, buildMethodDesc MapOrder.inserted demoSchema emptySets
        (demoMethod Option.none) "GET".toList "/\x7bab=*\x7d/\x7bab\x7d".toList
          = some (md, st1) ∧
      md.path = "/\x7bab=*\x7d/\x7bab\x7d".toList ∧
      countOcc "\x7bab:.*\x7d".toList md.path = 0) ∧
    (∃ md st1, buildMethodDesc MapOrder.backwards wideSchema emptySets
        (demoMethod Option.none) "GET".toList "/\x7bAB=y\x7d/\x7bab=*\x7d".toList
          = some (md, st1) ∧
      md.path = "/\x7bAB:y\x7d/\x7bab=*\x7d".toList ∧
      countOcc "\x7bab:.*\x7d".toList md.path = 0) ∧
    (∃ md st1, buildMethodDesc MapOrder.inserted wideSchema emptySets
        (demoMethod Option.none) "GET".toList "/\x7babxc=*\x7d/\x7bab.c=y\x7d".toList
          = some (md, st1) ∧
      md.path = "/\x7bab.c:y\x7d/\x7bab.c=y\x7d".toList ∧
      countOcc "\x7babxc:.*\x7d".toList md.path = 0) ∧
    (∃ md st1, buildMethodDesc MapOrder.inserted demoSchema emptySets
        (demoMethod Option.none) "GET".toList
          "/\x7bab:.*\x7d/\x7bab:.*\x7d/\x7bab=*\x7d".toList = some (md, st1) ∧
      md.path = "/\x7bab:.*\x7d/\x7bab:.*\x7d/\x7bab=*\x7d".toList ∧
      countOcc "\x7bab:.*\x7d".toList md.path = 2) :=
  ⟨⟨_, _, rfl, by decide, by decide⟩, ⟨_, _, rfl, by decide, by decide⟩,
    ⟨_, _, rfl, by decide, by decide⟩, ⟨_, _, rfl, by decide, by decide⟩,
    ⟨_, _, rfl, by decide, by decide⟩⟩

/-- C1, amended.  The path is `pre{v=pat}post`, with `v` of at least two characters, all
ASCII letters, digits or underscores, and `pat` without braces and with at least one `*`;
`P` is `pat` with every `*` replaced by `.*`.  No variable of `post` is named `v` (so that
the map keeps the capture `pat` for `v`); the path does not contain `{v:P}` already; every
other variable of the map that carries a capture has a name made of ASCII letters, digits
and underscores that differs from `v` even when the case of the letters is ignored; and
every variable passes validation.  Then `buildMethodDesc` returns a descriptor, whatever
the order the map is ranged in, and its path contains `{v:P}` exactly once. -/
theorem buildMethodDesc_rewrites_capture (ord : MapOrder) (sch : Schema) (st : MethodSets)
    (m : Method) (method pre post v pat : Str)
    (hlen : 2 ≤ v.length) (hv : ∀ c ∈ v, isWordChar c = true)
    (hpat : ∀ c ∈ pat, c ≠ '{' ∧ c ≠ '}') (hstar : '*' ∈ pat)
    (hlast : ∀ e ∈ buildPathVars post, e.1 ≠ v)
    (hfresh : countOcc
      ('{' :: v ++ ':' :: (pat.flatMap fun c => if c = '*' then ['.', '*'] else [c]) ++ ['}'])
      (pre ++ '{' :: v ++ '=' :: pat ++ '}' :: post) = 0)
    (hcap : ∀ n c, (n, some c) ∈ buildPathVars (pre ++ '{' :: v ++ '=' :: pat ++ '}' :: post) →
      n ≠ v → (∀ x ∈ n, isWordChar x = true) ∧ n.map Char.toLower ≠ v.map Char.toLower)
    (hval : ∀ e ∈ buildPathVars (pre ++ '{' :: v ++ '=' :: pat ++ '}' :: post),
      checkSegments sch (sch m.input) (splitOn e.1 '.') = true) :
    ∃ md st1, buildMethodDesc ord sch st m method
        (pre ++ '{' :: v ++ '=' :: pat ++ '}' :: post) = some (md, st1) ∧
      countOcc
        ('{' :: v ++ ':' :: (pat.flatMap fun c => if c = '*' then ['.', '*'] else [c]) ++ ['}'])
        md.path = 1 := by
  have hne : v ≠ [] := by
    intro h
    rw [h] at hlen
    simp at hlen
  have hpnb : ∀ c ∈ pat, notBrace c = true :=
    fun c hc => notBrace_of_ne c (hpat c hc).1 (hpat c hc).2
  have hX := notBrace_replaceStar pat hpnb
  have hsub : '{' :: v ++ ':' :: (pat.flatMap fun c => if c = '*' then ['.', '*'] else [c])
      ++ ['}'] = '{' :: ((v ++ ':' :: replaceStar pat) ++ ['}']) := by
    rw [replaceStar_eq_flatMap]
    simp
  have hpath : pre ++ '{' :: v ++ '=' :: pat ++ '}' :: post
      = pre ++ '{' :: (v ++ '=' :: (pat ++ '}' :: post)) := by
    simp
  have hocc : ∃ a b, pre ++ '{' :: (v ++ '=' :: (pat ++ '}' :: post))
      = a ++ '{' :: ((v ++ '=' :: pat) ++ '}' :: b) := ⟨pre, post, by simp⟩
  rw [hsub] at hfresh ⊢
  rw [hpath] at hfresh hcap hval ⊢
  have hlast1 : ∀ g ∈ findAll pathVarRe 0 Option.none post, trimSpace (g.getD 1 []) ≠ v := by
    intro g hg hgv
    have hk : v ∈ (buildPathVars post).map Prod.fst :=
      mem_keys_foldl_addMatch _ [] v (Or.inr ⟨g, hg, hgv⟩)
    rw [List.mem_map] at hk
    obtain ⟨e, he, hev⟩ := hk
    exact hlast e he hev
  have hmem := buildPathVars_occurrence pre post v pat hlen hv hpnb
    (List.ne_nil_of_mem hstar) hlast1
  have hperm := ord.perm (buildPathVars (pre ++ '{' :: (v ++ '=' :: (pat ++ '}' :: post))))
  obtain ⟨l1, l2, hl⟩ := List.append_of_mem ((hperm.mem_iff).mpr hmem)
  have hkeys : ((l1 ++ (v, some pat) :: l2).map Prod.fst).Nodup := by
    rw [← hl]
    exact ((hperm.map Prod.fst).nodup_iff).mpr (buildPathVars_keys _)
  have hother := keys_middle l1 l2 v (some pat) hkeys
  have hin : ∀ e, e ∈ l1 ++ (v, some pat) :: l2 →
      e ∈ buildPathVars (pre ++ '{' :: (v ++ '=' :: (pat ++ '}' :: post))) := by
    intro e he
    rw [← hl] at he
    exact (hperm.mem_iff).mp he
  have hcheck : ∀ e ∈ l1 ++ (v, some pat) :: l2,
      checkSegments sch (sch m.input) (splitOn e.1 '.') = true :=
    fun e he => hval e (hin e he)
  have hcapL : ∀ n c, (n, some c) ∈ l1 ++ l2 → n ≠ [] ∧ (∀ x ∈ n, isWordChar x = true) ∧
      (∀ x ∈ c, notBrace x = true) ∧ n.map Char.toLower ≠ v.map Char.toLower := by
    intro n c he
    have hb : (n, some c) ∈ buildPathVars (pre ++ '{' :: (v ++ '=' :: (pat ++ '}' :: post))) := by
      apply hin
      simp only [List.mem_append, List.mem_cons] at he ⊢
      tauto
    obtain ⟨h1, h2⟩ := buildPathVars_capture _ n c hb
    obtain ⟨h3, h4⟩ := hcap n c hb (hother (n, some c) he)
    exact ⟨h1, h3, h2, h4⟩
  obtain ⟨p1, hp1, hc1, ho1⟩ := varsLoop_others sch m.input v (replaceStar pat) pat hv hX hpnb
    l1 (fun e he => hcheck e (by simp [he]))
    (fun n c h => hcapL n c (by simp [h]))
    (pre ++ '{' :: (v ++ '=' :: (pat ++ '}' :: post)))
  have hself := replacePath_self v pat p1 hne hv hpnb (by rw [hc1]; exact hfresh) (ho1 hocc)
  obtain ⟨p2, hp2, hc2, -⟩ := varsLoop_others sch m.input v (replaceStar pat) pat hv hX hpnb
    l2 (fun e he => hcheck e (by simp [he]))
    (fun n c h => hcapL n c (by simp [h])) (replacePath v pat p1)
  have hcv : checkSegments sch (sch m.input) (splitOn v '.') = true :=
    hcheck (v, some pat) (by simp)
  have hloop : varsLoop sch m.input
      (ord.visit (buildPathVars (pre ++ '{' :: (v ++ '=' :: (pat ++ '}' :: post)))))
      (pre ++ '{' :: (v ++ '=' :: (pat ++ '}' :: post))) = some p2 := by
    rw [hl, varsLoop_append, hp1]
    simp only [Option.some_bind, varsLoop, hcv, if_true]
    exact hp2
  refine ⟨_, _, buildMethodDesc_of_loop hloop, ?_⟩
  show countOcc _ p2 = 1
  rw [hc2]
  exact hself

theorem buildMethodDesc_rewrites_capture_witness :
    (∀ n c, (n, some c) ∈ buildPathVars ("/x/\x7bv\x7d/".toList ++ '{' ::
        "id".toList ++ '=' :: "a*".toList ++ '}' :: "/y/\x7bab=b*\x7d".toList) →
      n ≠ "id".toList → (∀ x ∈ n, isWordChar x = true) ∧
        n.map Char.toLower ≠ "id".toList.map Char.toLower) ∧
    "/x/\x7bv\x7d/".toList ++ '{' :: "id".toList ++ '=' :: "a*".toList ++
        '}' :: "/y/\x7bab=b*\x7d".toList
      = "/x/\x7bv\x7d/\x7bid=a*\x7d/y/\x7bab=b*\x7d".toList ∧
    ∃ md st1, buildMethodDesc MapOrder.backwards demoSchema emptySets (demoMethod Option.none)
        "GET".toList ("/x/\x7bv\x7d/".toList ++ '{' :: "id".toList ++ '=' ::
          "a*".toList ++ '}' :: "/y/\x7bab=b*\x7d".toList) = some (md, st1) ∧
      countOcc ('{' :: "id".toList ++ ':' ::
        ("a*".toList.flatMap fun c => if c = '*' then ['.', '*'] else [c]) ++ ['}']) md.path
        = 1 :=
  have hcap : ∀ n c, (n, some c) ∈ buildPathVars ("/x/\x7bv\x7d/".toList ++ '{' ::
        "id".toList ++ '=' :: "a*".toList ++ '}' :: "/y/\x7bab=b*\x7d".toList) →
      n ≠ "id".toList → (∀ x ∈ n, isWordChar x = true) ∧
        n.map Char.toLower ≠ "id".toList.map Char.toLower := by
    intro n c h hn
    have e : buildPathVars ("/x/\x7bv\x7d/".toList ++ '{' ::
        "id".toList ++ '=' :: "a*".toList ++ '}' :: "/y/\x7bab=b*\x7d".toList)
        = [("v".toList, Option.none), ("id".toList, some "a*".toList),
           ("ab".toList, some "b*".toList)] := by
      decide
    rw [e] at h
    simp only [List.mem_cons, Prod.mk.injEq, reduceCtorEq, and_false, false_or,
      List.mem_singleton, List.not_mem_nil, or_false] at h
    rcases h with ⟨h1, -⟩ | ⟨h1, -⟩
    · exact absurd h1 hn
    · subst h1
      exact ⟨by decide, by decide⟩
  ⟨hcap, by decide,
    buildMethodDesc_rewrites_capture MapOrder.backwards demoSchema emptySets
      (demoMethod Option.none) "GET".toList "/x/\x7bv\x7d/".toList
      "/y/\x7bab=b*\x7d".toList "id".toList "a*".toList
      (by decide) (by decide) (by decide) (by decide) (by decide) (by decide) hcap
      (by decide)⟩

/-- C10: the path of the descriptor depends on the order in which the map of variables
is ranged.  For the template `/{ab=c*d}/{ab.c.d=x*}` the order `ab`, `ab.c.d` gives
`/{ab:c.*d}/{ab.c.d:x.*}` and the order `ab.c.d`, `ab` gives `/{ab:c.*d}/{ab.c.d=x*}`:
the pattern built from the name `ab.c.d`, in which `.` matches any rune, also matches the
occurrence `{ab=c*d}`. -/
theorem path_depends_on_map_order :
    (buildMethodDesc MapOrder.inserted demoSchema emptySets (demoMethod Option.none)
        "GET".toList "/\x7bab=c*d\x7d/\x7bab.c.d=x*\x7d".toList).map (fun r => r.1.path)
      = some "/\x7bab:c.*d\x7d/\x7bab.c.d:x.*\x7d".toList ∧
    (buildMethodDesc MapOrder.backwards demoSchema emptySets (demoMethod Option.none)
        "GET".toList "/\x7bab=c*d\x7d/\x7bab.c.d=x*\x7d".toList).map (fun r => r.1.path)
      = some "/\x7bab:c.*d\x7d/\x7bab.c.d=x*\x7d".toList := by
  decide

/-! ### The counter, and the shape of the extracted names -/

/-- C19: a call of `buildMethodDesc` that returns a descriptor gives it, as `Num`, the
value the counter had for the method's Go name before the call (0 for a name never
counted), leaves that entry greater by exactly 1, and leaves every other entry alone. -/
theorem buildMethodDesc_counter (ord : MapOrder) (sch : Schema) (st : MethodSets)
    (m : Method) (method path : Str) (md : MethodDesc) (st1 : MethodSets)
    (h : buildMethodDesc ord sch st m method path = some (md, st1)) :
    md.num = st m.goName ∧ st1 m.goName = st m.goName + 1 ∧
    (∀ k, k ≠ m.goName → st1 k = st k) ∧
    (st = emptySets → md.num = 0) := by
  obtain ⟨p, -, hmd, hst⟩ := buildMethodDesc_eq_some h
  subst hmd hst
  refine ⟨rfl, bump_self st m.goName, ?_, ?_⟩
  · intro k hk
    simp [bump, hk]
  · intro h0
    subst h0
    rfl

theorem buildMethodDesc_counter_witness :
    buildMethodDesc MapOrder.inserted demoSchema (bump emptySets "Do".toList)
        (demoMethod Option.none) "GET".toList "/x/\x7bid\x7d".toList
      = some (demoDesc 1 "/x/\x7bid\x7d".toList "GET".toList true false [] [],
              bump (bump emptySets "Do".toList) "Do".toList) ∧
    (demoDesc 1 "/x/\x7bid\x7d".toList "GET".toList true false [] []).num
      = bump emptySets "Do".toList (demoMethod Option.none).goName ∧
    bump (bump emptySets "Do".toList) "Do".toList (demoMethod Option.none).goName
      = bump emptySets "Do".toList (demoMethod Option.none).goName + 1 :=
  have h := buildMethodDesc_counter MapOrder.inserted demoSchema (bump emptySets "Do".toList)
    (demoMethod Option.none) "GET".toList "/x/\x7bid\x7d".toList
    (demoDesc 1 "/x/\x7bid\x7d".toList "GET".toList true false [] [])
    (bump (bump emptySets "Do".toList) "Do".toList) rfl
  ⟨rfl, h.1, h.2.1⟩

theorem getLast?_dropWhile (p q : Char → Bool) (l : Str)
    (h : ∀ c, l.getLast? = some c → q c = false) :
    ∀ c, (l.dropWhile p).getLast? = some c → q c = false := by
  induction l with
  | nil => intro c hc; simp at hc
  | cons x l ih =>
    intro c hc
    rw [List.dropWhile_cons] at hc
    by_cases hx : p x = true
    · rw [if_pos hx] at hc
      cases l with
      | nil => simp at hc
      | cons y l =>
        apply ih _ c hc
        intro c1 hc1
        apply h
        rw [List.getLast?_cons_cons]
        exact hc1
    · rw [if_neg hx] at hc
      exact h c hc

theorem trimSpace_head (s : Str) (c : Char) (h : (trimSpace s).head? = some c) :
    isSpace c = false := by
  unfold trimSpace at h
  rw [List.head?_reverse] at h
  apply getLast?_dropWhile isSpace isSpace _ _ c h
  intro c1 hc1
  rw [List.getLast?_reverse] at hc1
  have := List.head?_dropWhile_not isSpace s
  rw [hc1] at this
  exact this

theorem trimSpace_last (s : Str) (c : Char) (h : (trimSpace s).getLast? = some c) :
    isSpace c = false := by
  unfold trimSpace at h
  rw [List.getLast?_reverse] at h
  have := List.head?_dropWhile_not isSpace (List.dropWhile isSpace s).reverse
  rw [h] at this
  exact this

theorem buildPathVars_name_trimmed (path : Str) (e : Str × Option Str)
    (h : e ∈ buildPathVars path) : ∃ g : Str, e.1 = trimSpace g := by
  unfold buildPathVars at h
  rcases mem_foldl_addMatch _ [] e h with h1 | ⟨m, -, he⟩
  · simp at h1
  · exact ⟨_, he⟩

/-- C20: a variable name in the map returned by `buildPathVars` neither starts nor ends
with white space and has none of the characters `:`, `=`, `{`, `}`; hence no segment of
it contains `:`, and the branch of `buildMethodDesc` that cuts a segment at `:` is never
taken for it. -/
theorem buildPathVars_names_clean (path : Str) (e : Str × Option Str)
    (h : e ∈ buildPathVars path) :
    (∀ c, e.1.head? = some c → isSpace c = false) ∧
    (∀ c, e.1.getLast? = some c → isSpace c = false) ∧
    ':' ∉ e.1 ∧ '=' ∉ e.1 ∧ '{' ∉ e.1 ∧ '}' ∉ e.1 ∧
    (∀ seg ∈ splitOn e.1 '.', seg.contains ':' = false) := by
  obtain ⟨g, hg⟩ := buildPathVars_name_trimmed path e h
  have hchars := buildPathVars_name_chars path e h
  refine ⟨?_, ?_, ?_, ?_, ?_, ?_, ?_⟩
  · intro c hc
    rw [hg] at hc
    exact trimSpace_head g c hc
  · intro c hc
    rw [hg] at hc
    exact trimSpace_last g c hc
  · exact fun hm => absurd (hchars _ hm) (by decide)
  · exact fun hm => absurd (hchars _ hm) (by decide)
  · exact fun hm => absurd (hchars _ hm) (by decide)
  · exact fun hm => absurd (hchars _ hm) (by decide)
  · intro seg hseg
    rw [Bool.eq_false_iff]
    intro hcon
    have hmem : ':' ∈ seg := by simpa using hcon
    exact absurd (hchars _ (mem_of_mem_splitOn e.1 '.' seg hseg ':' hmem)) (by decide)

theorem buildPathVars_names_clean_witness :
    ("ab.c".toList, some "x*".toList) ∈ buildPathVars "/\x7b ab.c =x*\x7d".toList ∧
    (∀ seg ∈ splitOn "ab.c".toList '.', seg.contains ':' = false) :=
  ⟨by decide, (buildPathVars_names_clean "/\x7b ab.c =x*\x7d".toList
    ("ab.c".toList, some "x*".toList) (by decide)).2.2.2.2.2.2⟩

/-! ### Validation, segment by segment -/

theorem checkSegments_step (sch : Schema) (fields : List FieldDesc) (seg : Str)
    (rest : List Str) (fd : FieldDesc) (hb : trimSpace seg ≠ [])
    (hc : seg.contains ':' = false) (hfd : byName fields seg = some fd) :
    checkSegments sch fields (seg :: rest) =
      if fd.isMap = true then checkSegments sch fields rest
      else if fd.isList = true then checkSegments sch fields rest
      else if fd.kind = Kind.message ∨ fd.kind = Kind.group then
        checkSegments sch (sch fd.message) rest
      else checkSegments sch fields rest := by
  simp only [checkSegments, hb, if_false, hc, Bool.false_eq_true, hfd]

theorem segment_no_colon (path : Str) (e : Str × Option Str) (h : e ∈ buildPathVars path)
    (seg : Str) (hseg : seg ∈ splitOn e.1 '.') : seg.contains ':' = false := by
  rw [Bool.eq_false_iff]
  intro hcon
  have hmem : ':' ∈ seg := by simpa using hcon
  exact absurd (buildPathVars_name_chars path e h _
    (mem_of_mem_splitOn e.1 '.' seg hseg ':' hmem)) (by decide)

theorem buildMethodDesc_isSome_of_others (ord : MapOrder) (sch : Schema) (st : MethodSets)
    (m : Method) (method path v : Str)
    (hv : checkSegments sch (sch m.input) (splitOn v '.') = true)
    (hothers : ∀ e ∈ buildPathVars path, e.1 ≠ v →
      checkSegments sch (sch m.input) (splitOn e.1 '.') = true) :
    (buildMethodDesc ord sch st m method path).isSome = true := by
  rw [buildMethodDesc_isSome, List.all_eq_true]
  intro e he
  by_cases hev : e.1 = v
  · rw [hev]
    exact hv
  · exact hothers e he hev

/-- C11, as stated, fails: for `{id.nope}`, with the scalar field `id` and no field `nope`
in the input message, the run exits. -/
theorem scalar_then_unknown_aborts :
    byName (demoSchema (demoMethod Option.none).input) "id".toList
      = some ⟨"id".toList, false, false, Kind.scalar, 0⟩ ∧
    buildMethodDesc MapOrder.inserted demoSchema emptySets (demoMethod Option.none)
      "GET".toList "/\x7bid.nope\x7d".toList = Option.none :=
  ⟨by decide, rfl⟩

/-- C11, amended: when the first segment of a path variable resolves to a scalar field
(no message or group kind, no list, no map) of the input message, validation goes on
with the remaining segments and looks them up in the field mapping of the input message
again: the variable passes exactly when its remaining segments pass from that mapping.
If they do not, `buildMethodDesc` exits; if they do and the other variables of the path
pass, it returns a descriptor. -/
theorem scalar_segment_keeps_mapping (ord : MapOrder) (sch : Schema) (st : MethodSets)
    (m : Method) (method path v f : Str) (s : Option Str) (rest : List Str) (fd : FieldDesc)
    (hv : (v, s) ∈ buildPathVars path) (hsplit : splitOn v '.' = f :: rest)
    (hf : trimSpace f ≠ []) (hfd : byName (sch m.input) f = some fd)
    (hmap : fd.isMap = false) (hlist : fd.isList = false) (hk : fd.kind = Kind.scalar) :
    checkSegments sch (sch m.input) (splitOn v '.')
      = checkSegments sch (sch m.input) rest ∧
    (checkSegments sch (sch m.input) rest = false →
      buildMethodDesc ord sch st m method path = Option.none) ∧
    (checkSegments sch (sch m.input) rest = true →
      (∀ e ∈ buildPathVars path, e.1 ≠ v →
        checkSegments sch (sch m.input) (splitOn e.1 '.') = true) →
      (buildMethodDesc ord sch st m method path).isSome = true) := by
  have hc : f.contains ':' = false :=
    segment_no_colon path (v, s) hv f (by rw [hsplit]; exact List.mem_cons_self _ _)
  have hstep : checkSegments sch (sch m.input) (splitOn v '.')
      = checkSegments sch (sch m.input) rest := by
    rw [hsplit, checkSegments_step sch _ f rest fd hf hc hfd]
    simp [hmap, hlist, hk]
  refine ⟨hstep, ?_, ?_⟩
  · intro hbad
    exact buildMethodDesc_abort ord sch st m method path v s hv (by rw [hstep, hbad])
  · intro hgood hothers
    exact buildMethodDesc_isSome_of_others ord sch st m method path v
      (by rw [hstep, hgood]) hothers

theorem scalar_segment_keeps_mapping_witness :
    ("id.id".toList, Option.none) ∈ buildPathVars "/\x7bid.id\x7d".toList ∧
    splitOn "id.id".toList '.' = ["id".toList, "id".toList] ∧
    (buildMethodDesc MapOrder.inserted demoSchema emptySets (demoMethod Option.none)
      "GET".toList "/\x7bid.id\x7d".toList).isSome = true :=
  ⟨by decide, by decide,
    (scalar_segment_keeps_mapping MapOrder.inserted demoSchema emptySets
      (demoMethod Option.none) "GET".toList "/\x7bid.id\x7d".toList "id.id".toList
      "id".toList Option.none ["id".toList] ⟨"id".toList, false, false, Kind.scalar, 0⟩
      (by decide) (by decide) (by decide) (by decide) rfl rfl rfl).2.2 (by decide)
      (by decide)⟩

/-- C12: for a path variable `a.b` whose segment `a` is a singular (no list, no map)
field of message or group kind of the input message, validation looks `b` up in the
fields of the message of `a`, not in the input message: the variable passes exactly when
that message has a field `b`; when it has none `buildMethodDesc` exits, and when it has
one and the other variables of the path pass, a descriptor is returned.  The same step
applies from any field mapping reached further down. -/
theorem message_segment_descends (ord : MapOrder) (sch : Schema) (st : MethodSets)
    (m : Method) (method path v a b : Str) (s : Option Str) (fd : FieldDesc)
    (hv : (v, s) ∈ buildPathVars path) (hsplit : splitOn v '.' = [a, b])
    (ha : trimSpace a ≠ []) (hb : trimSpace b ≠ [])
    (hfd : byName (sch m.input) a = some fd)
    (hmap : fd.isMap = false) (hlist : fd.isList = false)
    (hk : fd.kind = Kind.message ∨ fd.kind = Kind.group) :
    checkSegments sch (sch m.input) (splitOn v '.') = (byName (sch fd.message) b).isSome ∧
    (byName (sch fd.message) b = Option.none →
      buildMethodDesc ord sch st m method path = Option.none) ∧
    ((byName (sch fd.message) b).isSome = true →
      (∀ e ∈ buildPathVars path, e.1 ≠ v →
        checkSegments sch (sch m.input) (splitOn e.1 '.') = true) →
      (buildMethodDesc ord sch st m method path).isSome = true) ∧
    (∀ (fields : List FieldDesc) (seg : Str) (rest : List Str) (fd1 : FieldDesc),
      trimSpace seg ≠ [] → seg.contains ':' = false → byName fields seg = some fd1 →
      fd1.isMap = false → fd1.isList = false →
      (fd1.kind = Kind.message ∨ fd1.kind = Kind.group) →
      checkSegments sch fields (seg :: rest) = checkSegments sch (sch fd1.message) rest) := by
  have hdown : ∀ (fields : List FieldDesc) (seg : Str) (rest : List Str) (fd1 : FieldDesc),
      trimSpace seg ≠ [] → seg.contains ':' = false → byName fields seg = some fd1 →
      fd1.isMap = false → fd1.isList = false →
      (fd1.kind = Kind.message ∨ fd1.kind = Kind.group) →
      checkSegments sch fields (seg :: rest)
        = checkSegments sch (sch fd1.message) rest := by
    intro fields seg rest fd1 h1 h2 h3 h4 h5 h6
    rw [checkSegments_step sch fields seg rest fd1 h1 h2 h3]
    simp [h4, h5, h6]
  have hca : a.contains ':' = false :=
    segment_no_colon path (v, s) hv a (by rw [hsplit]; simp)
  have hcb : b.contains ':' = false :=
    segment_no_colon path (v, s) hv b (by rw [hsplit]; simp)
  have hlast : checkSegments sch (sch fd.message) [b] = (byName (sch fd.message) b).isSome := by
    cases hbn : byName (sch fd.message) b with
    | none =>
      simp only [checkSegments, hb, if_false, hcb, Bool.false_eq_true, hbn]
      rfl
    | some fd2 =>
      rw [checkSegments_step sch _ b [] fd2 hb hcb hbn]
      simp [checkSegments]
  have hstep : checkSegments sch (sch m.input) (splitOn v '.')
      = (byName (sch fd.message) b).isSome := by
    rw [hsplit, hdown _ a [b] fd ha hca hfd hmap hlist hk, hlast]
  refine ⟨hstep, ?_, ?_, hdown⟩
  · intro hnone
    exact buildMethodDesc_abort ord sch st m method path v s hv (by rw [hstep, hnone]; rfl)
  · intro hsome hothers
    exact buildMethodDesc_isSome_of_others ord sch st m method path v
      (by rw [hstep, hsome]) hothers

theorem message_segment_descends_witness :
    ("ab.p".toList, Option.none) ∈ buildPathVars "/\x7bab.p\x7d".toList ∧
    byName (demoSchema (demoMethod Option.none).input) "p".toList = Option.none ∧
    (buildMethodDesc MapOrder.inserted demoSchema emptySets (demoMethod Option.none)
      "GET".toList "/\x7bab.p\x7d".toList).isSome = true :=
  ⟨by decide, by decide,
    (message_segment_descends MapOrder.inserted demoSchema emptySets
      (demoMethod Option.none) "GET".toList "/\x7bab.p\x7d".toList "ab.p".toList
      "ab".toList "p".toList Option.none ⟨"ab".toList, false, false, Kind.message, 1⟩
      (by decide) (by decide) (by decide) (by decide) (by decide) rfl rfl
      (Or.inl rfl)).2.2.1 (by decide) (by decide)⟩

/-! ### Paths whose variables carry no pattern -/

theorem mapSet_ne_nil (res : List (Str × Option Str)) (k : Str) (v : Option Str) :
    mapSet res k v ≠ [] := by
  unfold mapSet
  split
  · rename_i h
    intro hnil
    rw [List.map_eq_nil_iff] at hnil
    rw [hnil] at h
    simp at h
  · simp

theorem addMatch_ne_nil (res : List (Str × Option Str)) (m : List Str) :
    addMatch res m ≠ [] := by
  unfold addMatch
  simp only
  split <;> exact mapSet_ne_nil _ _ _

theorem foldl_addMatch_ne_nil (ms : List (List Str)) :
    ∀ acc : List (Str × Option Str), acc ≠ [] → ms.foldl addMatch acc ≠ [] := by
  induction ms with
  | nil => intro acc h; exact h
  | cons m ms ih =>
    intro acc _
    rw [List.foldl_cons]
    exact ih _ (addMatch_ne_nil acc m)

theorem buildPathVars_eq_nil_iff (path : Str) :
    buildPathVars path = [] ↔ findAll pathVarRe 0 Option.none path = [] := by
  unfold buildPathVars
  cases findAll pathVarRe 0 Option.none path with
  | nil => simp
  | cons m ms =>
    simp only [List.foldl_cons, reduceCtorEq, iff_false]
    exact foldl_addMatch_ne_nil ms _ (addMatch_ne_nil [] m)

theorem foldl_addMatch_plain (ms : List (List Str))
    (hplain : ∀ g ∈ ms, g.getD 3 [] = []) :
    ∀ acc : List (Str × Option Str), (∀ e ∈ acc, e.2 = Option.none) →
      ∀ e ∈ ms.foldl addMatch acc, e.2 = Option.none := by
  induction ms with
  | nil => intro acc h; exact h
  | cons m ms ih =>
    intro acc hacc
    rw [List.foldl_cons]
    apply ih (fun g hg => hplain g (List.mem_cons_of_mem _ hg))
    intro e he
    have hm : m.getD 3 [] = [] := hplain m (List.mem_cons_self _ _)
    unfold addMatch at he
    simp only [hm, List.length_nil, gt_iff_lt, Nat.lt_irrefl, and_false, if_false] at he
    rcases mem_mapSet _ _ _ _ he with h1 | h1
    · exact hacc e h1
    · rw [h1]

theorem varsLoop_plain (sch : Schema) (input : Nat) (l : List (Str × Option Str))
    (hnone : ∀ e ∈ l, e.2 = Option.none)
    (hres : ∀ e ∈ l, checkSegments sch (sch input) (splitOn e.1 '.') = true) :
    ∀ path, varsLoop sch input l path = some path := by
  induction l with
  | nil => intro path; rfl
  | cons e l ih =>
    intro path
    obtain ⟨v, s⟩ := e
    have hs : s = Option.none := hnone (v, s) (List.mem_cons_self _ _)
    have hc : checkSegments sch (sch input) (splitOn v '.') = true :=
      hres (v, s) (List.mem_cons_self _ _)
    subst hs
    simp only [varsLoop, hc, if_true]
    exact ih (fun e he => hnone e (List.mem_cons_of_mem _ he))
      (fun e he => hres e (List.mem_cons_of_mem _ he)) path

/-- C13: when every brace occurrence of the path (every match of the pattern of
`buildPathVars`) is plain, that is has an empty pattern part, and every variable passes
validation, `buildMethodDesc` returns a descriptor, in whatever order the map is ranged;
its path is the input path, rune for rune, and `HasVars` is true exactly when the path
has at least one occurrence. -/
theorem plain_variables_leave_path (ord : MapOrder) (sch : Schema) (st : MethodSets)
    (m : Method) (method path : Str)
    (hplain : ∀ g ∈ findAll pathVarRe 0 Option.none path, g.getD 3 [] = [])
    (hres : ∀ e ∈ buildPathVars path,
      checkSegments sch (sch m.input) (splitOn e.1 '.') = true) :
    ∃ md st1, buildMethodDesc ord sch st m method path = some (md, st1) ∧
      md.path = path ∧
      (md.hasVars = true ↔ findAll pathVarRe 0 Option.none path ≠ []) := by
  have hnone : ∀ e ∈ buildPathVars path, e.2 = Option.none :=
    foldl_addMatch_plain _ hplain [] (by simp)
  have hloop : varsLoop sch m.input (ord.visit (buildPathVars path)) path = some path :=
    varsLoop_plain sch m.input _
      (fun e he => hnone e (((ord.perm _).mem_iff).mp he))
      (fun e he => hres e (((ord.perm _).mem_iff).mp he)) path
  refine ⟨_, _, buildMethodDesc_of_loop hloop, rfl, ?_⟩
  simp only [gt_iff_lt, decide_eq_true_eq, List.length_pos, ne_eq]
  exact not_congr (buildPathVars_eq_nil_iff path)

theorem plain_variables_leave_path_witness :
    (∀ g ∈ findAll pathVarRe 0 Option.none "/x/\x7bid\x7d/y/\x7bab.c.d\x7d".toList,
      g.getD 3 [] = []) ∧
    ∃ md st1, buildMethodDesc MapOrder.backwards demoSchema emptySets (demoMethod Option.none)
        "GET".toList "/x/\x7bid\x7d/y/\x7bab.c.d\x7d".toList = some (md, st1) ∧
      md.path = "/x/\x7bid\x7d/y/\x7bab.c.d\x7d".toList ∧
      (md.hasVars = true ↔
        findAll pathVarRe 0 Option.none "/x/\x7bid\x7d/y/\x7bab.c.d\x7d".toList ≠ []) :=
  ⟨by decide, plain_variables_leave_path MapOrder.backwards demoSchema emptySets
    (demoMethod Option.none) "GET".toList "/x/\x7bid\x7d/y/\x7bab.c.d\x7d".toList
    (by decide) (by decide)⟩

/-- C14: `replacePath` rewrites occurrences of other variables.  For the name `user` it
rewrites `{user.id=*}`, which stands before `{user=x*}`, and for the name `a.b` it
rewrites `{axb}`, which stands before `{a.b}`: after the name the pattern only asks for a
word boundary and any run of non-brace runes, and the `.` of a name matches any rune. -/
theorem replacePath_rewrites_other_variable :
    replacePath "user".toList "x*".toList "/\x7buser.id=*\x7d/\x7buser=x*\x7d".toList
      = "/\x7buser:x.*\x7d/\x7buser=x*\x7d".toList ∧
    replacePath "a.b".toList "v".toList "/\x7baxb\x7d/\x7ba.b\x7d".toList
      = "/\x7ba.b:v\x7d/\x7ba.b\x7d".toList := by
  decide

/-! ### The naming transform -/

theorem xorSpace_spec (c : Char) (h : isASCIILower c = true) :
    xorSpace c = c.toUpper ∧ 65 ≤ (xorSpace c).toNat ∧ (xorSpace c).toNat ≤ 90 := by
  have hr := (isASCIILower_iff c).mp h
  have hc : c = Char.ofNat c.toNat := (Char.ofNat_toNat c).symm
  generalize c.toNat = n at hc hr
  subst hc
  obtain ⟨h1, h2⟩ := hr
  interval_cases n <;> decide

theorem xorSpace_not_lower (c : Char) (h : isASCIILower c = true) :
    isASCIILower (xorSpace c) = false := by
  have hx := (xorSpace_spec c h).2
  rw [Bool.eq_false_iff]
  intro hl
  have := (isASCIILower_iff _).mp hl
  omega

theorem xorSpace_not_digit (c : Char) (h : isASCIILower c = true) :
    isASCIIDigit (xorSpace c) = false := by
  have hx := (xorSpace_spec c h).2
  rw [Bool.eq_false_iff]
  intro hl
  have := (isASCIIDigit_iff _).mp hl
  omega

theorem xorSpace_ne (c d : Char) (h : isASCIILower c = true)
    (hd : d.toNat < 65 ∨ 90 < d.toNat) : xorSpace c ≠ d := by
  have hx := (xorSpace_spec c h).2
  intro heq
  rw [heq] at hx
  omega

theorem lower_ne_underscore (c : Char) (h : isASCIILower c = true) : c ≠ '_' := by
  intro hc
  subst hc
  exact absurd h (by decide)

theorem lower_not_digit (c : Char) (h : isASCIILower c = true) : isASCIIDigit c = false := by
  have := (isASCIILower_iff c).mp h
  rw [Bool.eq_false_iff]
  intro hd
  have := (isASCIIDigit_iff c).mp hd
  omega

theorem digit_ne_underscore (c : Char) (h : isASCIIDigit c = true) : c ≠ '_' := by
  intro hc
  subst hc
  exact absurd h (by decide)

theorem digit_not_lower (c : Char) (h : isASCIIDigit c = true) : isASCIILower c = false := by
  have := (isASCIIDigit_iff c).mp h
  rw [Bool.eq_false_iff]
  intro hd
  have := (isASCIILower_iff c).mp hd
  omega

/-- The condition `i+1 < len(s) && isASCIILower(s[i+1])` on the text after `s[i]`. -/
theorem nextLower_eq (s : Str) :
    (match s with | [] => false | d :: _ => isASCIILower d)
      = (match s.head? with | some d => isASCIILower d | Option.none => false) := by
  cases s <;> rfl

theorem camelLoop_true_of_lower (c : Char) (s : Str) (h : isASCIILower c = true) :
    camelLoop true (c :: s) = c :: camelLoop true s := by
  simp [camelLoop, h]

theorem camelLoop_true_eq_false (s : Str)
    (h : ∀ c, s.head? = some c → isASCIILower c = false) :
    camelLoop true s = camelLoop false s := by
  cases s with
  | nil => simp [camelLoop]
  | cons c s =>
    have hc : isASCIILower c = false := h c rfl
    simp [camelLoop, hc]

theorem camelLoop_false_head (s : Str) :
    ∀ c, (camelLoop false s).head? = some c → isASCIILower c = false := by
  induction s with
  | nil => intro c h; simp [camelLoop] at h
  | cons x s ih =>
    intro c h
    simp only [camelLoop] at h
    split at h
    · exact ih c h
    · split at h
      · rename_i hd
        simp only [List.head?_cons, Option.some.injEq] at h
        subst h
        exact digit_not_lower _ hd
      · simp only [List.head?_cons, Option.some.injEq] at h
        subst h
        by_cases hl : isASCIILower x = true
        · simp only [hl, if_true]
          exact xorSpace_not_lower x hl
        · simp only [hl, if_false]
          simpa using hl

theorem mem_camelLoop (s : Str) :
    ∀ (b : Bool) (c : Char), c ∈ camelLoop b s →
      c ∈ s ∨ (65 ≤ c.toNat ∧ c.toNat ≤ 90) := by
  induction s with
  | nil => intro b c h; simp [camelLoop] at h
  | cons x s ih =>
    intro b c h
    have hrec : ∀ b1, c ∈ camelLoop b1 s → c ∈ x :: s ∨ (65 ≤ c.toNat ∧ c.toNat ≤ 90) := by
      intro b1 h1
      rcases ih b1 c h1 with h2 | h2
      · exact Or.inl (List.mem_cons_of_mem _ h2)
      · exact Or.inr h2
    have hhead : c = x → c ∈ x :: s ∨ (65 ≤ c.toNat ∧ c.toNat ≤ 90) :=
      fun hx => Or.inl (hx ▸ List.mem_cons_self _ _)
    cases b with
    | true =>
      simp only [camelLoop] at h
      split at h
      · rcases List.mem_cons.mp h with h1 | h1
        · exact hhead h1
        · exact hrec _ h1
      · split at h
        · exact hrec _ h
        · split at h
          · rcases List.mem_cons.mp h with h1 | h1
            · exact hhead h1
            · exact hrec _ h1
          · rcases List.mem_cons.mp h with h1 | h1
            · exact hhead h1
            · exact hrec _ h1
    | false =>
      simp only [camelLoop] at h
      split at h
      · exact hrec _ h
      · split at h
        · rcases List.mem_cons.mp h with h1 | h1
          · exact hhead h1
          · exact hrec _ h1
        · rcases List.mem_cons.mp h with h1 | h1
          · by_cases hl : isASCIILower x = true
            · simp only [hl, if_true] at h1
              right
              rw [h1]
              exact (xorSpace_spec x hl).2
            · simp only [hl, if_false] at h1
              exact hhead h1
          · exact hrec _ h1

theorem mem_camelCase (s : Str) (c : Char) (h : c ∈ camelCase s) :
    c ∈ s ∨ (65 ≤ c.toNat ∧ c.toNat ≤ 90) := by
  cases s with
  | nil => simp [camelCase] at h
  | cons x s =>
    simp only [camelCase] at h
    split at h
    · rcases List.mem_cons.mp h with h1 | h1
      · right
        subst h1
        decide
      · rcases mem_camelLoop s false c h1 with h2 | h2
        · exact Or.inl (List.mem_cons_of_mem _ h2)
        · exact Or.inr h2
    · exact mem_camelLoop (x :: s) false c h

theorem splitAux_ne_nil (sep : Char) (s : Str) : ∀ cur, splitAux sep cur s ≠ [] := by
  induction s with
  | nil => intro cur; simp [splitAux]
  | cons x s ih =>
    intro cur
    simp only [splitAux]
    split
    · simp
    · exact ih _

theorem splitAux_append (sep : Char) (a b : Str) :
    ∀ cur, splitAux sep cur (a ++ sep :: b) = splitAux sep cur a ++ splitAux sep [] b := by
  induction a with
  | nil => intro cur; simp [splitAux]
  | cons x a ih =>
    intro cur
    simp only [List.cons_append, splitAux, List.append_eq]
    split
    · rw [ih]
      rfl
    · exact ih _

theorem joinWith_append (sep : Char) (xs ys : List Str) (hx : xs ≠ []) (hy : ys ≠ []) :
    joinWith sep (xs ++ ys) = joinWith sep xs ++ sep :: joinWith sep ys := by
  induction xs with
  | nil => exact absurd rfl hx
  | cons x xs ih =>
    cases xs with
    | nil =>
      cases ys with
      | nil => exact absurd rfl hy
      | cons y ys => simp [joinWith]
    | cons x1 xs =>
      have h := ih (by simp)
      simp only [List.cons_append] at h ⊢
      simp only [joinWith, h]
      simp

theorem camelCaseVars_append (a b : Str) :
    camelCaseVars (a ++ '.' :: b) = camelCaseVars a ++ '.' :: camelCaseVars b := by
  unfold camelCaseVars splitOn
  rw [splitAux_append, List.map_append, joinWith_append]
  · intro h
    rw [List.map_eq_nil_iff] at h
    exact splitAux_ne_nil _ _ _ h
  · intro h
    rw [List.map_eq_nil_iff] at h
    exact splitAux_ne_nil _ _ _ h

theorem camelCaseVars_no_dot (s : Str) (h : '.' ∉ s) : camelCaseVars s = camelCase s := by
  unfold camelCaseVars splitOn
  rw [splitAux_no_sep '.' s h]
  simp [joinWith]

theorem camelCase_no_dot (s : Str) (h : '.' ∉ s) : '.' ∉ camelCase s := by
  intro hm
  rcases mem_camelCase s '.' hm with h1 | h1
  · exact h h1
  · revert h1
    decide

theorem exists_first_dot (s : Str) (h : '.' ∈ s) :
    ∃ a b, s = a ++ '.' :: b ∧ '.' ∉ a := by
  induction s with
  | nil => simp at h
  | cons x s ih =>
    by_cases hx : x = '.'
    · exact ⟨[], s, by simp [hx], by simp⟩
    · have hs : '.' ∈ s := by
        rcases List.mem_cons.mp h with h1 | h1
        · exact absurd h1.symm hx
        · exact h1
      obtain ⟨a, b, hab, ha⟩ := ih hs
      refine ⟨x :: a, b, by simp [hab], ?_⟩
      intro hm
      rcases List.mem_cons.mp hm with h1 | h1
      · exact hx h1.symm
      · exact ha h1

theorem count_dot_camelCaseVars (n : Nat) :
    ∀ s : Str, s.length ≤ n → (camelCaseVars s).count '.' = s.count '.' := by
  induction n with
  | zero =>
    intro s hs
    have : s = [] := List.length_eq_zero.mp (Nat.le_zero.mp hs)
    subst this
    decide
  | succ n ih =>
    intro s hs
    by_cases hdot : '.' ∈ s
    · obtain ⟨a, b, hab, ha⟩ := exists_first_dot s hdot
      have hb : b.length ≤ n := by
        rw [hab] at hs
        simp at hs
        omega
      rw [hab, camelCaseVars_append, camelCaseVars_no_dot a ha, List.count_append,
        List.count_append, List.count_cons_self, List.count_cons_self, ih b hb,
        List.count_eq_zero_of_not_mem ha,
        List.count_eq_zero_of_not_mem (camelCase_no_dot a ha)]
    · rw [camelCaseVars_no_dot s hdot, List.count_eq_zero_of_not_mem hdot,
        List.count_eq_zero_of_not_mem (camelCase_no_dot s hdot)]

/-- C15: `camelCaseVars` transforms the `.`-separated segments one by one:
`camelCaseVars(a ++ "." ++ b)` is `camelCaseVars(a) ++ "." ++ camelCaseVars(b)` for all
strings, `camelCaseVars(s)` is `camelCase(s)` for a string without `.`, and the result has
as many `.` as the input. -/
theorem camelCaseVars_segmentwise :
    (∀ a b : Str, camelCaseVars (a ++ ".".toList ++ b)
      = camelCaseVars a ++ ".".toList ++ camelCaseVars b) ∧
    (∀ s : Str, '.' ∉ s → camelCaseVars s = camelCase s) ∧
    (∀ s : Str, (camelCaseVars s).count '.' = s.count '.') := by
  refine ⟨?_, camelCaseVars_no_dot, fun s => count_dot_camelCaseVars s.length s (Nat.le_refl _)⟩
  intro a b
  have h := camelCaseVars_append a b
  simpa using h

theorem camelLoop_true_lower_run (cs rest : Str) (h : ∀ c ∈ cs, isASCIILower c = true) :
    camelLoop true (cs ++ rest) = cs ++ camelLoop true rest := by
  induction cs with
  | nil => rfl
  | cons c cs ih =>
    rw [List.cons_append, camelLoop_true_of_lower c _ (h c (List.mem_cons_self _ _)),
      ih (fun d hd => h d (List.mem_cons_of_mem _ hd))]
    rfl

theorem camelLoop_false_word (c : Char) (cs rest : Str) (hc : isASCIILower c = true)
    (hcs : ∀ d ∈ cs, isASCIILower d = true) :
    camelLoop false (c :: cs ++ rest) = c.toUpper :: cs ++ camelLoop true rest := by
  have h1 : c ≠ '_' := lower_ne_underscore c hc
  have h2 : isASCIIDigit c = false := lower_not_digit c hc
  rw [List.cons_append]
  simp only [camelLoop, h1, decide_False, Bool.false_and, Bool.false_eq_true, if_false, h2, hc,
    if_true, (xorSpace_spec c hc).1, camelLoop_true_lower_run cs rest hcs]
  rfl

theorem camelLoop_true_underscore (c : Char) (t : Str) (hc : isASCIILower c = true) :
    camelLoop true ('_' :: c :: t) = camelLoop false (c :: t) := by
  have h0 : isASCIILower '_' = false := by decide
  simp only [camelLoop, h0, Bool.false_eq_true, if_false, hc, decide_True, Bool.and_self,
    if_true]

theorem joinWith_cons (sep : Char) (ws : List Str) :
    ∀ w : Str, joinWith sep (w :: ws) = w ++ (ws.map fun x => sep :: x).flatten := by
  induction ws with
  | nil => intro w; simp [joinWith]
  | cons y ys ih =>
    intro w
    simp only [joinWith, ih y, List.map_cons, List.flatten_cons, List.cons_append]

theorem camelLoop_true_words (ws : List Str)
    (h : ∀ x ∈ ws, x ≠ [] ∧ ∀ c ∈ x, isASCIILower c = true) :
    camelLoop true ((ws.map fun x => '_' :: x).flatten) = (ws.map upperFirst).flatten := by
  induction ws with
  | nil => rfl
  | cons y ys ih =>
    obtain ⟨hne, hy⟩ := h y (List.mem_cons_self _ _)
    cases y with
    | nil => exact absurd rfl hne
    | cons c cs =>
      have hc : isASCIILower c = true := hy c (List.mem_cons_self _ _)
      have hcs : ∀ d ∈ cs, isASCIILower d = true :=
        fun d hd => hy d (List.mem_cons_of_mem _ hd)
      simp only [List.map_cons, List.flatten_cons, List.cons_append, upperFirst]
      rw [camelLoop_true_underscore c _ hc]
      have hw := camelLoop_false_word c cs ((ys.map fun x => '_' :: x).flatten) hc hcs
      rw [List.cons_append] at hw
      rw [hw, ih (fun x hx => h x (List.mem_cons_of_mem _ hx))]
      simp

theorem not_mem_upperFirst (x : Str) (h : ∀ c ∈ x, isASCIILower c = true) :
    '_' ∉ upperFirst x := by
  cases x with
  | nil => simp [upperFirst]
  | cons c cs =>
    have hc : isASCIILower c = true := h c (List.mem_cons_self _ _)
    intro hm
    simp only [upperFirst, List.mem_cons] at hm
    rcases hm with h1 | h1
    · have hx := xorSpace_spec c hc
      rw [← hx.1] at h1
      have h2 := hx.2
      rw [← h1] at h2
      revert h2
      decide
    · exact lower_ne_underscore '_' (h '_' (List.mem_cons_of_mem _ h1)) rfl

/-- C16: for a non-empty list of non-empty words of ASCII lower-case letters, `camelCase`
of the words joined by `_` is the concatenation of the words, each with its first letter
in upper case and the rest unchanged; no underscore is left in it. -/
theorem camelCase_snake_words (w : Str) (ws : List Str)
    (h : ∀ x ∈ w :: ws, x ≠ [] ∧ ∀ c ∈ x, isASCIILower c = true) :
    camelCase (joinWith '_' (w :: ws)) = ((w :: ws).map upperFirst).flatten ∧
    '_' ∉ camelCase (joinWith '_' (w :: ws)) := by
  have heq : camelCase (joinWith '_' (w :: ws)) = ((w :: ws).map upperFirst).flatten := by
    obtain ⟨hne, hw⟩ := h w (List.mem_cons_self _ _)
    cases w with
    | nil => exact absurd rfl hne
    | cons c cs =>
      have hc : isASCIILower c = true := hw c (List.mem_cons_self _ _)
      have hcs : ∀ d ∈ cs, isASCIILower d = true :=
        fun d hd => hw d (List.mem_cons_of_mem _ hd)
      have hu : c ≠ '_' := lower_ne_underscore c hc
      have hword := camelLoop_false_word c cs ((ws.map fun x => '_' :: x).flatten) hc hcs
      rw [List.cons_append] at hword
      rw [joinWith_cons, List.cons_append]
      simp only [camelCase, hu, if_false, hword,
        camelLoop_true_words ws (fun x hx => h x (List.mem_cons_of_mem _ hx)),
        List.map_cons, List.flatten_cons, upperFirst, List.cons_append, List.append_assoc]
  refine ⟨heq, ?_⟩
  rw [heq]
  intro hm
  rw [List.mem_flatten] at hm
  obtain ⟨l, hl, hml⟩ := hm
  rw [List.mem_map] at hl
  obtain ⟨x, hx, hxl⟩ := hl
  subst hxl
  exact not_mem_upperFirst x (h x hx).2 hml

theorem camelCase_snake_words_witness :
    (∀ x ∈ ["my".toList, "field".toList, "name".toList],
      x ≠ [] ∧ ∀ c ∈ x, isASCIILower c = true) ∧
    camelCase "my_field_name".toList = "MyFieldName".toList :=
  ⟨by decide, (camelCase_snake_words "my".toList ["field".toList, "name".toList]
    (by decide)).1⟩

theorem camelLoop_false_skip (d : Char) (t : Str) (hd : isASCIILower d = true) :
    camelLoop false ('_' :: d :: t) = camelLoop false (d :: t) := by
  simp only [camelLoop, hd, decide_True, Bool.and_self, if_true]

theorem camelLoop_false_digit (c : Char) (s : Str) (hd : isASCIIDigit c = true) :
    camelLoop false (c :: s) = c :: camelLoop false s := by
  have hu : c ≠ '_' := digit_ne_underscore c hd
  simp only [camelLoop, hu, decide_False, Bool.false_and, Bool.false_eq_true, if_false, hd,
    if_true]

theorem camelLoop_false_letter (c : Char) (s : Str) (hd : isASCIIDigit c = false)
    (hns : c = '_' → ∀ d, s.head? = some d → isASCIILower d = false) :
    camelLoop false (c :: s)
      = (if isASCIILower c = true then xorSpace c else c) :: camelLoop true s := by
  by_cases hu : c = '_'
  · cases s with
    | nil => simp [camelLoop, hd]
    | cons d t =>
      have hdl : isASCIILower d = false := hns hu d rfl
      simp [camelLoop, hd, hdl]
  · simp [camelLoop, hd, hu]

/-- The three cases of an iteration of the outer loop of `camelCase`. -/
theorem camelLoop_cases (c : Char) (s : Str) :
    (c = '_' ∧ ∃ d t, s = d :: t ∧ isASCIILower d = true) ∨
    isASCIIDigit c = true ∨
    (isASCIIDigit c = false ∧
      (c = '_' → ∀ d, s.head? = some d → isASCIILower d = false)) := by
  by_cases hd : isASCIIDigit c = true
  · exact Or.inr (Or.inl hd)
  · have hd1 : isASCIIDigit c = false := by simpa using hd
    by_cases hu : c = '_'
    · cases s with
      | nil => exact Or.inr (Or.inr ⟨hd1, fun _ d h => by simp at h⟩)
      | cons d t =>
        by_cases hl : isASCIILower d = true
        · exact Or.inl ⟨hu, d, t, rfl, hl⟩
        · refine Or.inr (Or.inr ⟨hd1, fun _ d1 h => ?_⟩)
          simp only [List.head?_cons, Option.some.injEq] at h
          subst h
          simpa using hl
    · exact Or.inr (Or.inr ⟨hd1, fun h => absurd h hu⟩)

theorem letter_out (c : Char) (hd : isASCIIDigit c = false) :
    isASCIILower (if isASCIILower c = true then xorSpace c else c) = false ∧
    isASCIIDigit (if isASCIILower c = true then xorSpace c else c) = false ∧
    ((if isASCIILower c = true then xorSpace c else c) = '_' → c = '_') := by
  by_cases hl : isASCIILower c = true
  · simp only [hl, if_true]
    refine ⟨xorSpace_not_lower c hl, xorSpace_not_digit c hl, ?_⟩
    intro h
    exact absurd h (xorSpace_ne c '_' hl (by decide))
  · simp only [hl, if_false]
    exact ⟨by simpa using hl, hd, fun h => h⟩

theorem camelLoop_true_head (s : Str)
    (h : ∀ d, s.head? = some d → isASCIILower d = false) :
    ∀ d, (camelLoop true s).head? = some d → isASCIILower d = false := by
  rw [camelLoop_true_eq_false s h]
  exact camelLoop_false_head s

theorem camelLoop_idem (s : Str) :
    camelLoop false (camelLoop false s) = camelLoop false s ∧
    camelLoop true (camelLoop true s) = camelLoop true s := by
  induction s with
  | nil => simp [camelLoop]
  | cons c s ih =>
    have hF : camelLoop false (camelLoop false (c :: s)) = camelLoop false (c :: s) := by
      rcases camelLoop_cases c s with ⟨hu, d, t, hs, hl⟩ | hd | ⟨hd, hns⟩
      · subst hu hs
        rw [camelLoop_false_skip d t hl]
        exact ih.1
      · rw [camelLoop_false_digit c s hd, camelLoop_false_digit c _ hd, ih.1]
      · obtain ⟨ol, od, ou⟩ := letter_out c hd
        rw [camelLoop_false_letter c s hd hns]
        rw [camelLoop_false_letter _ _ od
          (fun hu => camelLoop_true_head s (hns (ou hu)))]
        simp only [ol, Bool.false_eq_true, if_false, ih.2]
    refine ⟨hF, ?_⟩
    by_cases hl : isASCIILower c = true
    · rw [camelLoop_true_of_lower c s hl, camelLoop_true_of_lower c _ hl, ih.2]
    · have hc : ∀ d, (c :: s).head? = some d → isASCIILower d = false := by
        intro d h
        simp only [List.head?_cons, Option.some.injEq] at h
        subst h
        simpa using hl
      rw [camelLoop_true_eq_false (c :: s) hc,
        camelLoop_true_eq_false _ (camelLoop_false_head (c :: s)), hF]

theorem camelCase_idem (s : Str) : camelCase (camelCase s) = camelCase s := by
  cases s with
  | nil => rfl
  | cons c s =>
    by_cases hu : c = '_'
    · have e : camelCase (c :: s) = 'X' :: camelLoop false s := by simp [camelCase, hu]
      have hx : ('X' : Char) ≠ '_' := by decide
      rw [e]
      simp only [camelCase, hx, if_false]
      rw [camelLoop_false_letter 'X' _ (by decide) (fun h => absurd h hx),
        camelLoop_true_eq_false _ (camelLoop_false_head s), (camelLoop_idem s).1]
      rfl
    · have e : camelCase (c :: s) = camelLoop false (c :: s) := by simp [camelCase, hu]
      rw [e]
      rcases camelLoop_cases c s with ⟨hu1, -⟩ | hd | ⟨hd, hns⟩
      · exact absurd hu1 hu
      · have e2 : camelLoop false (c :: s) = c :: camelLoop false s :=
          camelLoop_false_digit c s hd
        rw [e2]
        simp only [camelCase, hu, if_false]
        rw [← e2, (camelLoop_idem (c :: s)).1]
      · obtain ⟨_, _, ou⟩ := letter_out c hd
        have e2 := camelLoop_false_letter c s hd hns
        have hne : (if isASCIILower c = true then xorSpace c else c) ≠ '_' :=
          fun h => hu (ou h)
        rw [e2]
        simp only [camelCase, hne, if_false]
        rw [← e2, (camelLoop_idem (c :: s)).1]

theorem splitAux_joinWith (xs : List Str) (hne : xs ≠ []) (h : ∀ x ∈ xs, '.' ∉ x) :
    splitAux '.' [] (joinWith '.' xs) = xs := by
  induction xs with
  | nil => exact absurd rfl hne
  | cons x xs ih =>
    cases xs with
    | nil =>
      simp only [joinWith]
      rw [splitAux_no_sep '.' x (h x (List.mem_cons_self _ _))]
      simp
    | cons y ys =>
      simp only [joinWith]
      rw [splitAux_append, splitAux_no_sep '.' x (h x (List.mem_cons_self _ _)),
        ih (by simp) (fun z hz => h z (List.mem_cons_of_mem _ hz))]
      simp

theorem splitAux_no_sep_mem (sep : Char) (s : Str) :
    ∀ (cur seg : Str), sep ∉ cur → seg ∈ splitAux sep cur s → sep ∉ seg := by
  induction s with
  | nil =>
    intro cur seg hcur h
    simp only [splitAux, List.mem_singleton] at h
    subst h
    simpa using hcur
  | cons x s ih =>
    intro cur seg hcur h
    simp only [splitAux] at h
    by_cases hx : x = sep
    · simp only [hx, if_true, List.mem_cons] at h
      rcases h with h | h
      · subst h
        simpa using hcur
      · exact ih [] seg (by simp) h
    · simp only [hx, if_false] at h
      refine ih (x :: cur) seg ?_ h
      intro hm
      rcases List.mem_cons.mp hm with h1 | h1
      · exact hx h1.symm
      · exact hcur h1

theorem camelCaseVars_idem (s : Str) : camelCaseVars (camelCaseVars s) = camelCaseVars s := by
  unfold camelCaseVars splitOn
  have hseg : ∀ x ∈ (splitAux '.' [] s).map camelCase, '.' ∉ x := by
    intro x hx
    rw [List.mem_map] at hx
    obtain ⟨y, hy, hyx⟩ := hx
    subst hyx
    exact camelCase_no_dot y (splitAux_no_sep_mem '.' s [] y (by simp) hy)
  have hne : (splitAux '.' [] s).map camelCase ≠ [] := by
    intro h
    rw [List.map_eq_nil_iff] at h
    exact splitAux_ne_nil _ _ _ h
  rw [splitAux_joinWith _ hne hseg, List.map_map]
  congr 1
  apply List.map_congr_left
  intro x _
  exact camelCase_idem x

/-- C17: `camelCase` is idempotent, and so is `camelCaseVars`.  The statement is over all
lists of runes; a byte string is the list of the runes with the codes of its bytes, on
which the loop does what the source does on the bytes. -/
theorem camelCase_idempotent :
    (∀ s : Str, camelCase (camelCase s) = camelCase s) ∧
    (∀ s : Str, camelCaseVars (camelCaseVars s) = camelCaseVars s) :=
  ⟨camelCase_idem, camelCaseVars_idem⟩

theorem noUnderscoreLower_cons (x : Char) (t : Str)
    (hx : x = '_' → ∀ d, t.head? = some d → isASCIILower d = false)
    (ht : ∀ pre c post, t = pre ++ '_' :: c :: post → isASCIILower c = false) :
    ∀ pre c post, x :: t = pre ++ '_' :: c :: post → isASCIILower c = false := by
  intro pre c post h
  cases pre with
  | nil =>
    simp only [List.nil_append, List.cons.injEq] at h
    obtain ⟨h1, h2⟩ := h
    exact hx h1 c (by rw [h2]; rfl)
  | cons p pre =>
    simp only [List.cons_append, List.cons.injEq] at h
    exact ht pre c post h.2

theorem camelLoop_noUnderscoreLower (s : Str) :
    ∀ (b : Bool) (pre : Str) (c : Char) (post : Str),
      camelLoop b s = pre ++ '_' :: c :: post → isASCIILower c = false := by
  induction s with
  | nil =>
    intro b pre c post h
    have h1 : camelLoop b [] = [] := by cases b <;> rfl
    rw [h1] at h
    cases pre <;> simp at h
  | cons x s ih =>
    have hF : ∀ pre c post, camelLoop false (x :: s) = pre ++ '_' :: c :: post →
        isASCIILower c = false := by
      rcases camelLoop_cases x s with ⟨hu, d, t, hs, hl⟩ | hd | ⟨hd, hns⟩
      · subst hu hs
        rw [camelLoop_false_skip d t hl]
        exact ih false
      · rw [camelLoop_false_digit x s hd]
        exact noUnderscoreLower_cons x _
          (fun hu => absurd hu (digit_ne_underscore x hd)) (ih false)
      · obtain ⟨_, _, ou⟩ := letter_out x hd
        rw [camelLoop_false_letter x s hd hns]
        exact noUnderscoreLower_cons _ _
          (fun hu => camelLoop_true_head s (hns (ou hu))) (ih true)
    intro b
    cases b with
    | false => exact hF
    | true =>
      by_cases hl : isASCIILower x = true
      · rw [camelLoop_true_of_lower x s hl]
        exact noUnderscoreLower_cons x _
          (fun hu => absurd hu (lower_ne_underscore x hl)) (ih true)
      · have hc : ∀ d, (x :: s).head? = some d → isASCIILower d = false := by
          intro d h
          simp only [List.head?_cons, Option.some.injEq] at h
          subst h
          simpa using hl
        rw [camelLoop_true_eq_false (x :: s) hc]
        exact hF

theorem camelCase_head (c : Char) (s : Str) :
    ∃ h t, camelCase (c :: s) = h :: t ∧ isASCIILower h = false ∧ h ≠ '_' := by
  by_cases hu : c = '_'
  · exact ⟨'X', camelLoop false s, by simp [camelCase, hu], by decide, by decide⟩
  · have e : camelCase (c :: s) = camelLoop false (c :: s) := by simp [camelCase, hu]
    rw [e]
    rcases camelLoop_cases c s with ⟨hu1, -⟩ | hd | ⟨hd, hns⟩
    · exact absurd hu1 hu
    · exact ⟨c, _, camelLoop_false_digit c s hd, digit_not_lower c hd, hu⟩
    · obtain ⟨ol, _, ou⟩ := letter_out c hd
      exact ⟨_, _, camelLoop_false_letter c s hd hns, ol, fun h => hu (ou h)⟩

/-- C18: for a non-empty string, `camelCase` returns a non-empty string whose first rune
is neither an ASCII lower-case letter nor `_`, and in which no `_` is immediately
followed by an ASCII lower-case letter. -/
theorem camelCase_output_shape (s : Str) (hs : s ≠ []) :
    camelCase s ≠ [] ∧
    (∀ c, (camelCase s).head? = some c → isASCIILower c = false ∧ c ≠ '_') ∧
    (∀ pre c post, camelCase s = pre ++ '_' :: c :: post → isASCIILower c = false) := by
  cases s with
  | nil => exact absurd rfl hs
  | cons x s =>
    obtain ⟨h, t, heq, hl, hu⟩ := camelCase_head x s
    refine ⟨by rw [heq]; simp, ?_, ?_⟩
    · intro c hc
      rw [heq] at hc
      simp only [List.head?_cons, Option.some.injEq] at hc
      subst hc
      exact ⟨hl, hu⟩
    · by_cases hx : x = '_'
      · have e : camelCase (x :: s) = 'X' :: camelLoop false s := by simp [camelCase, hx]
        rw [e]
        exact noUnderscoreLower_cons 'X' _ (fun h => absurd h (by decide))
          (camelLoop_noUnderscoreLower s false)
      · have e : camelCase (x :: s) = camelLoop false (x :: s) := by simp [camelCase, hx]
        rw [e]
        exact camelLoop_noUnderscoreLower (x :: s) false

theorem camelCase_output_shape_witness :
    "a__b_c1d_".toList ≠ [] ∧
    camelCase "a__b_c1d_".toList = "A_BC1D_".toList ∧
    (∀ c, (camelCase "a__b_c1d_".toList).head? = some c →
      isASCIILower c = false ∧ c ≠ '_') :=
  ⟨by decide, by decide,
    (camelCase_output_shape "a__b_c1d_".toList (by decide)).2.1⟩

end GinHttp
